import Mathlib

/-!
Train route catalog (`four.c`).

A shallow embedding of the linked-list route catalog and its bounded undo
stack, and theorems about it.

Modelling conventions.

* A pointer is a natural number, `NULL` is `0`.  The heap maps the address of
  every live `TrainRoute` allocation to the node stored there; an address that
  is not a live allocation maps to `none`.
* `malloc` is not deterministic in C.  The address it returns is an explicit
  argument `p` of `createRoute` / `insertRoute`; `p = NULL` is a failed
  allocation, and the contract of `malloc` (the block is disjoint from every
  live allocation) is the hypothesis `h p = none` of the theorems.
* A `RouteStack *` argument is `Option RouteStack`: `none` is the null pointer,
  `some s` a pointer to a stack object whose current value is `s`.
* A station name stored in a `char[50]` array is a `Name`: a string of at most
  49 bytes (text without NUL characters).  A `char *` argument that is only
  compared is a `String`; `strcmp(a, b) == 0` is equality of the strings.
  `int` is `Int` (no arithmetic is done on `stoppages`; the conversion `%d` of
  `fscanf` stores the low 32 bits).  `float` is `Float32`, the sign, exponent
  and fraction bits of an IEEE 754 binary32 value; a decimal constant such as
  `0.45` is the `float` nearest to it.
* A function returns `Except Fault _`: `.error` is a run that does not return
  (null or dangling dereference, array index out of range), or a run of the
  model that exhausted the loop bound `fuel`.
* What a function prints is returned as a list of `Out` events (the menu and
  the prompts of `main`, which depend on nothing, are left out).
* The file `train_routes.txt` is `Option String`: `none` when it does not
  exist.  `fprintf` and `fscanf` are modelled for the one format string each is
  called with, on text without NUL characters, as the C library does them:
  `%.2f` prints the exact value rounded to hundredths (ties to even) or `inf`
  or `nan`; `%d` reads a decimal `long` and stores its low 32 bits; `%f` reads
  a decimal or hexadecimal number, `inf`, `infinity` or `nan` and stores the
  nearest `float`.
-/

namespace TrainRoutes

/-! ## Data model -/

/-- An address; `0` is the null pointer. -/
abbrev Ptr := Nat

/-- The null pointer. -/
def NULL : Ptr := 0

/-- The constant of `#define STACK_SIZE 10`. -/
def STACK_SIZE : Nat := 10

/-- A C string that fits a `char[50]` array: at most 49 bytes and the
terminator. -/
abbrev Name := { s : String // s.utf8ByteSize < 50 }

/-- The type `float` (IEEE 754 binary32): the sign bit, the biased exponent of
8 bits and the fraction of 23 bits.  The exponent 255 is an infinity when the
fraction is 0 and a NaN otherwise; the exponent 0 is a zero or a subnormal. -/
structure Float32 where
  sign : Bool
  expo : Fin 256
  frac : Fin 8388608
deriving DecidableEq

/-- The power `2 ^ e` of an integer exponent. -/
def pow2 (e : Int) : Rat :=
  if 0 ≤ e then ((2 ^ e.toNat : Nat) : Rat) else 1 / ((2 ^ (-e).toNat : Nat) : Rat)

/-- The absolute value of a finite `float`. -/
def Float32.mag (x : Float32) : Rat :=
  if x.expo.val = 0 then (x.frac.val : Rat) * pow2 (-149)
  else ((8388608 + x.frac.val : Nat) : Rat) * pow2 ((x.expo.val : Int) - 150)

/-- An infinity. -/
def Float32.inf (sign : Bool) : Float32 := ⟨sign, 255, 0⟩

/-- The NaN that the C library reads from the text `nan`. -/
def Float32.nan (sign : Bool) : Float32 := ⟨sign, 255, 4194304⟩

/-- The non-negative rational `q` rounded to the nearest integer, ties to the
even one. -/
def roundHalfEven (q : Rat) : Nat :=
  let f := q.floor.toNat
  let r := q - f
  if r < 1 / 2 then f
  else if 1 / 2 < r then f + 1
  else if f % 2 = 0 then f else f + 1

/-- The exponent `e` with `2 ^ e ≤ q < 2 ^ (e + 1)` of a positive rational. -/
def floorLog2 (q : Rat) : Int :=
  let e : Int := (Nat.log2 q.num.natAbs : Int) - (Nat.log2 q.den : Int)
  if pow2 e ≤ q then e else e - 1

/-- The `float` of the given sign nearest to the non-negative rational `q`, ties
to the even fraction: the rounding of a conversion to `float`.  A value that
rounds to `2 ^ 128` or more is an infinity. -/
def Float32.round (sign : Bool) (q : Rat) : Float32 :=
  if q ≤ 0 then ⟨sign, 0, 0⟩
  else
    let b : Int := max 1 (floorLog2 q + 127)
    let n : Nat := roundHalfEven (q / pow2 (b - 150))
    let code : Nat := (b - 1).toNat * 8388608 + n
    if h : code < 255 * 8388608 then
      ⟨sign, ⟨code / 8388608, by omega⟩, ⟨code % 8388608, by omega⟩⟩
    else Float32.inf sign

/-- A decimal constant of the source as a `float` argument, such as the `1.75`
of `insertRoute(head, NULL, "Sealdah", "Bongaon", 13, 1.75)`: the nearest
`float`. -/
instance instOfScientificFloat32 : OfScientific Float32 :=
  ⟨fun m s e => Float32.round false (OfScientific.ofScientific m s e : Rat)⟩

/-- The four data fields of a route record. -/
structure Route where
  startStation : Name
  destination : Name
  stoppages : Int
  duration : Float32
deriving DecidableEq

/-- The type `struct TrainRoute`: the four data fields and the link. -/
structure TrainRoute where
  startStation : Name
  destination : Name
  stoppages : Int
  duration : Float32
  next : Ptr
deriving DecidableEq

/-- The data fields of a node. -/
def TrainRoute.record (n : TrainRoute) : Route :=
  ⟨n.startStation, n.destination, n.stoppages, n.duration⟩

/-- The live `TrainRoute` allocations. -/
abbrev Heap := Ptr → Option TrainRoute

/-- The type `struct RouteStack`: the array `routes[STACK_SIZE]` and `top`. -/
structure RouteStack where
  routes : Nat → Ptr
  top : Int

/-- Ways in which a run fails to return. -/
inductive Fault where
  | nullDeref
  | invalidDeref
  | outOfBounds
  | outOfFuel
deriving DecidableEq, Repr

/-- What the program prints (the `printf` calls of `four.c`), with the
arguments of the format string. -/
inductive Out where
  | stackFull
  | stackEmpty
  | noRoutes
  | routeLine (r : Route)
  | routeFound (r : Route)
  | noRouteFound (startStation destination : String)
  | deleted (startStation destination : String)
  | notFound (startStation destination : String)
  | undone
  | writeError
  | noExistingRoutes
  | exiting
  | invalidChoice
deriving DecidableEq

/-! ## Memory access -/

/-- Reading `*p`. -/
def load (h : Heap) (p : Ptr) : Except Fault TrainRoute :=
  if p = NULL then .error .nullDeref
  else match h p with
    | some n => .ok n
    | none => .error .invalidDeref

/-- Writing the node at address `p`. -/
def store (h : Heap) (p : Ptr) (n : TrainRoute) : Heap :=
  fun q => if q = p then some n else h q

/-- The assignment `p->next = q`. -/
def setNext (h : Heap) (p q : Ptr) : Except Fault Heap :=
  match load h p with
  | .error e => .error e
  | .ok n => .ok (store h p { n with next := q })

/-- The call `free(p)` on a live allocation. -/
def free (h : Heap) (p : Ptr) : Except Fault Heap :=
  match load h p with
  | .error e => .error e
  | .ok _ => .ok (fun q => if q = p then none else h q)

/-! ## The undo stack (`four.c` lines 24-62) -/

/-- The function `initStack`: `stack->top = -1`. -/
def initStack (stack : Option RouteStack) : Except Fault RouteStack :=
  match stack with
  | none => .error .nullDeref
  | some s => .ok { s with top := -1 }

/-- The function `isEmpty`: `stack->top == -1`. -/
def isEmpty (stack : Option RouteStack) : Except Fault Bool :=
  match stack with
  | none => .error .nullDeref
  | some s => .ok (decide (s.top = -1))

/-- The function `isFull`: `stack->top == STACK_SIZE - 1`. -/
def isFull (stack : Option RouteStack) : Except Fault Bool :=
  match stack with
  | none => .error .nullDeref
  | some s => .ok (decide (s.top = (STACK_SIZE : Int) - 1))

/-- The function `pushStack`: nothing but a message when the stack is full,
otherwise `stack->routes[++(stack->top)] = route`.  The result is the stack
object after the call and the output. -/
def pushStack (stack : Option RouteStack) (route : Ptr) :
    Except Fault (RouteStack × List Out) :=
  match isFull stack with
  | .error e => .error e
  | .ok full =>
    match stack with
    | none => .error .nullDeref
    | some s =>
      if full then .ok (s, [Out.stackFull])
      else
        let top := s.top + 1
        if 0 ≤ top ∧ top < (STACK_SIZE : Int) then
          .ok ({ routes := fun i => if i = top.toNat then route else s.routes i,
                 top := top }, [])
        else .error .outOfBounds

/-- The function `popStack`: `NULL` and a message when the stack is empty,
otherwise `stack->routes[(stack->top)--]`.  The result is the stack object after
the call, the pointer returned and the output. -/
def popStack (stack : Option RouteStack) :
    Except Fault (RouteStack × Ptr × List Out) :=
  match isEmpty stack with
  | .error e => .error e
  | .ok empty =>
    match stack with
    | none => .error .nullDeref
    | some s =>
      if empty then .ok (s, NULL, [Out.stackEmpty])
      else if 0 ≤ s.top ∧ s.top < (STACK_SIZE : Int) then
        .ok ({ s with top := s.top - 1 }, s.routes s.top.toNat, [])
      else .error .outOfBounds

/-! ## The catalog (`four.c` lines 64-203) -/

/-- The function `createRoute`: `p` is the address `malloc` returns; the fields
are written through it and `next` is set to `NULL`. -/
def createRoute (h : Heap) (p : Ptr) (startStation destination : Name)
    (stoppages : Int) (duration : Float32) : Except Fault (Heap × Ptr) :=
  if p = NULL then .error .nullDeref
  else .ok (store h p ⟨startStation, destination, stoppages, duration, NULL⟩, p)

/-- The loop of `insertRoute`: `while (temp->next != NULL) temp = temp->next;`. -/
def insertRouteLoop (h : Heap) : Nat → Ptr → Except Fault Ptr
  | 0, _ => .error .outOfFuel
  | fuel + 1, temp =>
    match load h temp with
    | .error e => .error e
    | .ok n => if n.next ≠ NULL then insertRouteLoop h fuel n.next else .ok temp

/-- The call `insertRoute(&head, stack, ...)`: the new node is linked after the
last node (or becomes the head), then pushed on the stack.  The result is the
heap, `head`, the stack and the output. -/
def insertRoute (fuel : Nat) (h : Heap) (head : Ptr) (stack : Option RouteStack)
    (p : Ptr) (startStation destination : Name) (stoppages : Int) (duration : Float32) :
    Except Fault (Heap × Ptr × RouteStack × List Out) :=
  match createRoute h p startStation destination stoppages duration with
  | .error e => .error e
  | .ok (h1, newRoute) =>
    let linked : Except Fault (Heap × Ptr) :=
      if head = NULL then .ok (h1, newRoute)
      else match insertRouteLoop h1 fuel head with
        | .error e => .error e
        | .ok temp =>
          match setNext h1 temp newRoute with
          | .error e => .error e
          | .ok h2 => .ok (h2, head)
    match linked with
    | .error e => .error e
    | .ok (h2, head2) =>
      match pushStack stack newRoute with
      | .error e => .error e
      | .ok (s2, out) => .ok (h2, head2, s2, out)

/-- The loop of `displayRoutes`: one line per node until `temp == NULL`. -/
def displayRoutesLoop (h : Heap) : Nat → Ptr → Except Fault (List Out)
  | 0, _ => .error .outOfFuel
  | fuel + 1, temp =>
    if temp ≠ NULL then
      match load h temp with
      | .error e => .error e
      | .ok n =>
        match displayRoutesLoop h fuel n.next with
        | .error e => .error e
        | .ok out => .ok (Out.routeLine n.record :: out)
    else .ok []

/-- The call `displayRoutes(head)`.  The result is the heap and `head` after
the call (the function writes to neither) and the output. -/
def displayRoutes (fuel : Nat) (h : Heap) (head : Ptr) :
    Except Fault (Heap × Ptr × List Out) :=
  if head = NULL then .ok (h, head, [Out.noRoutes])
  else match displayRoutesLoop h fuel head with
    | .error e => .error e
    | .ok out => .ok (h, head, out)

/-- The loop of `searchRoute`: stops at the first node whose two names equal the
key, printing it; the result is the output and the flag `found`.  The heap is
returned as it is: the loop assigns through no pointer. -/
def searchRouteLoop (h : Heap) (startStation destination : String) :
    Nat → Ptr → Except Fault (List Out × Bool)
  | 0, _ => .error .outOfFuel
  | fuel + 1, temp =>
    if temp ≠ NULL then
      match load h temp with
      | .error e => .error e
      | .ok n =>
        if n.startStation.val = startStation ∧ n.destination.val = destination then
          .ok ([Out.routeFound n.record], true)
        else searchRouteLoop h startStation destination fuel n.next
    else .ok ([], false)

/-- The call `searchRoute(head, startStation, destination)`.  The result is the
heap and `head` after the call (the function writes to neither) and the
output. -/
def searchRoute (fuel : Nat) (h : Heap) (head : Ptr) (startStation destination : String) :
    Except Fault (Heap × Ptr × List Out) :=
  match searchRouteLoop h startStation destination fuel head with
  | .error e => .error e
  | .ok (out, found) =>
    if !found then .ok (h, head, out ++ [Out.noRouteFound startStation destination])
    else .ok (h, head, out)

/-- The test `strcmp(temp->startStation, startStation) == 0 &&
strcmp(temp->destination, destination) == 0` on a non-null `temp`. -/
def keyMatches (h : Heap) (temp : Ptr) (startStation destination : String) :
    Except Fault Bool :=
  match load h temp with
  | .error e => .error e
  | .ok n =>
    .ok (decide (n.startStation.val = startStation ∧ n.destination.val = destination))

/-- The loop of `deleteRoute`: advances `prev` and `temp` while `temp` is not
null and differs from the key in one of the two names; the result is
`(temp, prev)`. -/
def deleteRouteLoop (h : Heap) (startStation destination : String) :
    Nat → Ptr → Ptr → Except Fault (Ptr × Ptr)
  | 0, _, _ => .error .outOfFuel
  | fuel + 1, temp, prev =>
    if temp ≠ NULL then
      match load h temp with
      | .error e => .error e
      | .ok n =>
        if n.startStation.val ≠ startStation ∨ n.destination.val ≠ destination then
          deleteRouteLoop h startStation destination fuel n.next temp
        else .ok (temp, prev)
    else .ok (temp, prev)

/-- The call `deleteRoute(&head, startStation, destination)`.  The result is
the heap, `head` and the output. -/
def deleteRoute (fuel : Nat) (h : Heap) (head : Ptr) (startStation destination : String) :
    Except Fault (Heap × Ptr × List Out) :=
  let headHit : Except Fault Bool :=
    if head ≠ NULL then keyMatches h head startStation destination else .ok false
  match headHit with
  | .error e => .error e
  | .ok true =>
    match load h head with
    | .error e => .error e
    | .ok n =>
      match free h head with
      | .error e => .error e
      | .ok h1 => .ok (h1, n.next, [Out.deleted startStation destination])
  | .ok false =>
    match deleteRouteLoop h startStation destination fuel head NULL with
    | .error e => .error e
    | .ok (temp, prev) =>
      if temp = NULL then .ok (h, head, [Out.notFound startStation destination])
      else
        match load h temp with
        | .error e => .error e
        | .ok n =>
          match setNext h prev n.next with
          | .error e => .error e
          | .ok h1 =>
            match free h1 temp with
            | .error e => .error e
            | .ok h2 => .ok (h2, head, [Out.deleted startStation destination])

/-- The loop of `undoLastRoute`: advances `prev` and `temp` while `temp` is
neither null nor `lastRoute` (a comparison of addresses); the result is
`(temp, prev)`. -/
def undoLastRouteLoop (h : Heap) (lastRoute : Ptr) :
    Nat → Ptr → Ptr → Except Fault (Ptr × Ptr)
  | 0, _, _ => .error .outOfFuel
  | fuel + 1, temp, prev =>
    if temp ≠ NULL ∧ temp ≠ lastRoute then
      match load h temp with
      | .error e => .error e
      | .ok n => undoLastRouteLoop h lastRoute fuel n.next temp
    else .ok (temp, prev)

/-- The call `undoLastRoute(&head, stack)`.  The result is the heap, `head`, the stack
and the output. -/
def undoLastRoute (fuel : Nat) (h : Heap) (head : Ptr) (stack : Option RouteStack) :
    Except Fault (Heap × Ptr × RouteStack × List Out) :=
  match popStack stack with
  | .error e => .error e
  | .ok (s1, lastRoute, out) =>
    if lastRoute ≠ NULL then
      match undoLastRouteLoop h lastRoute fuel head NULL with
      | .error e => .error e
      | .ok (temp, prev) =>
        if temp = lastRoute then
          match load h temp with
          | .error e => .error e
          | .ok n =>
            let unlinked : Except Fault (Heap × Ptr) :=
              if prev = NULL then .ok (h, n.next)
              else match setNext h prev n.next with
                | .error e => .error e
                | .ok h1 => .ok (h1, head)
            match unlinked with
            | .error e => .error e
            | .ok (h1, head1) =>
              match free h1 temp with
              | .error e => .error e
              | .ok h2 => .ok (h2, head1, s1, out ++ [Out.undone])
        else .ok (h, head, s1, out)
    else .ok (h, head, s1, out)

/-! ## Abstraction: the catalog reachable from `head` -/

/-- The relation `IsCatalog h head L`: following `next` from `head` visits exactly the
nodes of `L` (address and data fields, in order) and then reaches `NULL`. -/
def IsCatalog (h : Heap) : Ptr → List (Ptr × Route) → Prop
  | p, [] => p = NULL
  | p, x :: L =>
    p = x.1 ∧ p ≠ NULL ∧ ∃ n, h p = some n ∧ n.record = x.2 ∧ IsCatalog h n.next L

/-- The relation `IsCatalog` is decidable: the chain is followed along the
list. -/
instance instDecidableIsCatalog (h : Heap) :
    (p : Ptr) → (L : List (Ptr × Route)) → Decidable (IsCatalog h p L)
  | p, [] => inferInstanceAs (Decidable (p = NULL))
  | p, x :: L =>
    match hq : h p with
    | none => isFalse (fun hc => by
        obtain ⟨_, _, n, hn, _⟩ := hc
        rw [hq] at hn
        exact Option.noConfusion hn)
    | some n =>
      have : Decidable (IsCatalog h n.next L) := instDecidableIsCatalog h n.next L
      decidable_of_iff (p = x.1 ∧ p ≠ NULL ∧ n.record = x.2 ∧ IsCatalog h n.next L)
        ⟨fun hc => ⟨hc.1, hc.2.1, n, hq, hc.2.2.1, hc.2.2.2⟩,
         fun hc => by
          obtain ⟨h1, h2, m, hm, h3, h4⟩ := hc
          rw [hq] at hm
          have e : n = m := Option.some.inj hm
          subst e
          exact ⟨h1, h2, h3, h4⟩⟩

/-- The addresses of the nodes of a catalog, in order. -/
def ptrs (L : List (Ptr × Route)) : List Ptr := L.map Prod.fst

/-- The records of a catalog, in order. -/
def records (L : List (Ptr × Route)) : List Route := L.map Prod.snd

/-- The key test of `deleteRoute` and `searchRoute` on a catalog entry: both
names equal the key. -/
def hasKey (startStation destination : String) (x : Ptr × Route) : Bool :=
  decide (x.2.startStation.val = startStation ∧ x.2.destination.val = destination)

/-- The identity test of `undoLastRoute` on a catalog entry: the node is the
one at address `p`. -/
def isAt (p : Ptr) (x : Ptr × Route) : Bool := decide (x.1 = p)

/-- An address `malloc` may return: not null and not a live allocation. -/
def Fresh (h : Heap) (p : Ptr) : Prop := p ≠ NULL ∧ h p = none

instance instDecidableFresh (h : Heap) (p : Ptr) : Decidable (Fresh h p) :=
  inferInstanceAs (Decidable (p ≠ NULL ∧ h p = none))

/-- The stack invariant: `-1 ≤ top ≤ STACK_SIZE - 1`. -/
def RouteStack.Valid (s : RouteStack) : Prop :=
  -1 ≤ s.top ∧ s.top ≤ (STACK_SIZE : Int) - 1

instance instDecidableValid (s : RouteStack) : Decidable s.Valid :=
  inferInstanceAs (Decidable (-1 ≤ s.top ∧ s.top ≤ (STACK_SIZE : Int) - 1))

/-- The references the stack holds, bottom first: `routes[0..top]`. -/
def RouteStack.entries (s : RouteStack) : List Ptr :=
  (List.range (s.top + 1).toNat).map s.routes

/-! ## Sequences of calls -/

/-- Consecutive `insertRoute` calls on a non-null stack, one per item; an item
is the address `malloc` returns for the call and the four fields. -/
def insertRoutes (fuel : Nat) :
    Heap → Ptr → RouteStack → List (Ptr × Route) →
      Except Fault (Heap × Ptr × RouteStack × List Out)
  | h, head, s, [] => .ok (h, head, s, [])
  | h, head, s, x :: xs =>
    match insertRoute fuel h head (some s) x.1 x.2.startStation x.2.destination
        x.2.stoppages x.2.duration with
    | .error e => .error e
    | .ok (h1, head1, s1, out1) =>
      match insertRoutes fuel h1 head1 s1 xs with
      | .error e => .error e
      | .ok (h2, head2, s2, out2) => .ok (h2, head2, s2, out1 ++ out2)

/-- The number `k` of consecutive `undoLastRoute` calls on a non-null stack. -/
def undoLastRoutes (fuel : Nat) :
    Nat → Heap → Ptr → RouteStack → Except Fault (Heap × Ptr × RouteStack × List Out)
  | 0, h, head, s => .ok (h, head, s, [])
  | k + 1, h, head, s =>
    match undoLastRoute fuel h head (some s) with
    | .error e => .error e
    | .ok (h1, head1, s1, out1) =>
      match undoLastRoutes fuel k h1 head1 s1 with
      | .error e => .error e
      | .ok (h2, head2, s2, out2) => .ok (h2, head2, s2, out1 ++ out2)

/-! ## Sample data -/

/-- The station name `"A"`. -/
def nameA : Name := ⟨"A", by decide⟩

/-- The station name `"B"`. -/
def nameB : Name := ⟨"B", by decide⟩

/-- The station name `"C"`. -/
def nameC : Name := ⟨"C", by decide⟩

/-- The station name `"D"`. -/
def nameD : Name := ⟨"D", by decide⟩

/-- Eleven records `("A","B",i,0.5)`, `i = 0..10`, at the addresses `1..11`. -/
def sampleItems : List (Ptr × Route) :=
  (List.range 11).map (fun i => (i + 1, ⟨nameA, nameB, (i : Int), 0.5⟩))

/-! ## Reachable states -/

/-- The memory the operations act on: the heap, the variable `head` and the
stack object `routeStack` of `main`. -/
structure Machine where
  heap : Heap
  head : Ptr
  stack : RouteStack

/-- A call of one of the five operations on `head` and `routeStack`, with its
arguments; `fuel` bounds the loops, `p` is the address `malloc` returns. -/
inductive Call where
  | push (route : Ptr)
  | pop
  | insert (fuel : Nat) (p : Ptr) (startStation destination : Name) (stoppages : Int)
      (duration : Float32)
  | delete (fuel : Nat) (startStation destination : String)
  | undo (fuel : Nat)

/-- The memory after a call that returns. -/
def Call.run : Call → Machine → Except Fault Machine
  | .push route, m =>
    match pushStack (some m.stack) route with
    | .error e => .error e
    | .ok (s, _) => .ok { m with stack := s }
  | .pop, m =>
    match popStack (some m.stack) with
    | .error e => .error e
    | .ok (s, _, _) => .ok { m with stack := s }
  | .insert fuel p startStation destination stoppages duration, m =>
    match insertRoute fuel m.heap m.head (some m.stack) p startStation destination
        stoppages duration with
    | .error e => .error e
    | .ok (h, head, s, _) => .ok ⟨h, head, s⟩
  | .delete fuel startStation destination, m =>
    match deleteRoute fuel m.heap m.head startStation destination with
    | .error e => .error e
    | .ok (h, head, _) => .ok ⟨h, head, m.stack⟩
  | .undo fuel, m =>
    match undoLastRoute fuel m.heap m.head (some m.stack) with
    | .error e => .error e
    | .ok (h, head, s, _) => .ok ⟨h, head, s⟩

/-- The states reachable from `initStack` by a finite sequence of calls. -/
inductive Reachable : Machine → Prop
  | init (h : Heap) (head : Ptr) (s0 s : RouteStack) :
      initStack (some s0) = .ok s → Reachable ⟨h, head, s⟩
  | step (c : Call) (m m2 : Machine) : Reachable m → c.run m = .ok m2 → Reachable m2


/-! ## The file (`four.c` lines 205-258) -/

/-- The file `train_routes.txt`: `none` when it does not exist, else its
content. -/
abbrev File := Option String

/-- The digits of `%d` for a non-negative value. -/
def formatNat (n : Nat) : String := String.mk (Nat.toDigits 10 n)

/-- The conversion `%d` of `fprintf`. -/
def formatInt (n : Int) : String :=
  match n with
  | Int.ofNat k => formatNat k
  | Int.negSucc k => "-" ++ formatNat (k + 1)

/-- The conversion `%.2f` of `fprintf` for a `float` argument: a minus sign when
the sign bit is set, then `inf` or `nan`, or for a finite value the integer
part, a point and two digits of the exact value rounded to hundredths. -/
def formatDuration (x : Float32) : String :=
  (if x.sign then "-" else "") ++
    (if x.expo = 255 then (if x.frac = 0 then "inf" else "nan")
     else
      formatNat (roundHalfEven (x.mag * 100) / 100) ++ "."
        ++ formatNat (roundHalfEven (x.mag * 100) % 100 / 10)
        ++ formatNat (roundHalfEven (x.mag * 100) % 10))

/-- The text of `fprintf(file, "%s %s %d %.2f\n", ...)` for a node. -/
def formatLine (n : TrainRoute) : String :=
  n.startStation.val ++ " " ++ n.destination.val ++ " " ++ formatInt n.stoppages ++ " "
    ++ formatDuration n.duration ++ "\n"

/-- The loop of `saveRoutesToFile`: the text written, one line per node. -/
def saveRoutesToFileLoop (h : Heap) : Nat → Ptr → Except Fault String
  | 0, _ => .error .outOfFuel
  | fuel + 1, temp =>
    if temp ≠ NULL then
      match load h temp with
      | .error e => .error e
      | .ok n =>
        match saveRoutesToFileLoop h fuel n.next with
        | .error e => .error e
        | .ok text => .ok (formatLine n ++ text)
    else .ok ""

/-- The call `saveRoutesToFile(head)`.  `writable` tells whether `fopen(.., "w")`
succeeds; if it does the file is truncated and rewritten.  The result is the
file and the output. -/
def saveRoutesToFile (fuel : Nat) (h : Heap) (head : Ptr) (writable : Bool) (file : File) :
    Except Fault (File × List Out) :=
  if writable = false then .ok (file, [Out.writeError])
  else match saveRoutesToFileLoop h fuel head with
    | .error e => .error e
    | .ok text => .ok (some text, [])

/-- The white-space characters of `isspace` in the C locale. -/
def isspace (c : Char) : Bool :=
  c = ' ' || c = '\t' || c = '\n' || c = '\x0b' || c = '\x0c' || c = '\r'

/-- The value of a sequence of decimal digits. -/
def digitsValue (ds : List Char) : Nat :=
  ds.foldl (fun acc c => 10 * acc + (c.toNat - '0'.toNat)) 0

/-- The conversion `%s` of `fscanf` into a `char[50]`: white space is skipped
and the characters up to the next white space are stored.  `none` is the end of
the input before any character; 50 bytes or more do not fit the array. -/
def scanString (inp : List Char) : Except Fault (Option (Name × List Char)) :=
  match inp.dropWhile isspace with
  | [] => .ok none
  | c :: cs =>
    let word := String.mk ((c :: cs).takeWhile (fun a => !isspace a))
    if hw : word.utf8ByteSize < 50 then
      .ok (some (⟨word, hw⟩, (c :: cs).dropWhile (fun a => !isspace a)))
    else .error .outOfBounds

/-- The outcome of a numeric conversion of `fscanf`: a value and the rest of
the input, or no value (end of input or matching failure) and the rest of the
input. -/
inductive Conv (α : Type) where
  | value (v : α) (rest : List Char)
  | noValue (rest : List Char)
deriving DecidableEq

/-- The value that `strtol` returns for a decimal number: the number, or
`LONG_MAX` or `LONG_MIN` when it is outside the range of `long`. -/
def clampLong (v : Int) : Int :=
  max (-9223372036854775808) (min v 9223372036854775807)

/-- The conversion of a `long` to `int`: the value of its low 32 bits. -/
def toInt32 (v : Int) : Int :=
  (v + 2147483648) % 4294967296 - 2147483648

/-- The conversion `%d` of `fscanf`: white space, an optional sign, decimal
digits.  A sign without a digit is consumed.  The number is converted as
`strtol` does and stored as an `int`. -/
def scanInt (inp : List Char) : Conv Int :=
  let inp1 := inp.dropWhile isspace
  let (neg, inp2) :=
    match inp1 with
    | '-' :: cs => (true, cs)
    | '+' :: cs => (false, cs)
    | cs => (false, cs)
  let ds := inp2.takeWhile Char.isDigit
  if ds = [] then .noValue inp2
  else .value (toInt32 (clampLong (if neg then -(digitsValue ds : Int) else (digitsValue ds : Int))))
    (inp2.dropWhile Char.isDigit)

/-- The test `isxdigit`. -/
def isxdigit (c : Char) : Bool :=
  c.isDigit || ('a' ≤ c && c ≤ 'f') || ('A' ≤ c && c ≤ 'F')

/-- The value of a hexadecimal digit. -/
def hexDigitValue (c : Char) : Nat :=
  if c.isDigit then c.toNat - '0'.toNat
  else if 'a' ≤ c ∧ c ≤ 'f' then c.toNat - 'a'.toNat + 10
  else c.toNat - 'A'.toNat + 10

/-- The value of a sequence of hexadecimal digits. -/
def hexValue (ds : List Char) : Nat :=
  ds.foldl (fun acc c => 16 * acc + hexDigitValue c) 0

/-- The power `10 ^ e` of an integer exponent. -/
def pow10 (e : Int) : Rat :=
  if 0 ≤ e then ((10 ^ e.toNat : Nat) : Rat) else 1 / ((10 ^ (-e).toNat : Nat) : Rat)

/-- The letters of `word` read one character at a time by `%f`, letter case
ignored: the rest of the input after the word, or, when the input does not
continue with the word, failure and the rest after the first character that
differs (that character is consumed). -/
def scanWord : List Char → List Char → Bool × List Char
  | [], inp => (true, inp)
  | _ :: _, [] => (false, [])
  | w :: ws, c :: cs => if c.toLower = w then scanWord ws cs else (false, cs)

/-- The optional exponent part that `%f` reads after a mantissa with a digit:
the exponent character (`e` or `p`, either case), an optional sign and digits.
The exponent character and the sign are consumed also when no digit follows; the
exponent is then 0.  The result is the exponent and the rest of the input. -/
def scanExponent (expChar : Char) (inp : List Char) : Int × List Char :=
  match inp with
  | c :: cs =>
    if c.toLower = expChar then
      let (neg, cs2) :=
        match cs with
        | '-' :: r => (true, r)
        | '+' :: r => (false, r)
        | r => (false, r)
      let ds := cs2.takeWhile Char.isDigit
      (if neg then -(digitsValue ds : Int) else (digitsValue ds : Int),
        cs2.dropWhile Char.isDigit)
    else (0, inp)
  | [] => (0, inp)

/-- The number that `%f` reads after the sign, in base 10 or, after `0x`, in
base 16: integer digits, an optional point and fraction digits, and an exponent
part when a digit was read.  Without a digit the conversion fails (a point is
consumed), except that `0x.` is read as zero.  The value is rounded to the
nearest `float`. -/
def scanNumber (neg : Bool) (hex : Bool) (inp : List Char) : Conv Float32 :=
  let digit : Char → Bool := if hex then isxdigit else Char.isDigit
  let ip := inp.takeWhile digit
  let inp1 := inp.dropWhile digit
  let (dot, fp, inp2) :=
    match inp1 with
    | '.' :: cs => (true, cs.takeWhile digit, cs.dropWhile digit)
    | cs => (false, [], cs)
  if ip = [] ∧ fp = [] then
    if hex ∧ dot then .value ⟨neg, 0, 0⟩ inp2 else .noValue inp2
  else
    let (ex, inp3) := scanExponent (if hex then 'p' else 'e') inp2
    let v : Rat :=
      if hex then
        ((hexValue ip : Rat) + (hexValue fp : Rat) / ((16 ^ fp.length : Nat) : Rat)) * pow2 ex
      else
        ((digitsValue ip : Rat) + (digitsValue fp : Rat) / ((10 ^ fp.length : Nat) : Rat))
          * pow10 ex
    .value (Float32.round neg v) inp3

/-- The conversion `%f` of `fscanf` into a `float`: white space, an optional
sign, then `nan`, `inf` or `infinity` (letter case ignored; a character that
breaks the word is consumed and the conversion fails), or a hexadecimal number
after `0x`, or a decimal number. -/
def scanFloat (inp : List Char) : Conv Float32 :=
  match inp.dropWhile isspace with
  | [] => .noValue []
  | c :: cs =>
    let neg : Bool := decide (c = '-')
    let inp1 := if c = '-' ∨ c = '+' then cs else c :: cs
    match inp1 with
    | [] => .noValue []
    | c1 :: cs1 =>
      if c1.toLower = 'n' then
        match scanWord ['a', 'n'] cs1 with
        | (true, rest) => .value (Float32.nan neg) rest
        | (false, rest) => .noValue rest
      else if c1.toLower = 'i' then
        match scanWord ['n', 'f'] cs1 with
        | (false, rest) => .noValue rest
        | (true, rest) =>
          match rest with
          | c2 :: cs2 =>
            if c2.toLower = 'i' then
              match scanWord ['n', 'i', 't', 'y'] cs2 with
              | (true, rest2) => .value (Float32.inf neg) rest2
              | (false, rest2) => .noValue rest2
            else .value (Float32.inf neg) rest
          | [] => .value (Float32.inf neg) []
      else
        match inp1 with
        | '0' :: x :: cs2 =>
          if x.toLower = 'x' then scanNumber neg true cs2 else scanNumber neg false inp1
        | _ => scanNumber neg false inp1

/-- The call `fscanf(file, "%s %s %d %f", startStation, destination, &stoppages,
&duration)`.  `buf` holds the four variables before the call.  The result is
`none` for `EOF` or the number of assignments, the four variables after the
call, and the rest of the input. -/
def fscanfRoute (inp : List Char) (buf : Route) :
    Except Fault (Option Nat × Route × List Char) :=
  match scanString inp with
  | .error e => .error e
  | .ok none => .ok (none, buf, [])
  | .ok (some (s1, r1)) =>
    match scanString r1 with
    | .error e => .error e
    | .ok none => .ok (some 1, { buf with startStation := s1 }, [])
    | .ok (some (s2, r2)) =>
      match scanInt r2 with
      | .noValue r3 => .ok (some 2, { buf with startStation := s1, destination := s2 }, r3)
      | .value n r3 =>
        match scanFloat r3 with
        | .noValue r4 => .ok (some 3, ⟨s1, s2, n, buf.duration⟩, r4)
        | .value t r4 => .ok (some 4, ⟨s1, s2, n, t⟩, r4)

/-- The loop of `loadRoutesFromFile`: while `fscanf` does not return `EOF`, the
four variables are inserted with a null stack pointer.  `alloc k` is the address
that the `k`-th call of `malloc` returns. -/
def loadRoutesFromFileLoop (fuel : Nat) (alloc : Nat → Ptr) :
    Nat → Nat → List Char → Route → Heap → Ptr → Except Fault (Heap × Ptr × List Out)
  | 0, _, _, _, _, _ => .error .outOfFuel
  | n + 1, k, inp, buf, h, head =>
    match fscanfRoute inp buf with
    | .error e => .error e
    | .ok (none, _, _) => .ok (h, head, [])
    | .ok (some _, buf2, rest) =>
      match insertRoute fuel h head none (alloc k) buf2.startStation buf2.destination
          buf2.stoppages buf2.duration with
      | .error e => .error e
      | .ok (h2, head2, _, out) =>
        match loadRoutesFromFileLoop fuel alloc n (k + 1) rest buf2 h2 head2 with
        | .error e => .error e
        | .ok (h3, head3, out3) => .ok (h3, head3, out ++ out3)

/-- The initial database of `loadRoutesFromFile`, in the order of the twelve
calls of lines 233-244. -/
def seedRoutes : List Route :=
  [⟨⟨"Sealdah", by decide⟩, ⟨"Bongaon", by decide⟩, 13, 1.75⟩,
   ⟨⟨"Sealdah", by decide⟩, ⟨"Kolkata", by decide⟩, 5, 0.45⟩,
   ⟨⟨"Sealdah", by decide⟩, ⟨"Howrah", by decide⟩, 8, 0.65⟩,
   ⟨⟨"Sealdah", by decide⟩, ⟨"Naihati", by decide⟩, 10, 1.10⟩,
   ⟨⟨"Sealdah", by decide⟩, ⟨"Baranagar", by decide⟩, 6, 0.50⟩,
   ⟨⟨"Sealdah", by decide⟩, ⟨"Dum Dum", by decide⟩, 4, 0.30⟩,
   ⟨⟨"Sealdah", by decide⟩, ⟨"Bidhan Sarani", by decide⟩, 3, 0.20⟩,
   ⟨⟨"Sealdah", by decide⟩, ⟨"North Dumdum", by decide⟩, 7, 0.55⟩,
   ⟨⟨"Sealdah", by decide⟩, ⟨"Chandannagar", by decide⟩, 15, 2.0⟩,
   ⟨⟨"Sealdah", by decide⟩, ⟨"Kamarhati", by decide⟩, 9, 0.75⟩,
   ⟨⟨"Sealdah", by decide⟩, ⟨"Garia", by decide⟩, 14, 1.85⟩,
   ⟨⟨"Sealdah", by decide⟩, ⟨"Sodepur", by decide⟩, 12, 1.65⟩]

/-- The calls `insertRoute(head, NULL, ...)` of lines 233-244, one per record
of the list, in order; `alloc k` is the address that the `k`-th call of `malloc`
returns. -/
def insertSeedRoutes (fuel : Nat) (alloc : Nat → Ptr) :
    Nat → List Route → Heap → Ptr → Except Fault (Heap × Ptr × List Out)
  | _, [], h, head => .ok (h, head, [])
  | k, r :: rs, h, head =>
    match insertRoute fuel h head none (alloc k) r.startStation r.destination r.stoppages
        r.duration with
    | .error e => .error e
    | .ok (h2, head2, _, out) =>
      match insertSeedRoutes fuel alloc (k + 1) rs h2 head2 with
      | .error e => .error e
      | .ok (h3, head3, out3) => .ok (h3, head3, out ++ out3)

/-- The call `loadRoutesFromFile(&head)`.  Without a file the initial database is
inserted and saved; with a file its records are read and inserted.  `buf` holds
the four local variables before the first `fscanf`.  The result is the heap,
`head`, the file and the output. -/
def loadRoutesFromFile (fuel : Nat) (alloc : Nat → Ptr) (buf : Route) (writable : Bool)
    (file : File) (h : Heap) (head : Ptr) : Except Fault (Heap × Ptr × File × List Out) :=
  match file with
  | none =>
    match insertSeedRoutes fuel alloc 0 seedRoutes h head with
    | .error e => .error e
    | .ok (h2, head2, out) =>
      match saveRoutesToFile fuel h2 head2 writable file with
      | .error e => .error e
      | .ok (file2, out2) => .ok (h2, head2, file2, Out.noExistingRoutes :: out ++ out2)
  | some text =>
    match loadRoutesFromFileLoop fuel alloc fuel 0 text.data buf h head with
    | .error e => .error e
    | .ok (h2, head2, out) => .ok (h2, head2, file, out)


/-! ## More sample data -/

/-- A heap with two nodes: `("A","C",1,0.25)` at address 1, linked to
`("A","B",2,0.5)` at address 2. -/
def sampleHeap : Heap :=
  fun q => if q = 1 then some ⟨nameA, nameC, 1, 0.25, 2⟩
    else if q = 2 then some ⟨nameA, nameB, 2, 0.5, 0⟩ else none

/-- The catalog that `sampleHeap` holds from address 1. -/
def sampleCatalog : List (Ptr × Route) :=
  [(1, ⟨nameA, nameC, 1, 0.25⟩), (2, ⟨nameA, nameB, 2, 0.5⟩)]

/-! ## The serialization of a catalog -/

/-- The line of a record in the file: the text that `fprintf` writes for a node
with these fields. -/
def renderRecord (r : Route) : String :=
  r.startStation.val ++ " " ++ r.destination.val ++ " " ++ formatInt r.stoppages ++ " "
    ++ formatDuration r.duration ++ "\n"

/-- The serialization of a catalog: the lines of its records, in order. -/
def serialize : List (Ptr × Route) → String
  | [] => ""
  | x :: L => renderRecord x.2 ++ serialize L

/-! ## The main loop (`four.c` lines 273-321) -/

/-- The memory of `main` during its loop: the heap, `head`, `routeStack` and the
file. -/
structure MainState where
  heap : Heap
  head : Ptr
  routeStack : RouteStack
  file : File

/-- One iteration of the loop of `main`.  `choice` and `buf` are the values of
`choice` and of `startStation`, `destination`, `stoppages`, `duration` after the
`scanf` calls of the iteration; `p` is the address `malloc` returns and
`writable` tells whether `fopen(.., "w")` succeeds, when they are called.  The
result is the memory, the output and whether `exit(0)` was called. -/
def mainStep (fuel : Nat) (choice : Int) (buf : Route) (p : Ptr) (writable : Bool)
    (σ : MainState) : Except Fault (MainState × List Out × Bool) :=
  if choice = 1 then
    match insertRoute fuel σ.heap σ.head (some σ.routeStack) p buf.startStation
        buf.destination buf.stoppages buf.duration with
    | .error e => .error e
    | .ok (h, head, s, out) =>
      match saveRoutesToFile fuel h head writable σ.file with
      | .error e => .error e
      | .ok (file, out2) => .ok (⟨h, head, s, file⟩, out ++ out2, false)
  else if choice = 2 then
    match deleteRoute fuel σ.heap σ.head buf.startStation.val buf.destination.val with
    | .error e => .error e
    | .ok (h, head, out) =>
      match saveRoutesToFile fuel h head writable σ.file with
      | .error e => .error e
      | .ok (file, out2) => .ok (⟨h, head, σ.routeStack, file⟩, out ++ out2, false)
  else if choice = 3 then
    match searchRoute fuel σ.heap σ.head buf.startStation.val buf.destination.val with
    | .error e => .error e
    | .ok (h, head, out) => .ok (⟨h, head, σ.routeStack, σ.file⟩, out, false)
  else if choice = 4 then
    match displayRoutes fuel σ.heap σ.head with
    | .error e => .error e
    | .ok (h, head, out) => .ok (⟨h, head, σ.routeStack, σ.file⟩, out, false)
  else if choice = 5 then
    match undoLastRoute fuel σ.heap σ.head (some σ.routeStack) with
    | .error e => .error e
    | .ok (h, head, s, out) =>
      match saveRoutesToFile fuel h head writable σ.file with
      | .error e => .error e
      | .ok (file, out2) => .ok (⟨h, head, s, file⟩, out ++ out2, false)
  else if choice = 6 then .ok (σ, [Out.exiting], true)
  else .ok (σ, [Out.invalidChoice], false)

/-! ## The seed catalog -/

/-- The catalog that the twelve insertions of the initial database are meant to
build, at the addresses `1..12`. -/
def seedCatalog : List (Ptr × Route) :=
  ((List.range 12).map (fun i => i + 1)).zip seedRoutes

/-! ## Reading a saved file -/

/-- A heap with one node, `("A","B",1,inf)` at address 1: the record that
`main` inserts when the duration typed is `inf`. -/
def infHeap : Heap :=
  fun q => if q = 1 then some ⟨nameA, nameB, 1, Float32.inf false, 0⟩ else none

/-- The catalog that `infHeap` holds from address 1. -/
def infCatalog : List (Ptr × Route) :=
  [(1, ⟨nameA, nameB, 1, Float32.inf false⟩)]

/-- Ten records: the nine records `("A","B",i,0.5)`, `i = 0..8`, at the
addresses `1..9`, and `("C","D",9,0.5)` at the address 10. -/
def tenItems : List (Ptr × Route) :=
  sampleItems.take 9 ++ [(10, ⟨nameC, nameD, 9, 0.5⟩)]

/-! ## The first variant (`first.c` lines 15-96) -/

/-- The function `createRoute` of `first.c`: `p` is the address `malloc`
returns; the fields are written through it and `next` is set to `NULL`. -/
def First.createRoute (h : Heap) (p : Ptr) (startStation destination : Name)
    (stoppages : Int) (duration : Float32) : Except Fault (Heap × Ptr) :=
  if p = NULL then .error .nullDeref
  else .ok (store h p ⟨startStation, destination, stoppages, duration, NULL⟩, p)

/-- The loop of `insertRoute` of `first.c`:
`while (temp->next != NULL) temp = temp->next;`. -/
def First.insertRouteLoop (h : Heap) : Nat → Ptr → Except Fault Ptr
  | 0, _ => .error .outOfFuel
  | fuel + 1, temp =>
    match load h temp with
    | .error e => .error e
    | .ok n => if n.next ≠ NULL then First.insertRouteLoop h fuel n.next else .ok temp

/-- The call `insertRoute(&head, ...)` of `first.c`: the new node is linked
after the last node, or becomes the head.  The result is the heap and `head`. -/
def First.insertRoute (fuel : Nat) (h : Heap) (head : Ptr) (p : Ptr)
    (startStation destination : Name) (stoppages : Int) (duration : Float32) :
    Except Fault (Heap × Ptr) :=
  match First.createRoute h p startStation destination stoppages duration with
  | .error e => .error e
  | .ok (h1, newRoute) =>
    if head = NULL then .ok (h1, newRoute)
    else match First.insertRouteLoop h1 fuel head with
      | .error e => .error e
      | .ok temp =>
        match setNext h1 temp newRoute with
        | .error e => .error e
        | .ok h2 => .ok (h2, head)

/-- The loop of `deleteRoute` of `first.c`; the result is `(temp, prev)`. -/
def First.deleteRouteLoop (h : Heap) (startStation destination : String) :
    Nat → Ptr → Ptr → Except Fault (Ptr × Ptr)
  | 0, _, _ => .error .outOfFuel
  | fuel + 1, temp, prev =>
    if temp ≠ NULL then
      match load h temp with
      | .error e => .error e
      | .ok n =>
        if n.startStation.val ≠ startStation ∨ n.destination.val ≠ destination then
          First.deleteRouteLoop h startStation destination fuel n.next temp
        else .ok (temp, prev)
    else .ok (temp, prev)

/-- The call `deleteRoute(&head, startStation, destination)` of `first.c`.  The
result is the heap, `head` and the output. -/
def First.deleteRoute (fuel : Nat) (h : Heap) (head : Ptr) (startStation destination : String) :
    Except Fault (Heap × Ptr × List Out) :=
  let headHit : Except Fault Bool :=
    if head ≠ NULL then
      match load h head with
      | .error e => .error e
      | .ok n =>
        .ok (decide (n.startStation.val = startStation ∧ n.destination.val = destination))
    else .ok false
  match headHit with
  | .error e => .error e
  | .ok true =>
    match load h head with
    | .error e => .error e
    | .ok n =>
      match free h head with
      | .error e => .error e
      | .ok h1 => .ok (h1, n.next, [Out.deleted startStation destination])
  | .ok false =>
    match First.deleteRouteLoop h startStation destination fuel head NULL with
    | .error e => .error e
    | .ok (temp, prev) =>
      if temp = NULL then .ok (h, head, [Out.notFound startStation destination])
      else
        match load h temp with
        | .error e => .error e
        | .ok n =>
          match setNext h prev n.next with
          | .error e => .error e
          | .ok h1 =>
            match free h1 temp with
            | .error e => .error e
            | .ok h2 => .ok (h2, head, [Out.deleted startStation destination])


/-! ## Basic facts about catalogs -/

theorem isCatalog_nil (h : Heap) (p : Ptr) : IsCatalog h p [] ↔ p = NULL := Iff.rfl

theorem isCatalog_cons (h : Heap) (p : Ptr) (x : Ptr × Route) (L : List (Ptr × Route)) :
    IsCatalog h p (x :: L) ↔
      p = x.1 ∧ p ≠ NULL ∧ ∃ n, h p = some n ∧ n.record = x.2 ∧ IsCatalog h n.next L :=
  Iff.rfl

theorem load_of_some {h : Heap} {p : Ptr} {n : TrainRoute} (hp : p ≠ NULL)
    (hn : h p = some n) : load h p = .ok n := by
  simp [load, hp, hn]

/-- A heap that agrees with `h` on the nodes of a catalog holds the same catalog. -/
theorem IsCatalog.frame {h h2 : Heap} :
    ∀ {L : List (Ptr × Route)} {p : Ptr}, IsCatalog h p L →
      (∀ q ∈ ptrs L, h2 q = h q) → IsCatalog h2 p L
  | [], _, hc, _ => hc
  | x :: L, p, hc, hag => by
    obtain ⟨hpx, hnn, n, hn, hrec, htl⟩ := hc
    refine ⟨hpx, hnn, n, ?_, hrec, ?_⟩
    · rw [hag p (by simp [ptrs, hpx]), hn]
    · exact htl.frame (fun q hq => hag q (by
        simp only [ptrs, List.map_cons, List.mem_cons] at hq ⊢
        exact Or.inr hq))

/-- The catalog reachable from an address is unique. -/
theorem IsCatalog.unique {h : Heap} :
    ∀ {L M : List (Ptr × Route)} {p : Ptr}, IsCatalog h p L → IsCatalog h p M → L = M
  | [], [], _, _, _ => rfl
  | [], y :: M, p, hL, hM => absurd hL hM.2.1
  | x :: L, [], p, hL, hM => absurd hM hL.2.1
  | x :: L, y :: M, p, hL, hM => by
    obtain ⟨hpx, _, n, hn, hrec, htl⟩ := hL
    obtain ⟨hpy, _, m, hm, hrec2, htl2⟩ := hM
    have hnm : n = m := by
      rw [hn] at hm
      exact Option.some.inj hm
    subst hnm
    have hxy : x = y := Prod.ext (hpx.symm.trans hpy) (hrec.symm.trans hrec2)
    rw [hxy, htl.unique htl2]

/-- Every node of a catalog is a live allocation at a non-null address. -/
theorem IsCatalog.live {h : Heap} :
    ∀ {L : List (Ptr × Route)} {p : Ptr}, IsCatalog h p L →
      ∀ q ∈ ptrs L, q ≠ NULL ∧ ∃ n, h q = some n
  | [], _, _, q, hq => by simp [ptrs] at hq
  | x :: L, p, hc, q, hq => by
    obtain ⟨hpx, hnn, n, hn, _, htl⟩ := hc
    simp only [ptrs, List.map_cons, List.mem_cons] at hq
    rcases hq with hq | hq
    · subst hq
      rw [← hpx]
      exact ⟨hnn, n, hn⟩
    · exact htl.live q hq

/-- The chain that starts at a node of a catalog is a strict suffix of it. -/
theorem IsCatalog.suffix_of_mem {h : Heap} :
    ∀ {L : List (Ptr × Route)} {p : Ptr}, IsCatalog h p L →
      ∀ q ∈ ptrs L, ∃ M, IsCatalog h q M ∧ M.length ≤ L.length ∧ M ≠ []
  | [], _, _, q, hq => by simp [ptrs] at hq
  | x :: L, p, hc, q, hq => by
    simp only [ptrs, List.map_cons, List.mem_cons] at hq
    rcases hq with hq | hq
    · refine ⟨x :: L, ?_, le_refl _, by simp⟩
      rw [hq, ← hc.1]
      exact hc
    · obtain ⟨_, _, n, _, _, htl⟩ := hc
      obtain ⟨M, hM, hlen, hne⟩ := htl.suffix_of_mem q hq
      exact ⟨M, hM, by simp only [List.length_cons]; omega, hne⟩

/-- The nodes of a catalog are pairwise distinct. -/
theorem IsCatalog.nodup {h : Heap} :
    ∀ {L : List (Ptr × Route)} {p : Ptr}, IsCatalog h p L → (ptrs L).Nodup
  | [], _, _ => by simp [ptrs]
  | x :: L, p, hc => by
    have hc2 := hc
    obtain ⟨hpx, _, n, _, _, htl⟩ := hc
    simp only [ptrs, List.map_cons, List.nodup_cons]
    refine ⟨fun hmem => ?_, htl.nodup⟩
    obtain ⟨M, hM, hlen, _⟩ := htl.suffix_of_mem x.1 hmem
    rw [← hpx] at hM
    have := hc2.unique hM
    rw [← this] at hlen
    simp at hlen

/-! ## `insertRoute` -/

/-- On a non-empty catalog the loop of `insertRoute` stops at its last node `t`,
and linking a one-node chain behind `t` appends that node. -/
theorem insertRouteLoop_spec {h : Heap} {q : Ptr} {r : Route} :
    ∀ {L : List (Ptr × Route)} {x : Ptr × Route} {p : Ptr} {fuel : Nat},
      IsCatalog h p (x :: L) → IsCatalog h q [(q, r)] → q ∉ ptrs (x :: L) →
      L.length < fuel →
      ∃ t n, insertRouteLoop h fuel p = .ok t ∧ t ∈ ptrs (x :: L) ∧ t ≠ NULL ∧
        h t = some n ∧ n.next = NULL ∧
        IsCatalog (store h t { n with next := q }) p (x :: L ++ [(q, r)])
  | _, _, _, 0, _, _, _, hf => absurd hf (Nat.not_lt_zero _)
  | [], x, p, fuel + 1, hc, hq, hfresh, _ => by
    obtain ⟨hpx, hnn, n, hn, hrec, htl⟩ := hc
    have hnext : n.next = NULL := htl
    have hqp : q ≠ p := by
      intro e
      apply hfresh
      simp [ptrs, ← hpx, e]
    refine ⟨p, n, ?_, by simp [ptrs, hpx], hnn, hn, hnext, ?_⟩
    · simp [insertRouteLoop, load_of_some hnn hn, hnext]
    · refine ⟨hpx, hnn, { n with next := q }, by simp [store], hrec, ?_⟩
      exact hq.frame (fun a ha => by
        simp only [ptrs, List.map_cons, List.map_nil, List.mem_singleton] at ha
        simp [store, ha, hqp])
  | y :: L, x, p, fuel + 1, hc, hq, hfresh, hf => by
    have hnd := hc.nodup
    obtain ⟨hpx, hnn, n, hn, hrec, htl⟩ := hc
    have hfresh2 : q ∉ ptrs (y :: L) := fun hm => hfresh (by
      simp only [ptrs, List.map_cons, List.mem_cons] at hm ⊢
      exact Or.inr hm)
    have hf2 : L.length < fuel := by
      simp only [List.length_cons] at hf
      omega
    obtain ⟨t, m, hloop, htmem, htnn, hm, hmnext, hcat⟩ :=
      insertRouteLoop_spec htl hq hfresh2 hf2
    have hynn : n.next ≠ NULL := by
      rw [htl.1]
      exact (htl.live y.1 (by simp [ptrs])).1
    have htp : t ≠ p := by
      intro e
      simp only [ptrs, List.map_cons, List.nodup_cons] at hnd
      apply hnd.1
      rw [← hpx, ← e]
      simpa [ptrs] using htmem
    refine ⟨t, m, ?_, ?_, htnn, hm, hmnext, ?_⟩
    · simp [insertRouteLoop, load_of_some hnn hn, hynn, hloop]
    · simp only [ptrs, List.map_cons, List.mem_cons] at htmem ⊢
      exact Or.inr htmem
    · refine ⟨hpx, hnn, n, ?_, hrec, hcat⟩
      simp [store, Ne.symm htp, hn]

/-- The stack after `pushStack` on a valid stack: unchanged when full, one more
entry otherwise. -/
theorem pushStack_valid {s : RouteStack} (hv : s.Valid) (route : Ptr) :
    ∃ s2 out, pushStack (some s) route = .ok (s2, out) ∧ s2.Valid ∧
      (s.top = (STACK_SIZE : Int) - 1 → s2 = s ∧ out = [Out.stackFull]) ∧
      (s.top ≠ (STACK_SIZE : Int) - 1 →
        s2.top = s.top + 1 ∧ s2.entries = s.entries ++ [route] ∧ out = []) := by
  obtain ⟨hlo, hhi⟩ := hv
  by_cases hfull : s.top = (STACK_SIZE : Int) - 1
  · refine ⟨s, [Out.stackFull], by simp [pushStack, isFull, hfull], ⟨hlo, hhi⟩, fun _ => ⟨rfl, rfl⟩,
      fun hne => absurd hfull hne⟩
  · have h1 : 0 ≤ s.top + 1 := by omega
    have h2 : s.top + 1 < (STACK_SIZE : Int) := by
      simp only [STACK_SIZE] at hhi hfull ⊢
      push_cast at hhi hfull ⊢
      omega
    refine ⟨⟨fun i => if i = (s.top + 1).toNat then route else s.routes i, s.top + 1⟩, [],
      by simp [pushStack, isFull, hfull, h1, h2], ⟨by simp only; omega, by simp only; omega⟩,
      fun he => absurd he hfull, fun _ => ⟨rfl, ?_, rfl⟩⟩
    simp only [RouteStack.entries]
    have e : (s.top + 1 + 1).toNat = (s.top + 1).toNat + 1 := by omega
    rw [e, List.range_succ, List.map_append]
    congr 1
    · apply List.map_congr_left
      intro i hi
      have : i ≠ (s.top + 1).toNat := by
        rw [List.mem_range] at hi
        omega
      simp [this]
    · simp

/-- What `insertRoute` does on a catalog and a valid stack: the new node is
appended and pushed; no other live node outside the catalog changes. -/
theorem insertRoute_spec {h : Heap} {head : Ptr} {L : List (Ptr × Route)} {s : RouteStack}
    {p : Ptr} (hc : IsCatalog h head L) (hv : s.Valid) (hp : Fresh h p)
    (startStation destination : Name) (stoppages : Int) (duration : Float32)
    {f : Nat} (hf : L.length ≤ f) :
    ∃ h2 head2 s2 out,
      insertRoute f h head (some s) p startStation destination stoppages duration
        = .ok (h2, head2, s2, out) ∧
      IsCatalog h2 head2 (L ++ [(p, ⟨startStation, destination, stoppages, duration⟩)]) ∧
      pushStack (some s) p = .ok (s2, out) ∧ s2.Valid ∧
      (∀ q, q ∉ ptrs L → q ≠ p → h2 q = h q) := by
  obtain ⟨hpn, hpf⟩ := hp
  obtain ⟨s2, out, hpush, hv2, -, -⟩ := pushStack_valid hv p
  have hpL : p ∉ ptrs L := fun hm => by
    obtain ⟨_, n, hn⟩ := hc.live p hm
    rw [hpf] at hn
    exact Option.noConfusion hn
  have hnew : IsCatalog (store h p ⟨startStation, destination, stoppages, duration, NULL⟩) p
      [(p, ⟨startStation, destination, stoppages, duration⟩)] :=
    ⟨rfl, hpn, ⟨startStation, destination, stoppages, duration, NULL⟩, by simp [store], rfl, rfl⟩
  cases L with
  | nil =>
    have hh : head = NULL := hc
    refine ⟨store h p ⟨startStation, destination, stoppages, duration, NULL⟩, p, s2, out,
      by simp [insertRoute, createRoute, hpn, hh, hpush], ?_, hpush, hv2, ?_⟩
    · simpa using hnew
    · intro q _ hq
      simp [store, hq]
  | cons x L =>
    have hhead : head ≠ NULL := hc.2.1
    have hc1 : IsCatalog (store h p ⟨startStation, destination, stoppages, duration, NULL⟩)
        head (x :: L) :=
      hc.frame (fun q hq => by
        have : q ≠ p := fun e => hpL (e ▸ hq)
        simp [store, this])
    obtain ⟨t, n, hloop, htmem, htnn, hn, -, hcat⟩ :=
      insertRouteLoop_spec hc1 hnew hpL (by simpa using hf)
    refine ⟨store (store h p ⟨startStation, destination, stoppages, duration, NULL⟩) t
      { n with next := p }, head, s2, out, ?_, hcat, hpush, hv2, ?_⟩
    · simp [insertRoute, createRoute, hpn, hhead, hloop, setNext, load_of_some htnn hn, hpush]
    · intro q hq hqp
      have : q ≠ t := fun e => hq (e ▸ htmem)
      simp [store, this, hqp]

/-! ## Unlinking a node -/

theorem ptrs_append (A B : List (Ptr × Route)) : ptrs (A ++ B) = ptrs A ++ ptrs B := by
  simp [ptrs]

theorem ptrs_cons (x : Ptr × Route) (L : List (Ptr × Route)) : ptrs (x :: L) = x.1 :: ptrs L :=
  rfl

/-- Removing the head node: the rest of the chain is the catalog from `next`. -/
theorem IsCatalog.unlink_head {h : Heap} {p : Ptr} {y : Ptr × Route} {B : List (Ptr × Route)}
    (hc : IsCatalog h p (y :: B)) :
    ∃ n, h p = some n ∧ p ≠ NULL ∧ p = y.1 ∧
      IsCatalog (fun q => if q = p then none else h q) n.next B := by
  have hnd := hc.nodup
  obtain ⟨hpy, hnn, n, hn, -, htl⟩ := hc
  refine ⟨n, hn, hnn, hpy, htl.frame (fun q hq => ?_)⟩
  have : q ≠ p := by
    intro e
    rw [ptrs_cons, List.nodup_cons] at hnd
    exact hnd.1 (hpy ▸ e ▸ hq)
  simp [this]

/-- Removing the node `y` that follows `a`: `a->next = y->next; free(y)`. -/
theorem IsCatalog.unlink_mid {h : Heap} {a y : Ptr × Route} {B : List (Ptr × Route)}
    {na ny : TrainRoute} (ha : h a.1 = some na) (hy : h y.1 = some ny) :
    ∀ {A : List (Ptr × Route)} {p : Ptr}, IsCatalog h p (A ++ a :: y :: B) →
      (ptrs (A ++ a :: y :: B)).Nodup →
      IsCatalog (fun q => if q = y.1 then none else store h a.1 { na with next := ny.next } q)
        p (A ++ a :: B)
  | [], p, hc, hnd => by
    obtain ⟨hpa, hnn, n, hn, hrec, htl⟩ := hc
    have hnext : n.next = y.1 := htl.1
    obtain ⟨-, -, m, hm, -, htl2⟩ := htl
    simp only [List.nil_append, ptrs_cons, List.nodup_cons, List.mem_cons, not_or] at hnd
    obtain ⟨⟨hay, haB⟩, hyB, -⟩ := hnd
    have hna : n = na := by
      rw [hpa, ha] at hn
      exact (Option.some.inj hn).symm
    have hmy : m = ny := by
      rw [hnext, hy] at hm
      exact (Option.some.inj hm).symm
    subst hna
    subst hmy
    refine ⟨hpa, hnn, { n with next := m.next }, ?_, hrec, htl2.frame (fun q hq => ?_)⟩
    · simp [store, hpa, hay]
    · have h1 : q ≠ y.1 := fun e => hyB (e ▸ hq)
      have h2 : q ≠ a.1 := fun e => haB (e ▸ hq)
      simp [store, h1, h2]
  | c :: A, p, hc, hnd => by
    obtain ⟨hpc, hnn, n, hn, hrec, htl⟩ := hc
    simp only [List.cons_append, ptrs_cons, List.nodup_cons] at hnd
    obtain ⟨hcm, hnd2⟩ := hnd
    have hca : c.1 ≠ a.1 := fun e => hcm (by simp [ptrs_append, ptrs_cons, e])
    have hcy : c.1 ≠ y.1 := fun e => hcm (by simp [ptrs_append, ptrs_cons, e])
    refine ⟨hpc, hnn, n, ?_, hrec, IsCatalog.unlink_mid ha hy htl hnd2⟩
    simp [store, hpc, hca, hcy, ← hn]

/-! ## `deleteRoute` -/

theorem hasKey_node {s d : String} {x : Ptr × Route} {n : TrainRoute} (hrec : n.record = x.2) :
    hasKey s d x = decide (n.startStation.val = s ∧ n.destination.val = d) := by
  simp only [hasKey, ← hrec, TrainRoute.record]

/-- The loop of `deleteRoute` runs to `NULL` on a chain without a matching node. -/
theorem deleteRouteLoop_miss {h : Heap} {s d : String} :
    ∀ {M : List (Ptr × Route)} {t v : Ptr} {f : Nat}, IsCatalog h t M →
      (∀ x ∈ M, hasKey s d x = false) → M.length < f →
      ∃ pv, deleteRouteLoop h s d f t v = .ok (NULL, pv)
  | _, _, _, 0, _, _, hf => absurd hf (Nat.not_lt_zero _)
  | [], temp, prev, fuel + 1, hc, _, _ => by
    have : temp = NULL := hc
    exact ⟨prev, by simp [deleteRouteLoop, this]⟩
  | x :: M, temp, prev, fuel + 1, hc, hno, hf => by
    obtain ⟨-, hnn, n, hn, hrec, htl⟩ := hc
    have hx : hasKey s d x = false := hno x (List.mem_cons_self _ _)
    rw [hasKey_node hrec, decide_eq_false_iff_not, not_and_or] at hx
    obtain ⟨pv, hpv⟩ := deleteRouteLoop_miss (v := temp) (f := fuel) htl
      (fun z hz => hno z (List.mem_cons_of_mem _ hz))
      (by simp only [List.length_cons] at hf; omega)
    exact ⟨pv, by simp [deleteRouteLoop, hnn, load_of_some hnn hn, hx, hpv]⟩

/-- The loop of `deleteRoute` stops at the first matching node, with `prev` the
node before it. -/
theorem deleteRouteLoop_hit {h : Heap} {s d : String} {a y : Ptr × Route}
    {B : List (Ptr × Route)} (hy : hasKey s d y = true) :
    ∀ {A : List (Ptr × Route)} {t v : Ptr} {f : Nat},
      IsCatalog h t (A ++ a :: y :: B) →
      (∀ x ∈ A ++ [a], hasKey s d x = false) → A.length + 1 < f →
      deleteRouteLoop h s d f t v = .ok (y.1, a.1)
  | _, _, _, 0, _, _, hf => absurd hf (Nat.not_lt_zero _)
  | _, _, _, 1, _, _, hf => by omega
  | [], temp, prev, fuel + 2, hc, hno, _ => by
    obtain ⟨hta, hnn, n, hn, hrec, htl⟩ := hc
    obtain ⟨hny, hnn2, m, hm, hrec2, -⟩ := htl
    have hx : hasKey s d a = false := hno a (by simp)
    rw [hasKey_node hrec, decide_eq_false_iff_not, not_and_or] at hx
    rw [hasKey_node hrec2, decide_eq_true_iff] at hy
    simp [deleteRouteLoop, hnn, load_of_some hnn hn, hx, hnn2, load_of_some hnn2 hm, hy,
      ← hny, ← hta]
  | c :: A, temp, prev, fuel + 2, hc, hno, hf => by
    obtain ⟨-, hnn, n, hn, hrec, htl⟩ := hc
    have hx : hasKey s d c = false := hno c (by simp)
    rw [hasKey_node hrec, decide_eq_false_iff_not, not_and_or] at hx
    have ih := deleteRouteLoop_hit hy (v := temp) (f := fuel + 1) htl
      (fun z hz => hno z (by simp only [List.cons_append, List.mem_cons]; exact Or.inr hz))
      (by simp only [List.length_cons] at hf; omega)
    rw [deleteRouteLoop]
    simp [hnn, load_of_some hnn hn, hx, ih]

/-- What `deleteRoute` does on a catalog: the first entry with the key is
erased; the message tells whether there was one; without one nothing changes. -/
theorem deleteRoute_spec {h : Heap} {head : Ptr} {L : List (Ptr × Route)}
    (hc : IsCatalog h head L) (s d : String) {f : Nat} (hf : L.length < f) :
    ∃ h2 head2,
      deleteRoute f h head s d
        = .ok (h2, head2, [if L.any (hasKey s d) then Out.deleted s d else Out.notFound s d]) ∧
      IsCatalog h2 head2 (L.eraseP (hasKey s d)) ∧
      (L.any (hasKey s d) = false → h2 = h ∧ head2 = head) ∧
      (∀ q, q ∉ ptrs L → h2 q = h q) := by
  by_cases hex : ∃ x ∈ L, hasKey s d x = true
  · obtain ⟨x, hxL, hx⟩ := hex
    have hany : L.any (hasKey s d) = true := List.any_eq_true.mpr ⟨x, hxL, hx⟩
    obtain ⟨y, A, B, hA, hy, hL, her⟩ := List.exists_of_eraseP hxL hx
    rw [her, hany]
    subst hL
    have hnd := hc.nodup
    rcases List.eq_nil_or_concat A with hA0 | ⟨A0, a, hA0⟩
    · subst hA0
      obtain ⟨n, hn, hnn, hpy, hcat⟩ := hc.unlink_head
      obtain ⟨-, -, m, hm, hrec, -⟩ := hc
      have hnm : m = n := by
        rw [hn] at hm
        exact (Option.some.inj hm).symm
      subst hnm
      rw [hasKey_node hrec, decide_eq_true_iff] at hy
      refine ⟨fun q => if q = head then none else h q, m.next, ?_, by simpa using hcat,
        fun hf => by simp at hf, fun q hq => by
          have : q ≠ head := fun e => hq (by simp [ptrs_cons, e, hpy])
          simp [this]⟩
      simp [deleteRoute, hnn, keyMatches, load_of_some hnn hn, hy, free]
    · rw [List.concat_eq_append] at hA0
      subst hA0
      have hc2 : IsCatalog h head (A0 ++ a :: y :: B) := by simpa using hc
      have hnd2 : (ptrs (A0 ++ a :: y :: B)).Nodup := by simpa using hnd
      have hno : ∀ x ∈ A0 ++ [a], hasKey s d x = false := fun z hz => by
        simpa using hA z hz
      have hlen : A0.length + 1 < f := by
        simp only [List.length_append, List.length_cons, List.length_nil] at hf
        omega
      have hloop := deleteRouteLoop_hit (v := NULL) hy hc2 hno hlen
      have hlive := hc2.live
      obtain ⟨hann, na, hna⟩ := hlive a.1 (by simp [ptrs_append, ptrs_cons])
      obtain ⟨hynn, ny, hny⟩ := hlive y.1 (by simp [ptrs_append, ptrs_cons])
      have hay : a.1 ≠ y.1 := by
        intro e
        rw [ptrs_append, ptrs_cons, ptrs_cons, List.nodup_append] at hnd2
        have := hnd2.2.1
        rw [List.nodup_cons] at this
        exact this.1 (by simp [e])
      have hcat := IsCatalog.unlink_mid hna hny hc2 hnd2
      -- the head does not carry the key
      have hheadnn : head ≠ NULL := by
        cases A0 <;> exact hc2.2.1
      have hmiss : keyMatches h head s d = .ok false := by
        cases A0 with
        | nil =>
          obtain ⟨hpa, -, n, hn, hrec, -⟩ := hc2
          have hx : hasKey s d a = false := hno a (by simp)
          rw [hasKey_node hrec] at hx
          simp [keyMatches, load_of_some hheadnn hn, hx]
        | cons c A1 =>
          obtain ⟨hpa, -, n, hn, hrec, -⟩ := hc2
          have hx : hasKey s d c = false := hno c (by simp)
          rw [hasKey_node hrec] at hx
          simp [keyMatches, load_of_some hheadnn hn, hx]
      refine ⟨fun q => if q = y.1 then none else store h a.1 { na with next := ny.next } q,
        head, ?_, by simpa using hcat, fun hf => by simp at hf, fun q hq => by
          have h1 : q ≠ y.1 := fun e => hq (by simp [ptrs_append, ptrs_cons, e])
          have h2 : q ≠ a.1 := fun e => hq (by simp [ptrs_append, ptrs_cons, e])
          simp [store, h1, h2]⟩
      have hl : load (store h a.1 { na with next := ny.next }) y.1 = .ok ny :=
        load_of_some hynn (by simp [store, Ne.symm hay, hny])
      simp [deleteRoute, hheadnn, hmiss, hloop, hynn, load_of_some hynn hny, setNext,
        load_of_some hann hna, free, hl]
  · have hno : ∀ x ∈ L, hasKey s d x = false := fun x hx => by
      by_contra hk
      exact hex ⟨x, hx, by simpa using hk⟩
    have hany : L.any (hasKey s d) = false := by
      rw [List.any_eq_false]
      intro x hx
      simp [hno x hx]
    rw [hany, List.eraseP_of_forall_not (fun a ha => by simp [hno a ha])]
    obtain ⟨pv, hpv⟩ := deleteRouteLoop_miss (v := NULL) hc hno hf
    refine ⟨h, head, ?_, hc, fun _ => ⟨rfl, rfl⟩, fun _ _ => rfl⟩
    cases L with
    | nil =>
      have hh : head = NULL := hc
      subst hh
      simp [deleteRoute, hpv]
    | cons c L1 =>
      obtain ⟨-, hnn, n, hn, hrec, -⟩ := hc
      have hx : hasKey s d c = false := hno c (by simp)
      rw [hasKey_node hrec] at hx
      simp [deleteRoute, hnn, keyMatches, load_of_some hnn hn, hx, hpv]

/-- The node that `deleteRoute` unlinks is freed: when the last entry of the
catalog is the only one with the key, the call deletes it and its address no
longer holds a node. -/
theorem deleteRoute_last_freed {h : Heap} {head : Ptr} {L : List (Ptr × Route)}
    {y : Ptr × Route} (hc : IsCatalog h head (L ++ [y])) (s d : String)
    (hno : ∀ x ∈ L, hasKey s d x = false) (hy : hasKey s d y = true)
    {f : Nat} (hf : L.length + 1 < f) :
    ∃ h2 head2,
      deleteRoute f h head s d = .ok (h2, head2, [Out.deleted s d]) ∧
      IsCatalog h2 head2 L ∧ h2 y.1 = none ∧ y.1 ≠ NULL := by
  have hnd := hc.nodup
  rcases List.eq_nil_or_concat L with hA0 | ⟨A0, a, hA0⟩
  · subst hA0
    have hc1 : IsCatalog h head [y] := by simpa using hc
    obtain ⟨n, hn, hnn, hpy, hcat⟩ := hc1.unlink_head
    obtain ⟨-, -, m, hm, hrec, -⟩ := hc1
    have hnm : m = n := by
      rw [hn] at hm
      exact (Option.some.inj hm).symm
    subst hnm
    rw [hasKey_node hrec, decide_eq_true_iff] at hy
    refine ⟨fun q => if q = head then none else h q, m.next, ?_, hcat, by simp [hpy],
      hpy ▸ hnn⟩
    simp [deleteRoute, hnn, keyMatches, load_of_some hnn hn, hy, free]
  · rw [List.concat_eq_append] at hA0
    subst hA0
    have hc2 : IsCatalog h head (A0 ++ a :: y :: []) := by simpa using hc
    have hnd2 : (ptrs (A0 ++ a :: y :: [])).Nodup := by simpa using hnd
    have hno2 : ∀ x ∈ A0 ++ [a], hasKey s d x = false := hno
    have hlen : A0.length + 1 < f := by
      simp only [List.length_append, List.length_cons, List.length_nil] at hf
      omega
    have hloop := deleteRouteLoop_hit (v := NULL) hy hc2 hno2 hlen
    have hlive := hc2.live
    obtain ⟨hann, na, hna⟩ := hlive a.1 (by simp [ptrs_append, ptrs_cons])
    obtain ⟨hynn, ny, hny⟩ := hlive y.1 (by simp [ptrs_append, ptrs_cons])
    have hay : a.1 ≠ y.1 := by
      intro e
      rw [ptrs_append, ptrs_cons, ptrs_cons, List.nodup_append] at hnd2
      have := hnd2.2.1
      rw [List.nodup_cons] at this
      exact this.1 (by simp [e])
    have hcat := IsCatalog.unlink_mid hna hny hc2 hnd2
    have hheadnn : head ≠ NULL := by
      cases A0 <;> exact hc2.2.1
    have hmiss : keyMatches h head s d = .ok false := by
      cases A0 with
      | nil =>
        obtain ⟨hpa, -, n, hn, hrec, -⟩ := hc2
        have hx : hasKey s d a = false := hno2 a (by simp)
        rw [hasKey_node hrec] at hx
        simp [keyMatches, load_of_some hheadnn hn, hx]
      | cons c A1 =>
        obtain ⟨hpa, -, n, hn, hrec, -⟩ := hc2
        have hx : hasKey s d c = false := hno2 c (by simp)
        rw [hasKey_node hrec] at hx
        simp [keyMatches, load_of_some hheadnn hn, hx]
    refine ⟨fun q => if q = y.1 then none else store h a.1 { na with next := ny.next } q,
      head, ?_, by simpa using hcat, by simp, hynn⟩
    have hl : load (store h a.1 { na with next := ny.next }) y.1 = .ok ny :=
      load_of_some hynn (by simp [store, Ne.symm hay, hny])
    simp [deleteRoute, hheadnn, hmiss, hloop, hynn, load_of_some hynn hny, setNext,
      load_of_some hann hna, free, hl]

/-! ## `popStack` and `undoLastRoute` -/

theorem popStack_empty {s : RouteStack} (he : s.top = -1) :
    popStack (some s) = .ok (s, NULL, [Out.stackEmpty]) := by
  simp [popStack, isEmpty, he]

theorem popStack_nonempty {s : RouteStack} (hv : s.Valid) (hne : s.top ≠ -1) :
    popStack (some s) = .ok ({ s with top := s.top - 1 }, s.routes s.top.toNat, []) := by
  obtain ⟨hlo, hhi⟩ := hv
  have h1 : 0 ≤ s.top := by omega
  have h2 : s.top < (STACK_SIZE : Int) := by omega
  simp [popStack, isEmpty, hne, h1, h2]

/-- The entries of a non-empty stack: those below the top, then the top. -/
theorem entries_pop {s : RouteStack} (h0 : 0 ≤ s.top) :
    s.entries = RouteStack.entries { s with top := s.top - 1 } ++ [s.routes s.top.toNat] := by
  simp only [RouteStack.entries]
  have e : (s.top + 1).toNat = (s.top - 1 + 1).toNat + 1 := by omega
  have e2 : (s.top - 1 + 1).toNat = s.top.toNat := by
    congr 1
    omega
  rw [e, List.range_succ, List.map_append, e2]
  simp

theorem isAt_iff {p : Ptr} {x : Ptr × Route} : isAt p x = true ↔ x.1 = p := by
  simp [isAt]

/-- The loop of `undoLastRoute` runs to `NULL` on a chain that does not contain
the node. -/
theorem undoLastRouteLoop_miss {h : Heap} {lr : Ptr} :
    ∀ {M : List (Ptr × Route)} {t v : Ptr} {f : Nat}, IsCatalog h t M →
      lr ∉ ptrs M → M.length < f →
      ∃ pv, undoLastRouteLoop h lr f t v = .ok (NULL, pv)
  | _, _, _, 0, _, _, hf => absurd hf (Nat.not_lt_zero _)
  | [], temp, prev, fuel + 1, hc, _, _ => by
    have : temp = NULL := hc
    exact ⟨prev, by simp [undoLastRouteLoop, this]⟩
  | x :: M, temp, prev, fuel + 1, hc, hno, hf => by
    obtain ⟨htx, hnn, n, hn, -, htl⟩ := hc
    rw [ptrs_cons, List.mem_cons, not_or] at hno
    have hx : temp ≠ lr := fun e => hno.1 (by rw [← e, htx])
    obtain ⟨pv, hpv⟩ := undoLastRouteLoop_miss (v := temp) (f := fuel) htl hno.2
      (by simp only [List.length_cons] at hf; omega)
    exact ⟨pv, by simp [undoLastRouteLoop, hnn, load_of_some hnn hn, hx, hpv]⟩

/-- The loop of `undoLastRoute` stops at the node, with `prev` the node before
it. -/
theorem undoLastRouteLoop_hit {h : Heap} {a y : Ptr × Route} {B : List (Ptr × Route)} :
    ∀ {A : List (Ptr × Route)} {t v : Ptr} {f : Nat},
      IsCatalog h t (A ++ a :: y :: B) →
      y.1 ∉ ptrs (A ++ [a]) → A.length + 1 < f →
      undoLastRouteLoop h y.1 f t v = .ok (y.1, a.1)
  | _, _, _, 0, _, _, hf => absurd hf (Nat.not_lt_zero _)
  | _, _, _, 1, _, _, hf => by omega
  | [], temp, prev, fuel + 2, hc, hno, _ => by
    obtain ⟨hta, hnn, n, hn, -, htl⟩ := hc
    have hny : n.next = y.1 := htl.1
    have hx : temp ≠ y.1 := fun e => hno (by simp [ptrs, ← e, hta])
    simp [undoLastRouteLoop, hnn, load_of_some hnn hn, hx, hny, ← hta]
  | c :: A, temp, prev, fuel + 2, hc, hno, hf => by
    obtain ⟨htc, hnn, n, hn, -, htl⟩ := hc
    have hx : temp ≠ y.1 := fun e => hno (by simp [ptrs, ← e, htc])
    have ih := undoLastRouteLoop_hit (v := temp) (f := fuel + 1) htl
      (fun hm => hno (by
        simp only [List.cons_append, ptrs_cons, List.mem_cons]
        exact Or.inr hm))
      (by simp only [List.length_cons] at hf; omega)
    rw [undoLastRouteLoop]
    simp [hnn, load_of_some hnn hn, hx, ih]

/-- What `undoLastRoute` does on a catalog and a valid non-empty stack: the top
entry `lr` is popped, and the node at address `lr`, when the catalog has it, is
erased; without it nothing else changes. -/
theorem undoLastRoute_spec {h : Heap} {head : Ptr} {L : List (Ptr × Route)}
    (hc : IsCatalog h head L) {s : RouteStack} (hv : s.Valid) (hne : s.top ≠ -1)
    {f : Nat} (hf : L.length < f) :
    ∃ h2 head2,
      undoLastRoute f h head (some s)
        = .ok (h2, head2, { s with top := s.top - 1 },
            if s.routes s.top.toNat ∈ ptrs L then [Out.undone] else []) ∧
      IsCatalog h2 head2 (L.eraseP (isAt (s.routes s.top.toNat))) ∧
      (s.routes s.top.toNat ∉ ptrs L → h2 = h ∧ head2 = head) ∧
      (s.routes s.top.toNat ∈ ptrs L → h2 (s.routes s.top.toNat) = none) ∧
      (∀ q, q ∉ ptrs L → h2 q = h q) := by
  have hpop := popStack_nonempty hv hne
  generalize s.routes s.top.toNat = lr at hpop ⊢
  by_cases hmem : lr ∈ ptrs L
  · obtain ⟨x, hxL, hx⟩ : ∃ x ∈ L, isAt lr x = true := by
      simp only [ptrs, List.mem_map] at hmem
      obtain ⟨x, hxL, hx⟩ := hmem
      exact ⟨x, hxL, isAt_iff.mpr hx⟩
    obtain ⟨y, A, B, hA, hy, hL, her⟩ := List.exists_of_eraseP hxL hx
    rw [her, if_pos hmem]
    rw [isAt_iff] at hy
    subst hL
    subst hy
    have hnd := hc.nodup
    rcases List.eq_nil_or_concat A with hA0 | ⟨A0, a, hA0⟩
    · subst hA0
      obtain ⟨n, hn, hnn, hpy, hcat⟩ := hc.unlink_head
      refine ⟨fun q => if q = head then none else h q, n.next, ?_, by simpa using hcat,
        fun hf => absurd hmem hf, fun _ => by simp [hpy], fun q hq => by
          have : q ≠ head := fun e => hq (by simp [ptrs_cons, e, hpy])
          simp [this]⟩
      have hloop : undoLastRouteLoop h y.1 f head NULL = .ok (y.1, NULL) := by
        cases f with
        | zero => omega
        | succ k => simp [undoLastRouteLoop, hpy]
      rw [← hpy] at hloop hpop
      simp [undoLastRoute, hpop, hnn, hloop, load_of_some hnn hn, free]
    · rw [List.concat_eq_append] at hA0
      subst hA0
      have hc2 : IsCatalog h head (A0 ++ a :: y :: B) := by simpa using hc
      have hnd2 : (ptrs (A0 ++ a :: y :: B)).Nodup := by simpa using hnd
      have hno : y.1 ∉ ptrs (A0 ++ [a]) := by
        intro hm
        simp only [ptrs, List.mem_map] at hm
        obtain ⟨z, hz, hzy⟩ := hm
        exact hA z hz (isAt_iff.mpr hzy)
      have hlen : A0.length + 1 < f := by
        simp only [List.length_append, List.length_cons, List.length_nil] at hf
        omega
      have hloop := undoLastRouteLoop_hit (v := NULL) hc2 hno hlen
      have hlive := hc2.live
      obtain ⟨hann, na, hna⟩ := hlive a.1 (by simp [ptrs_append, ptrs_cons])
      obtain ⟨hynn, ny, hny⟩ := hlive y.1 (by simp [ptrs_append, ptrs_cons])
      have hay : a.1 ≠ y.1 := fun e => hno (by simp [ptrs_append, ptrs_cons, e])
      have hcat := IsCatalog.unlink_mid hna hny hc2 hnd2
      have hl : load (store h a.1 { na with next := ny.next }) y.1 = .ok ny :=
        load_of_some hynn (by simp [store, Ne.symm hay, hny])
      refine ⟨fun q => if q = y.1 then none else store h a.1 { na with next := ny.next } q,
        head, ?_, by simpa using hcat, fun hf => absurd hmem hf, fun _ => by simp,
        fun q hq => by
          have h1 : q ≠ y.1 := fun e => hq (by simp [ptrs_append, ptrs_cons, e])
          have h2 : q ≠ a.1 := fun e => hq (by simp [ptrs_append, ptrs_cons, e])
          simp [store, h1, h2]⟩
      simp [undoLastRoute, hpop, hynn, hloop, load_of_some hynn hny, hann, setNext,
        load_of_some hann hna, free, hl]
  · rw [if_neg hmem, List.eraseP_of_forall_not (fun a ha => by
      rw [isAt_iff]
      intro e
      exact hmem (by simp only [ptrs, List.mem_map]; exact ⟨a, ha, e⟩))]
    refine ⟨h, head, ?_, hc, fun _ => ⟨rfl, rfl⟩, fun hm => absurd hm hmem, fun _ _ => rfl⟩
    by_cases hlr : lr = NULL
    · simp [undoLastRoute, hpop, hlr]
    · obtain ⟨pv, hpv⟩ := undoLastRouteLoop_miss (v := NULL) hc hmem hf
      simp [undoLastRoute, hpop, hlr, hpv, Ne.symm hlr]

/-! ## Traversals: `displayRoutes` and `searchRoute` -/

/-- The loop of `displayRoutes` prints the records of the catalog, in order. -/
theorem displayRoutesLoop_spec {h : Heap} :
    ∀ {L : List (Ptr × Route)} {p : Ptr} {f : Nat}, IsCatalog h p L → L.length < f →
      displayRoutesLoop h f p = .ok ((records L).map Out.routeLine)
  | _, _, 0, _, hf => absurd hf (Nat.not_lt_zero _)
  | [], p, fuel + 1, hc, _ => by
    have : p = NULL := hc
    simp [displayRoutesLoop, this, records]
  | x :: L, p, fuel + 1, hc, hf => by
    obtain ⟨-, hnn, n, hn, hrec, htl⟩ := hc
    have ih := displayRoutesLoop_spec (f := fuel) htl
      (by simp only [List.length_cons] at hf; omega)
    simp [displayRoutesLoop, hnn, load_of_some hnn hn, ih, records, hrec]

/-- What `displayRoutes` prints on a catalog. -/
theorem displayRoutes_spec {h : Heap} {head : Ptr} {L : List (Ptr × Route)}
    (hc : IsCatalog h head L) {fuel : Nat} (hf : L.length < fuel) :
    displayRoutes fuel h head
      = .ok (h, head, if L = [] then [Out.noRoutes] else (records L).map Out.routeLine) := by
  cases L with
  | nil =>
    have : head = NULL := hc
    simp [displayRoutes, this]
  | cons x L =>
    have hnn : head ≠ NULL := hc.2.1
    simp [displayRoutes, hnn, displayRoutesLoop_spec hc hf]

/-- The loop of `searchRoute` reports the first entry with the key, if any. -/
theorem searchRouteLoop_spec {h : Heap} {s d : String} :
    ∀ {L : List (Ptr × Route)} {p : Ptr} {f : Nat}, IsCatalog h p L → L.length < f →
      searchRouteLoop h s d f p
        = .ok (match L.find? (hasKey s d) with
            | some x => ([Out.routeFound x.2], true)
            | none => ([], false))
  | _, _, 0, _, hf => absurd hf (Nat.not_lt_zero _)
  | [], p, fuel + 1, hc, _ => by
    have : p = NULL := hc
    simp [searchRouteLoop, this]
  | x :: L, p, fuel + 1, hc, hf => by
    obtain ⟨-, hnn, n, hn, hrec, htl⟩ := hc
    have ih := searchRouteLoop_spec (s := s) (d := d) (f := fuel) htl
      (by simp only [List.length_cons] at hf; omega)
    by_cases hk : n.startStation.val = s ∧ n.destination.val = d
    · have hx : hasKey s d x = true := by
        rw [hasKey_node hrec]
        exact decide_eq_true hk
      simp [searchRouteLoop, hnn, load_of_some hnn hn, hk, List.find?_cons, hx, hrec]
    · have hx : hasKey s d x = false := by
        rw [hasKey_node hrec]
        exact decide_eq_false hk
      simp only [searchRouteLoop, load_of_some hnn hn, List.find?_cons, hx, ih]
      simp [hk, hnn]

/-- What `searchRoute` does on a catalog. -/
theorem searchRoute_spec {h : Heap} {head : Ptr} {L : List (Ptr × Route)}
    (hc : IsCatalog h head L) (s d : String) {fuel : Nat} (hf : L.length < fuel) :
    searchRoute fuel h head s d
      = .ok (h, head, match L.find? (hasKey s d) with
          | some x => [Out.routeFound x.2]
          | none => [Out.noRouteFound s d]) := by
  rw [searchRoute, searchRouteLoop_spec hc hf]
  cases L.find? (hasKey s d) <;> simp

/-! ## Sequences of calls -/

/-- Two heaps that hold the same catalog from the same address agree on its
nodes. -/
theorem IsCatalog.agree {h h2 : Heap} :
    ∀ {L : List (Ptr × Route)} {p : Ptr}, IsCatalog h p L → IsCatalog h2 p L →
      ∀ q ∈ ptrs L, h2 q = h q
  | [], _, _, _, q, hq => by simp [ptrs] at hq
  | x :: L, p, hc, hc2, q, hq => by
    obtain ⟨hpx, -, n, hn, hrec, htl⟩ := hc
    obtain ⟨-, -, m, hm, hrec2, htl2⟩ := hc2
    have hnext : m.next = n.next := by
      cases L with
      | nil => exact htl2.trans htl.symm
      | cons y L => exact htl2.1.trans htl.1.symm
    rw [ptrs_cons, List.mem_cons] at hq
    rcases hq with hq | hq
    · have hmn : m = n := by
        have e : m.record = n.record := hrec2.trans hrec.symm
        simp only [TrainRoute.record, Route.mk.injEq] at e
        cases m
        cases n
        simp only [TrainRoute.mk.injEq]
        simp only at e hnext
        exact ⟨e.1, e.2.1, e.2.2.1, e.2.2.2, hnext⟩
      rw [hq, ← hpx, hm, hn, hmn]
    · rw [hnext] at htl2
      exact htl.agree htl2 q hq

/-- The entries after a push on a valid stack: the new reference is added
unless ten are held already. -/
theorem pushStack_entries {s s2 : RouteStack} {out : List Out} {route : Ptr} (hv : s.Valid)
    (hpush : pushStack (some s) route = .ok (s2, out)) :
    s2.entries = (s.entries ++ [route]).take STACK_SIZE := by
  obtain ⟨s3, out3, hpush3, -, hfull, hnot⟩ := pushStack_valid hv route
  rw [hpush] at hpush3
  have e : s2 = s3 := by
    injection hpush3 with e
    exact (Prod.mk.inj e).1
  subst e
  have hlen : s.entries.length = (s.top + 1).toNat := by simp [RouteStack.entries]
  by_cases hf : s.top = (STACK_SIZE : Int) - 1
  · rw [(hfull hf).1, List.take_append_of_le_length, List.take_of_length_le]
    · rw [hlen, hf]; simp [STACK_SIZE]
    · rw [hlen, hf]; simp [STACK_SIZE]
  · rw [(hnot hf).2.1, List.take_of_length_le]
    rw [List.length_append, hlen]
    have := hv.2
    simp only [STACK_SIZE, List.length_singleton] at this hf ⊢
    push_cast at this hf
    omega

theorem take_take_append {α : Type} (n : Nat) (A B : List α) :
    (A.take n ++ B).take n = (A ++ B).take n := by
  rcases Nat.lt_or_ge A.length n with hlt | hge
  · rw [List.take_of_length_le (Nat.le_of_lt hlt)]
  · rw [List.take_append_of_le_length (by rw [List.length_take]; omega),
      List.take_append_of_le_length hge, List.take_take, Nat.min_self]

/-- Consecutive insertions with fresh, pairwise distinct addresses append the
items in order; the stack keeps the first references up to its capacity. -/
theorem insertRoutes_spec {f : Nat} :
    ∀ {I : List (Ptr × Route)} {h : Heap} {p : Ptr} {L : List (Ptr × Route)}
      {s : RouteStack}, IsCatalog h p L → s.Valid → (ptrs I).Nodup →
      (∀ q ∈ ptrs I, Fresh h q) → L.length + I.length ≤ f →
      ∃ h2 head2 s2 out, insertRoutes f h p s I = .ok (h2, head2, s2, out) ∧
        IsCatalog h2 head2 (L ++ I) ∧ s2.Valid ∧
        s2.entries = (s.entries ++ ptrs I).take STACK_SIZE
  | [], h, head, L, s, hc, hv, _, _, _ => by
    refine ⟨h, head, s, [], rfl, by simpa using hc, hv, ?_⟩
    rw [List.take_of_length_le]
    · simp [ptrs]
    · have := hv.2
      simp only [ptrs, List.map_nil, List.append_nil, RouteStack.entries, List.length_map,
        List.length_range, STACK_SIZE] at this ⊢
      push_cast at this
      omega
  | x :: items, h, head, L, s, hc, hv, hnd, hfr, hf => by
    rw [ptrs_cons, List.nodup_cons] at hnd
    have hfx : Fresh h x.1 := hfr x.1 (by simp [ptrs_cons])
    simp only [List.length_cons] at hf
    obtain ⟨h1, head1, s1, out1, hins, hc1, hpush, hv1, hframe⟩ :=
      insertRoute_spec hc hv hfx x.2.startStation x.2.destination x.2.stoppages x.2.duration
        (f := f) (by omega)
    have hfr1 : ∀ q ∈ ptrs items, Fresh h1 q := fun q hq => by
      have hq0 := hfr q (by rw [ptrs_cons]; exact List.mem_cons_of_mem _ hq)
      refine ⟨hq0.1, ?_⟩
      rw [hframe q ?_ ?_]
      · exact hq0.2
      · intro hm
        obtain ⟨-, n, hn⟩ := hc.live q hm
        rw [hq0.2] at hn
        exact Option.noConfusion hn
      · intro e
        exact hnd.1 (e ▸ hq)
    obtain ⟨h2, head2, s2, out2, hrest, hc2, hv2, hent⟩ :=
      insertRoutes_spec (f := f) hc1 hv1 hnd.2 hfr1
        (by simp only [List.length_append, List.length_cons, List.length_nil]; omega)
    refine ⟨h2, head2, s2, out1 ++ out2, ?_, by simpa using hc2, hv2, ?_⟩
    · simp [insertRoutes, hins, hrest]
    · rw [hent, pushStack_entries hv hpush, take_take_append, ptrs_cons]
      simp

/-- Undoing on an empty stack, any number of times, changes nothing. -/
theorem undoLastRoutes_empty {fuel : Nat} {h : Heap} {head : Ptr} {s : RouteStack}
    (he : s.top = -1) :
    ∀ k, undoLastRoutes fuel k h head s = .ok (h, head, s, List.replicate k Out.stackEmpty)
  | 0 => rfl
  | k + 1 => by
    have hu : undoLastRoute fuel h head (some s) = .ok (h, head, s, [Out.stackEmpty]) := by
      simp [undoLastRoute, popStack_empty he]
    simp [undoLastRoutes, hu, undoLastRoutes_empty he k, List.replicate_succ]

/-- The calls `a + b` of `undoLastRoute` are `a` calls followed by `b` calls. -/
theorem undoLastRoutes_add {fuel : Nat} (b : Nat) :
    ∀ (a : Nat) (h : Heap) (head : Ptr) (s : RouteStack),
      undoLastRoutes fuel (a + b) h head s
        = match undoLastRoutes fuel a h head s with
          | .error e => .error e
          | .ok (h1, head1, s1, out1) =>
            match undoLastRoutes fuel b h1 head1 s1 with
            | .error e => .error e
            | .ok (h2, head2, s2, out2) => .ok (h2, head2, s2, out1 ++ out2)
  | 0, h, head, s => by
    simp only [Nat.zero_add, undoLastRoutes]
    cases undoLastRoutes fuel b h head s with
    | error e => rfl
    | ok r => simp
  | a + 1, h, head, s => by
    rw [Nat.add_right_comm]
    simp only [undoLastRoutes]
    cases undoLastRoute fuel h head (some s) with
    | error e => rfl
    | ok r =>
      obtain ⟨h1, head1, s1, out1⟩ := r
      simp only [undoLastRoutes_add b a h1 head1 s1]
      cases undoLastRoutes fuel a h1 head1 s1 with
      | error e => rfl
      | ok r2 =>
        obtain ⟨h2, head2, s2, out2⟩ := r2
        simp only
        cases undoLastRoutes fuel b h2 head2 s2 with
        | error e => rfl
        | ok r3 => simp

/-- When the stack holds exactly the addresses of a block `X` of the catalog,
`k ≤ |X|` undos remove the last `k` nodes of the block, last first. -/
theorem undoLastRoutes_block {f : Nat} {L R : List (Ptr × Route)} :
    ∀ (k : Nat) {X : List (Ptr × Route)} {h : Heap} {head : Ptr} {s : RouteStack},
      IsCatalog h head (L ++ X ++ R) → s.Valid → s.entries = ptrs X → k ≤ X.length →
      (L ++ X ++ R).length < f →
      ∃ h2 head2 s2,
        undoLastRoutes f k h head s = .ok (h2, head2, s2, List.replicate k Out.undone) ∧
        IsCatalog h2 head2 (L ++ X.take (X.length - k) ++ R) ∧ s2.Valid ∧
        s2.entries = ptrs (X.take (X.length - k))
  | 0, X, h, head, s, hc, hv, hent, _, _ =>
    ⟨h, head, s, rfl, by simpa using hc, hv, by simpa using hent⟩
  | k + 1, X, h, head, s, hc, hv, hent, hk, hf => by
    rcases List.eq_nil_or_concat X with hX | ⟨X0, x, hX⟩
    · subst hX
      simp at hk
    rw [List.concat_eq_append] at hX
    subst hX
    have hlen : s.entries.length = X0.length + 1 := by rw [hent]; simp [ptrs]
    have h0 : 0 ≤ s.top := by
      simp only [RouteStack.entries, List.length_map, List.length_range] at hlen
      omega
    have hne : s.top ≠ -1 := by omega
    have hpopent := entries_pop h0
    rw [hent, ptrs_append] at hpopent
    obtain ⟨hent2, hlr⟩ := List.append_inj' hpopent rfl
    have hlr2 : s.routes s.top.toNat = x.1 := by simpa [ptrs] using hlr.symm
    have hnd := hc.nodup
    obtain ⟨h1, head1, hundo, hc1, -, -, -⟩ := undoLastRoute_spec hc hv hne hf
    rw [hlr2] at hundo hc1
    have hmem : x.1 ∈ ptrs (L ++ (X0 ++ [x]) ++ R) := by simp [ptrs]
    rw [if_pos hmem] at hundo
    have hnoL : ∀ b ∈ L ++ X0, ¬ isAt x.1 b = true := by
      intro b hb
      rw [isAt_iff]
      intro e
      have hsplit : ptrs (L ++ (X0 ++ [x]) ++ R) = ptrs (L ++ X0) ++ (x.1 :: ptrs R) := by
        simp [ptrs]
      rw [hsplit] at hnd
      have hdis := (List.nodup_append.mp hnd).2.2
      exact hdis (List.mem_map.mpr ⟨b, hb, e⟩) (List.mem_cons_self _ _) 
    have her : (L ++ (X0 ++ [x]) ++ R).eraseP (isAt x.1) = L ++ X0 ++ R := by
      have e : L ++ (X0 ++ [x]) ++ R = (L ++ X0) ++ (x :: R) := by simp
      rw [e, List.eraseP_append_right _ hnoL]
      simp [List.eraseP_cons, isAt]
    rw [her] at hc1
    have hv1 : RouteStack.Valid { s with top := s.top - 1 } :=
      ⟨by simp only; omega, by have := hv.2; simp only; omega⟩
    have hk1 : k ≤ X0.length := by
      simp only [List.length_append, List.length_cons, List.length_nil] at hk
      omega
    have hf1 : (L ++ X0 ++ R).length < f := by
      simp only [List.length_append, List.length_cons, List.length_nil] at hf ⊢
      omega
    obtain ⟨h2, head2, s2, hrest, hc2, hv2, hent3⟩ :=
      undoLastRoutes_block k hc1 hv1 hent2.symm hk1 hf1
    have htake : (X0 ++ [x]).take ((X0 ++ [x]).length - (k + 1)) = X0.take (X0.length - k) := by
      have e : (X0 ++ [x]).length - (k + 1) = X0.length - k := by
        simp only [List.length_append, List.length_cons, List.length_nil]
        omega
      rw [e, List.take_append_of_le_length (Nat.sub_le _ _)]
    refine ⟨h2, head2, s2, ?_, by rw [htake]; exact hc2, hv2, by rw [htake]; exact hent3⟩
    simp [undoLastRoutes, hundo, hrest, List.replicate_succ]

/-! ## The stack invariant -/

theorem popStack_valid {s s2 : RouteStack} {lr : Ptr} {out : List Out} (hv : s.Valid)
    (hpop : popStack (some s) = .ok (s2, lr, out)) : s2.Valid := by
  by_cases he : s.top = -1
  · rw [popStack_empty he] at hpop
    injection hpop with e
    rw [← (Prod.mk.inj e).1]
    exact hv
  · rw [popStack_nonempty hv he] at hpop
    injection hpop with e
    rw [← (Prod.mk.inj e).1]
    exact ⟨by have := hv.1; simp only; omega, by have := hv.2; simp only; omega⟩

/-- The stack that `insertRoute` returns is the one `pushStack` returns. -/
theorem insertRoute_stack {fuel : Nat} {h h2 : Heap} {head head2 p : Ptr}
    {stack : Option RouteStack} {s2 : RouteStack} {out : List Out} {sn dn : Name} {st : Int}
    {du : Float32} (hins : insertRoute fuel h head stack p sn dn st du = .ok (h2, head2, s2, out)) :
    pushStack stack p = .ok (s2, out) := by
  unfold insertRoute at hins
  split at hins
  · exact Except.noConfusion hins
  · rename_i h1 newRoute hcr
    have hp : newRoute = p := by
      unfold createRoute at hcr
      split at hcr
      · exact Except.noConfusion hcr
      · injection hcr with e
        exact (Prod.mk.inj e).2.symm
    subst hp
    simp only at hins
    split at hins
    · exact Except.noConfusion hins
    · split at hins
      · exact Except.noConfusion hins
      · rename_i s3 out3 hpush
        injection hins with e
        obtain ⟨-, e2⟩ := Prod.mk.inj e
        obtain ⟨-, e3⟩ := Prod.mk.inj e2
        obtain ⟨e4, e5⟩ := Prod.mk.inj e3
        rw [hpush, e4, e5]

/-- The stack that `undoLastRoute` returns is the one `popStack` returns. -/
theorem undoLastRoute_stack {fuel : Nat} {h h2 : Heap} {head head2 : Ptr}
    {stack : Option RouteStack} {s2 : RouteStack} {out : List Out}
    (hundo : undoLastRoute fuel h head stack = .ok (h2, head2, s2, out)) :
    ∃ lr out1, popStack stack = .ok (s2, lr, out1) := by
  unfold undoLastRoute at hundo
  split at hundo
  · exact Except.noConfusion hundo
  · rename_i s1 lr out1 hpop
    refine ⟨lr, out1, ?_⟩
    have key : s1 = s2 := by
      split at hundo
      · split at hundo
        · exact Except.noConfusion hundo
        · split at hundo
          · split at hundo
            · exact Except.noConfusion hundo
            · simp only at hundo
              split at hundo
              · exact Except.noConfusion hundo
              · split at hundo
                · exact Except.noConfusion hundo
                · injection hundo with e
                  exact (Prod.mk.inj (Prod.mk.inj (Prod.mk.inj e).2).2).1
          · injection hundo with e
            exact (Prod.mk.inj (Prod.mk.inj (Prod.mk.inj e).2).2).1
      · injection hundo with e
        exact (Prod.mk.inj (Prod.mk.inj (Prod.mk.inj e).2).2).1
    rw [← key, hpop]

/-- Every reachable state has a valid stack. -/
theorem Reachable.valid {m : Machine} (hr : Reachable m) : m.stack.Valid := by
  induction hr with
  | init h head s0 s hinit =>
    simp only [initStack] at hinit
    injection hinit with e
    subst e
    exact ⟨le_refl _, by simp [STACK_SIZE]⟩
  | step c m m2 _ hrun ih =>
    cases c with
    | push route =>
      obtain ⟨s2, out, hpush, hv2, -, -⟩ := pushStack_valid ih route
      simp only [Call.run, hpush] at hrun
      injection hrun with e
      subst e
      exact hv2
    | pop =>
      simp only [Call.run] at hrun
      split at hrun
      · exact Except.noConfusion hrun
      · rename_i s2 lr out hpop
        injection hrun with e
        subst e
        exact popStack_valid ih hpop
    | insert fuel p sn dn st du =>
      simp only [Call.run] at hrun
      split at hrun
      · exact Except.noConfusion hrun
      · rename_i h2 head2 s2 out hins
        injection hrun with e
        subst e
        obtain ⟨s3, out3, hpush, hv3, -, -⟩ := pushStack_valid ih p
        rw [insertRoute_stack hins] at hpush
        injection hpush with e
        rw [(Prod.mk.inj e).1]
        exact hv3
    | delete fuel sn dn =>
      simp only [Call.run] at hrun
      split at hrun
      · exact Except.noConfusion hrun
      · injection hrun with e
        subst e
        exact ih
    | undo fuel =>
      simp only [Call.run] at hrun
      split at hrun
      · exact Except.noConfusion hrun
      · rename_i h2 head2 s2 out hundo
        injection hrun with e
        subst e
        obtain ⟨lr, out1, hpop⟩ := undoLastRoute_stack hundo
        exact popStack_valid ih hpop

/-! ## `insertRoute` with a null stack pointer -/

/-- The call `pushStack(NULL, route)` reads `stack->top` through the null pointer. -/
theorem pushStack_null (route : Ptr) : pushStack none route = .error .nullDeref := rfl

/-- A call of `insertRoute` with a null stack pointer does not return. -/
theorem insertRoute_null_stack (fuel : Nat) (h : Heap) (head p : Ptr) (sn dn : Name)
    (st : Int) (du : Float32) : ∃ e, insertRoute fuel h head none p sn dn st du = .error e := by
  cases hres : insertRoute fuel h head none p sn dn st du with
  | error e => exact ⟨e, rfl⟩
  | ok r =>
    obtain ⟨h2, head2, s2, out⟩ := r
    have := insertRoute_stack hres
    rw [pushStack_null] at this
    exact Except.noConfusion this

/-- On an empty catalog the fault of `insertRoute` with a null stack pointer is
a null dereference: in `createRoute` when `malloc` fails, in `isFull`
otherwise. -/
theorem insertRoute_null_stack_empty (fuel : Nat) (h : Heap) (p : Ptr) (sn dn : Name)
    (st : Int) (du : Float32) : insertRoute fuel h NULL none p sn dn st du = .error .nullDeref := by
  by_cases hp : p = NULL
  · simp [insertRoute, createRoute, hp]
  · simp [insertRoute, createRoute, hp, pushStack_null]

/-! ## `loadRoutesFromFile` on an existing file -/

/-- When `fscanf` assigns at least one variable, the loop of `loadRoutesFromFile`
calls `insertRoute` with a null stack pointer and does not return. -/
theorem loadRoutesFromFileLoop_faults (fuel n k : Nat) (alloc : Nat → Ptr) {c : Nat}
    {inp rest : List Char} {buf buf2 : Route} (h : Heap) (head : Ptr)
    (hscan : fscanfRoute inp buf = .ok (some c, buf2, rest)) :
    ∃ e, loadRoutesFromFileLoop fuel alloc n k inp buf h head = .error e := by
  cases n with
  | zero => exact ⟨_, rfl⟩
  | succ n =>
    obtain ⟨e, he⟩ := insertRoute_null_stack fuel h head (alloc k) buf2.startStation
      buf2.destination buf2.stoppages buf2.duration
    exact ⟨e, by simp [loadRoutesFromFileLoop, hscan, he]⟩

/-- The call `fscanf` returns `EOF` only on input that is white space up to its
end. -/
theorem fscanfRoute_eof {inp rest : List Char} {buf buf2 : Route}
    (hscan : fscanfRoute inp buf = .ok (none, buf2, rest)) :
    inp.dropWhile isspace = [] ∧ buf2 = buf := by
  unfold fscanfRoute at hscan
  split at hscan
  · exact Except.noConfusion hscan
  · rename_i hs
    refine ⟨?_, ?_⟩
    · unfold scanString at hs
      split at hs
      · assumption
      · simp only at hs
        split at hs
        · injection hs with e
          exact Option.noConfusion e
        · exact Except.noConfusion hs
    · injection hscan with e
      exact (Prod.mk.inj (Prod.mk.inj e).2).1.symm
  · split at hscan
    · exact Except.noConfusion hscan
    · injection hscan with e
      exact Option.noConfusion (Prod.mk.inj e).1
    · split at hscan
      · injection hscan with e
        exact Option.noConfusion (Prod.mk.inj e).1
      · split at hscan
        · injection hscan with e
          exact Option.noConfusion (Prod.mk.inj e).1
        · injection hscan with e
          exact Option.noConfusion (Prod.mk.inj e).1

/-- The loop of `loadRoutesFromFile` returns only when the first `fscanf` returns
`EOF`, that is on blank input, and then with the heap and `head` unchanged. -/
theorem loadRoutesFromFileLoop_ok {fuel n k : Nat} {alloc : Nat → Ptr} {inp : List Char}
    {buf : Route} {h h2 : Heap} {head head2 : Ptr} {out : List Out}
    (hok : loadRoutesFromFileLoop fuel alloc n k inp buf h head = .ok (h2, head2, out)) :
    inp.dropWhile isspace = [] ∧ h2 = h ∧ head2 = head ∧ out = [] := by
  cases n with
  | zero => exact Except.noConfusion hok
  | succ n =>
    cases hscan : fscanfRoute inp buf with
    | error e =>
      simp [loadRoutesFromFileLoop, hscan] at hok
    | ok r =>
      obtain ⟨c, buf2, rest⟩ := r
      cases c with
      | none =>
        simp only [loadRoutesFromFileLoop, hscan] at hok
        injection hok with e
        obtain ⟨e1, e2⟩ := Prod.mk.inj e
        obtain ⟨e3, e4⟩ := Prod.mk.inj e2
        exact ⟨(fscanfRoute_eof hscan).1, e1.symm, e3.symm, e4.symm⟩
      | some c =>
        obtain ⟨e, he⟩ := loadRoutesFromFileLoop_faults fuel (n + 1) k alloc h head hscan
        rw [he] at hok
        exact Except.noConfusion hok

/-! ## The entry on top after a push -/

/-- After `pushStack` on a valid stack that is not full, the pushed reference is
on top, and popping it gives back the entries held before. -/
theorem pushStack_top {s s2 : RouteStack} {out : List Out} {route : Ptr} (hv : s.Valid)
    (hnf : s.top ≠ (STACK_SIZE : Int) - 1)
    (hpush : pushStack (some s) route = .ok (s2, out)) :
    s2.Valid ∧ s2.top = s.top + 1 ∧ s2.top ≠ -1 ∧ s2.routes s2.top.toNat = route ∧
      RouteStack.entries { s2 with top := s2.top - 1 } = s.entries ∧ out = [] := by
  obtain ⟨s3, out3, hpush3, hv3, -, hnot⟩ := pushStack_valid hv route
  rw [hpush] at hpush3
  injection hpush3 with e
  obtain ⟨e1, e2⟩ := Prod.mk.inj e
  subst e1
  subst e2
  obtain ⟨htop, hent, hout⟩ := hnot hnf
  have h0 : 0 ≤ s2.top := by
    have := hv.1
    omega
  have hpopent := entries_pop h0
  rw [hent] at hpopent
  obtain ⟨hent2, hlr⟩ := List.append_inj' hpopent rfl
  refine ⟨hv3, htop, by omega, ?_, hent2.symm, hout⟩
  simpa using hlr.symm

/-! ## The two variants -/

theorem first_insertRouteLoop_eq (h : Heap) :
    ∀ (fuel : Nat) (temp : Ptr), First.insertRouteLoop h fuel temp = insertRouteLoop h fuel temp
  | 0, _ => rfl
  | fuel + 1, temp => by
    simp only [First.insertRouteLoop, insertRouteLoop]
    cases load h temp with
    | error e => rfl
    | ok n =>
      simp only [first_insertRouteLoop_eq h fuel]

theorem first_deleteRouteLoop_eq (h : Heap) (s d : String) :
    ∀ (fuel : Nat) (temp prev : Ptr),
      First.deleteRouteLoop h s d fuel temp prev = deleteRouteLoop h s d fuel temp prev
  | 0, _, _ => rfl
  | fuel + 1, temp, prev => by
    simp only [First.deleteRouteLoop, deleteRouteLoop]
    split
    · cases load h temp with
      | error e => rfl
      | ok n =>
        simp only [first_deleteRouteLoop_eq h s d fuel]
    · rfl

/-- The function `deleteRoute` of `first.c` is the one of `four.c`. -/
theorem first_deleteRoute_eq (fuel : Nat) (h : Heap) (head : Ptr) (s d : String) :
    First.deleteRoute fuel h head s d = deleteRoute fuel h head s d := by
  simp only [First.deleteRoute, deleteRoute, keyMatches, first_deleteRouteLoop_eq]

/-- On a valid stack `insertRoute` of `four.c` returns the heap and `head` that
`insertRoute` of `first.c` returns, and faults where it faults. -/
theorem first_insertRoute_eq (fuel : Nat) (h : Heap) (head p : Ptr) (sn dn : Name) (st : Int)
    (du : Float32) {s : RouteStack} (hv : s.Valid) :
    (insertRoute fuel h head (some s) p sn dn st du).map (fun r => (r.1, r.2.1))
      = First.insertRoute fuel h head p sn dn st du := by
  obtain ⟨s2, out, hpush, -⟩ := pushStack_valid hv p
  simp only [insertRoute, First.insertRoute, createRoute, First.createRoute,
    first_insertRouteLoop_eq]
  by_cases hp : p = NULL
  · simp [hp]
    rfl
  · simp only [hp, if_false]
    by_cases hh : head = NULL
    · simp only [hh, if_true, hpush]
      rfl
    · simp only [hh, if_false]
      cases insertRouteLoop (store h p ⟨sn, dn, st, du, NULL⟩) fuel head with
      | error e => rfl
      | ok temp =>
        simp only
        cases setNext (store h p ⟨sn, dn, st, du, NULL⟩) temp p with
        | error e => rfl
        | ok h2 =>
          simp only [hpush]
          rfl

/-! ## Decimal digits -/

theorem digitsValue_append (l : List Char) (c : Char) :
    digitsValue (l ++ [c]) = 10 * digitsValue l + (c.toNat - '0'.toNat) := by
  simp [digitsValue, List.foldl_append]

theorem digitChar_isDigit {k : Nat} (hk : k < 10) :
    (Nat.digitChar k).isDigit = true ∧ (Nat.digitChar k).toNat - '0'.toNat = k := by
  interval_cases k <;> exact ⟨rfl, rfl⟩

/-- With enough fuel `Nat.toDigitsCore 10` puts the decimal digits of `n` in
front of the accumulator. -/
theorem toDigitsCore_spec :
    ∀ (fuel n : Nat) (ds : List Char), n < fuel →
      ∃ l, Nat.toDigitsCore 10 fuel n ds = l ++ ds ∧ l ≠ [] ∧
        (∀ c ∈ l, c.isDigit = true) ∧ digitsValue l = n ∧ (n < 10 → l.length = 1)
  | 0, _, _, hf => absurd hf (Nat.not_lt_zero _)
  | fuel + 1, n, ds, hf => by
    obtain ⟨hd1, hd2⟩ := digitChar_isDigit (Nat.mod_lt n (by decide : 0 < 10))
    by_cases h0 : n / 10 = 0
    · refine ⟨[Nat.digitChar (n % 10)], by simp [Nat.toDigitsCore, h0], by simp, ?_, ?_, ?_⟩
      · intro c hc
        rw [List.mem_singleton] at hc
        rw [hc]
        exact hd1
      · have : digitsValue [Nat.digitChar (n % 10)] = (Nat.digitChar (n % 10)).toNat - '0'.toNat := by
          simp [digitsValue]
        rw [this, hd2]
        omega
      · intro _
        rfl
    · obtain ⟨l, hl, -, hdig, hval, -⟩ :=
        toDigitsCore_spec fuel (n / 10) (Nat.digitChar (n % 10) :: ds) (by omega)
      refine ⟨l ++ [Nat.digitChar (n % 10)], ?_, by simp, ?_, ?_, ?_⟩
      · simp [Nat.toDigitsCore, h0, hl]
      · intro c hc
        rw [List.mem_append, List.mem_singleton] at hc
        rcases hc with hc | hc
        · exact hdig c hc
        · rw [hc]
          exact hd1
      · rw [digitsValue_append, hval, hd2]
        omega
      · intro hn
        omega

/-- The text of `formatNat n`: the decimal digits of `n`, at least one, a single
one below ten. -/
theorem formatNat_spec (n : Nat) :
    (formatNat n).data ≠ [] ∧ (∀ c ∈ (formatNat n).data, c.isDigit = true) ∧
      digitsValue (formatNat n).data = n ∧ (n < 10 → (formatNat n).data.length = 1) := by
  obtain ⟨l, hl, hne, hdig, hval, hone⟩ := toDigitsCore_spec (n + 1) n [] (Nat.lt_succ_self n)
  have : (formatNat n).data = l := by
    simp [formatNat, Nat.toDigits, hl]
  rw [this]
  exact ⟨hne, hdig, hval, hone⟩

/-! ## The text of `fprintf` -/

/-- The text of `%d`: a minus sign for a negative value, then the decimal digits
of the absolute value. -/
theorem formatInt_spec (n : Int) :
    ∃ ds, ds ≠ [] ∧ (∀ c ∈ ds, c.isDigit = true) ∧ digitsValue ds = n.natAbs ∧
      (formatInt n).data = (if n < 0 then ['-'] else []) ++ ds := by
  cases n with
  | ofNat k =>
    obtain ⟨h1, h2, h3, -⟩ := formatNat_spec k
    refine ⟨(formatNat k).data, h1, h2, by simpa using h3, ?_⟩
    have : ¬ (Int.ofNat k < 0) := by simp
    simp [formatInt, this]
  | negSucc k =>
    obtain ⟨h1, h2, h3, -⟩ := formatNat_spec (k + 1)
    refine ⟨(formatNat (k + 1)).data, h1, h2, by simpa using h3, ?_⟩
    have : Int.negSucc k < 0 := Int.negSucc_lt_zero k
    simp [formatInt, this]

/-- The text of `%.2f` for a finite value: a minus sign when the sign bit is
set, the digits of the integer part, a point and two digits; the digits are
those of the absolute value rounded to hundredths. -/
theorem formatDuration_spec (x : Float32) (hfin : x.expo ≠ 255) :
    ∃ ip d1 d2, ip ≠ [] ∧ (∀ c ∈ ip, c.isDigit = true) ∧ d1.isDigit = true ∧
      d2.isDigit = true ∧
      (formatDuration x).data = (if x.sign = true then ['-'] else []) ++ ip ++ ['.', d1, d2] ∧
      digitsValue ip * 100 + digitsValue [d1, d2] = roundHalfEven (x.mag * 100) := by
  generalize hn : roundHalfEven (x.mag * 100) = n
  obtain ⟨a1, a2, a3, -⟩ := formatNat_spec (n / 100)
  obtain ⟨b1, b2, b3, b4⟩ := formatNat_spec (n % 100 / 10)
  obtain ⟨c1, c2, c3, c4⟩ := formatNat_spec (n % 10)
  have hb : (n % 100 / 10) < 10 := by omega
  have hc : n % 10 < 10 := by omega
  obtain ⟨d1, hd1⟩ := List.length_eq_one.mp (b4 hb)
  obtain ⟨d2, hd2⟩ := List.length_eq_one.mp (c4 hc)
  refine ⟨(formatNat (n / 100)).data, d1, d2, a1, a2, b2 d1 (by simp [hd1]),
    c2 d2 (by simp [hd2]), ?_, ?_⟩
  · simp only [formatDuration, hn, String.data_append, hd1, hd2, if_neg hfin]
    by_cases ht : x.sign = true
    · simp [ht]
    · simp [ht]
  · rw [hd1] at b3
    rw [hd2] at c3
    have e : digitsValue [d1, d2] = 10 * digitsValue [d1] + (d2.toNat - '0'.toNat) :=
      digitsValue_append [d1] d2
    have e2 : digitsValue [d2] = d2.toNat - '0'.toNat := by simp [digitsValue]
    rw [e, a3, b3, ← e2, c3]
    omega

/-- The text of `%.2f` for an infinity or a NaN: a minus sign when the sign bit
is set, then `inf` or `nan`. -/
theorem formatDuration_special (x : Float32) (hx : x.expo = 255) :
    (formatDuration x).data
      = (if x.sign = true then ['-'] else [])
          ++ (if x.frac = 0 then ['i', 'n', 'f'] else ['n', 'a', 'n']) := by
  simp only [formatDuration, if_pos hx, String.data_append]
  by_cases ht : x.sign = true <;> by_cases hf : x.frac = 0 <;> simp [ht, hf]

/-- The text of `%.2f` holds no newline. -/
theorem formatDuration_no_newline (x : Float32) : (formatDuration x).data.count '\n' = 0 := by
  by_cases hx : x.expo = 255
  · rw [formatDuration_special x hx]
    by_cases ht : x.sign = true <;> by_cases hf : x.frac = 0 <;> simp [ht, hf]
  · obtain ⟨ip, d1, d2, -, hip, hd1, hd2, hdur, -⟩ := formatDuration_spec x hx
    have c4 : ip.count '\n' = 0 :=
      List.count_eq_zero.mpr (fun hm => absurd (hip _ hm) (by decide))
    have c5 : d1 ≠ '\n' := fun e => absurd (e ▸ hd1) (by decide)
    have c6 : d2 ≠ '\n' := fun e => absurd (e ▸ hd2) (by decide)
    rw [hdur]
    by_cases ht : x.sign = true <;>
      simp [ht, List.count_append, List.count_cons, c4, c5, c6]

theorem formatLine_eq (n : TrainRoute) : formatLine n = renderRecord n.record := rfl

/-- The loop of `saveRoutesToFile` writes the serialization of the catalog. -/
theorem saveRoutesToFileLoop_spec {h : Heap} :
    ∀ {L : List (Ptr × Route)} {p : Ptr} {f : Nat}, IsCatalog h p L → L.length < f →
      saveRoutesToFileLoop h f p = .ok (serialize L)
  | _, _, 0, _, hf => absurd hf (Nat.not_lt_zero _)
  | [], p, fuel + 1, hc, _ => by
    have : p = NULL := hc
    simp [saveRoutesToFileLoop, this, serialize]
  | x :: L, p, fuel + 1, hc, hf => by
    obtain ⟨-, hnn, n, hn, hrec, htl⟩ := hc
    have ih := saveRoutesToFileLoop_spec (f := fuel) htl
      (by simp only [List.length_cons] at hf; omega)
    simp [saveRoutesToFileLoop, hnn, load_of_some hnn hn, ih, serialize, formatLine_eq, hrec]

/-- What `saveRoutesToFile` does on a catalog when the file can be opened. -/
theorem saveRoutesToFile_spec {h : Heap} {head : Ptr} {L : List (Ptr × Route)}
    (hc : IsCatalog h head L) {f : Nat} (hf : L.length < f) (file : File) :
    saveRoutesToFile f h head true file = .ok (some (serialize L), []) := by
  simp [saveRoutesToFile, saveRoutesToFileLoop_spec hc hf]

theorem isDigit_ne_newline {c : Char} (hc : c.isDigit = true) : c ≠ '\n' := by
  intro e
  rw [e] at hc
  exact absurd hc (by decide)

/-- A line whose names hold no newline holds exactly one, at its end. -/
theorem renderRecord_count (r : Route) (h1 : '\n' ∉ r.startStation.val.data)
    (h2 : '\n' ∉ r.destination.val.data) : (renderRecord r).data.count '\n' = 1 := by
  obtain ⟨ds, -, hds, -, hint⟩ := formatInt_spec r.stoppages
  have c1 : r.startStation.val.data.count '\n' = 0 := List.count_eq_zero.mpr h1
  have c2 : r.destination.val.data.count '\n' = 0 := List.count_eq_zero.mpr h2
  have c3 : ds.count '\n' = 0 :=
    List.count_eq_zero.mpr (fun hm => isDigit_ne_newline (hds _ hm) rfl)
  have c4 := formatDuration_no_newline r.duration
  simp only [renderRecord, String.data_append, hint, List.count_append, c1, c2, c3, c4]
  by_cases hs : r.stoppages < 0 <;> simp [hs, List.count_cons]

theorem serialize_count :
    ∀ (L : List (Ptr × Route)),
      (∀ x ∈ L, '\n' ∉ x.2.startStation.val.data ∧ '\n' ∉ x.2.destination.val.data) →
      (serialize L).data.count '\n' = L.length
  | [], _ => rfl
  | x :: L, hx => by
    have h1 := hx x (List.mem_cons_self _ _)
    have ih := serialize_count L (fun y hy => hx y (List.mem_cons_of_mem _ hy))
    simp only [serialize, String.data_append, List.count_append, renderRecord_count x.2 h1.1 h1.2,
      ih, List.length_cons]
    omega

/-! ## Reading back what `fprintf` wrote -/

/-- C1: for every catalog `L` and every field tuple, `insertRoute` (called with
a valid stack and a fresh address from `malloc`) leaves the catalog equal to `L`
followed by exactly one new record carrying the four fields; and inserting the
items one after the other and then traversing the catalog as `displayRoutes`
does prints exactly the records of `L` followed by those of the items, in
insertion order (for `L` empty: exactly the inserted records). -/
theorem insertRoute_appends_in_order
    (h : Heap) (head : Ptr) (L : List (Ptr × Route)) (s : RouteStack) (p : Ptr)
    (startStation destination : Name) (stoppages : Int) (duration : Float32)
    (items : List (Ptr × Route)) (fuel : Nat)
    (hc : IsCatalog h head L) (hv : s.Valid) (hp : Fresh h p)
    (hnd : (ptrs items).Nodup) (hfr : ∀ q ∈ ptrs items, Fresh h q)
    (hf : L.length + items.length < fuel) :
    (∃ h2 head2 s2 out,
      insertRoute fuel h head (some s) p startStation destination stoppages duration
        = .ok (h2, head2, s2, out) ∧
      IsCatalog h2 head2 (L ++ [(p, ⟨startStation, destination, stoppages, duration⟩)])) ∧
    (∃ h2 head2 s2 out,
      insertRoutes fuel h head s items = .ok (h2, head2, s2, out) ∧
      IsCatalog h2 head2 (L ++ items) ∧
      displayRoutes fuel h2 head2
        = .ok (h2, head2,
            if L ++ items = [] then [Out.noRoutes]
            else (records L ++ records items).map Out.routeLine)) := by
  constructor
  · obtain ⟨h2, head2, s2, out, hins, hcat, -⟩ :=
      insertRoute_spec hc hv hp startStation destination stoppages duration
        (f := fuel) (by omega)
    exact ⟨h2, head2, s2, out, hins, hcat⟩
  · obtain ⟨h2, head2, s2, out, hins, hcat, -⟩ :=
      insertRoutes_spec (f := fuel) hc hv hnd hfr (by omega)
    refine ⟨h2, head2, s2, out, hins, hcat, ?_⟩
    rw [displayRoutes_spec hcat (by simpa using hf)]
    simp [records]

/-- C1 at a concrete input: two insertions into the empty catalog of the empty
heap, at addresses 1 and 2, with an empty stack. -/
theorem insertRoute_appends_in_order_witness :
    (∃ h2 head2 s2 out,
      insertRoute 3 (fun _ => none) NULL (some ⟨fun _ => NULL, -1⟩) 1 nameA nameB 2 0.5
        = .ok (h2, head2, s2, out) ∧
      IsCatalog h2 head2 ([] ++ [(1, ⟨nameA, nameB, 2, 0.5⟩)])) ∧
    (∃ h2 head2 s2 out,
      insertRoutes 3 (fun _ => none) NULL ⟨fun _ => NULL, -1⟩
        [(1, ⟨nameA, nameB, 2, 0.5⟩), (2, ⟨nameC, nameD, 3, 0.75⟩)] = .ok (h2, head2, s2, out) ∧
      IsCatalog h2 head2 ([] ++ [(1, ⟨nameA, nameB, 2, 0.5⟩), (2, ⟨nameC, nameD, 3, 0.75⟩)]) ∧
      displayRoutes 3 h2 head2
        = .ok (h2, head2,
            if ([] : List (Ptr × Route)) ++ [(1, ⟨nameA, nameB, 2, 0.5⟩), (2, ⟨nameC, nameD, 3, 0.75⟩)] = []
            then [Out.noRoutes]
            else (records [] ++ records [(1, ⟨nameA, nameB, 2, 0.5⟩), (2, ⟨nameC, nameD, 3, 0.75⟩)]).map
              Out.routeLine)) :=
  insertRoute_appends_in_order (fun _ => none) NULL [] ⟨fun _ => NULL, -1⟩ 1 nameA nameB 2 0.5
    [(1, ⟨nameA, nameB, 2, 0.5⟩), (2, ⟨nameC, nameD, 3, 0.75⟩)] 3
    rfl (by simp [RouteStack.Valid, STACK_SIZE]) ⟨by decide, rfl⟩ (by decide)
    (by simp [ptrs, Fresh, NULL]) (by decide)

/-- C2: when some record of the catalog `L` has exactly the key
`(start, destination)`, `deleteRoute` reports the deletion and removes exactly
one record, the first one in list order whose two names equal the key; every
other record stays, with its fields and in the same relative order (the result
is `L` with its first matching entry erased).  Scenario: after inserting
`("A","B",2,0.50)` then `("A","B",3,0.75)` into an empty catalog,
`deleteRoute("A","B")` leaves exactly the record `("A","B",3,0.75)`. -/
theorem deleteRoute_removes_first_match
    (h : Heap) (head : Ptr) (L : List (Ptr × Route)) (startStation destination : String)
    (fuel : Nat) (hc : IsCatalog h head L)
    (hex : ∃ x ∈ L, x.2.startStation.val = startStation ∧ x.2.destination.val = destination)
    (hf : L.length < fuel) :
    (∃ h2 head2 A y B,
      deleteRoute fuel h head startStation destination
        = .ok (h2, head2, [Out.deleted startStation destination]) ∧
      L = A ++ y :: B ∧
      (∀ x ∈ A, ¬ (x.2.startStation.val = startStation ∧ x.2.destination.val = destination)) ∧
      (y.2.startStation.val = startStation ∧ y.2.destination.val = destination) ∧
      IsCatalog h2 head2 (A ++ B) ∧
      A ++ B = L.eraseP (hasKey startStation destination) ∧
      (A ++ B).length + 1 = L.length) ∧
    (∀ (h0 : Heap) (s0 : RouteStack) (p1 p2 : Ptr), s0.Valid → Fresh h0 p1 → Fresh h0 p2 →
      p1 ≠ p2 →
      ∃ h1 head1 s1 out1 h2 head2,
        insertRoutes 3 h0 NULL s0 [(p1, ⟨nameA, nameB, 2, 0.5⟩), (p2, ⟨nameA, nameB, 3, 0.75⟩)]
          = .ok (h1, head1, s1, out1) ∧
        deleteRoute 3 h1 head1 "A" "B" = .ok (h2, head2, [Out.deleted "A" "B"]) ∧
        IsCatalog h2 head2 [(p2, ⟨nameA, nameB, 3, 0.75⟩)]) := by
  constructor
  · obtain ⟨x, hxL, hx⟩ := hex
    have hk : hasKey startStation destination x = true := by simpa [hasKey] using hx
    obtain ⟨h2, head2, hdel, hcat, -, -⟩ := deleteRoute_spec hc startStation destination hf
    obtain ⟨y, A, B, hA, hy, hL, her⟩ := List.exists_of_eraseP hxL hk
    rw [List.any_eq_true.mpr ⟨x, hxL, hk⟩, if_pos rfl] at hdel
    refine ⟨h2, head2, A, y, B, hdel, hL, fun z hz => ?_, by simpa [hasKey] using hy,
      her ▸ hcat, her.symm, ?_⟩
    · simpa [hasKey] using hA z hz
    · rw [hL]
      simp only [List.length_append, List.length_cons]
      omega
  · intro h0 s0 p1 p2 hv hp1 hp2 h12
    obtain ⟨h1, head1, s1, out1, hins, hcat, -⟩ :=
      insertRoutes_spec (f := 3) (I := [(p1, ⟨nameA, nameB, 2, 0.5⟩), (p2, ⟨nameA, nameB, 3, 0.75⟩)])
        (L := []) (h := h0) (p := NULL) rfl hv (by simp [ptrs, h12])
        (by
          intro q hq
          simp only [ptrs, List.map_cons, List.map_nil, List.mem_cons, List.mem_singleton,
            List.not_mem_nil, or_false] at hq
          rcases hq with hq | hq <;> subst hq <;> assumption)
        (by simp)
    obtain ⟨h2, head2, hdel, hcat2, -, -⟩ := deleteRoute_spec hcat "A" "B" (f := 3) (by simp)
    refine ⟨h1, head1, s1, out1, h2, head2, hins, ?_, ?_⟩
    · simpa [hasKey] using hdel
    · simpa [hasKey] using hcat2

/-- C2 at a concrete input: the catalog `[("A","C"), ("A","B",2), ("A","B",3)]`
at addresses 1, 2, 3 and the key `("A","B")`. -/
theorem deleteRoute_removes_first_match_witness :
    ∃ h2 head2 A y B,
      deleteRoute 4
          (fun q => if q = 1 then some ⟨nameA, nameC, 1, 0.25, 2⟩
            else if q = 2 then some ⟨nameA, nameB, 2, 0.5, 3⟩
            else if q = 3 then some ⟨nameA, nameB, 3, 0.75, 0⟩ else none) 1 "A" "B"
        = .ok (h2, head2, [Out.deleted "A" "B"]) ∧
      [((1 : Ptr), (⟨nameA, nameC, 1, 0.25⟩ : Route)), (2, ⟨nameA, nameB, 2, 0.5⟩),
          (3, ⟨nameA, nameB, 3, 0.75⟩)] = A ++ y :: B ∧
      (∀ x ∈ A, ¬ (x.2.startStation.val = "A" ∧ x.2.destination.val = "B")) ∧
      (y.2.startStation.val = "A" ∧ y.2.destination.val = "B") ∧
      IsCatalog h2 head2 (A ++ B) ∧
      A ++ B = [((1 : Ptr), (⟨nameA, nameC, 1, 0.25⟩ : Route)), (2, ⟨nameA, nameB, 2, 0.5⟩),
          (3, ⟨nameA, nameB, 3, 0.75⟩)].eraseP (hasKey "A" "B") ∧
      (A ++ B).length + 1
        = [((1 : Ptr), (⟨nameA, nameC, 1, 0.25⟩ : Route)), (2, ⟨nameA, nameB, 2, 0.5⟩),
          (3, ⟨nameA, nameB, 3, 0.75⟩)].length :=
  (deleteRoute_removes_first_match
    (fun q => if q = 1 then some ⟨nameA, nameC, 1, 0.25, 2⟩
      else if q = 2 then some ⟨nameA, nameB, 2, 0.5, 3⟩
      else if q = 3 then some ⟨nameA, nameB, 3, 0.75, 0⟩ else none) 1
    [(1, ⟨nameA, nameC, 1, 0.25⟩), (2, ⟨nameA, nameB, 2, 0.5⟩), (3, ⟨nameA, nameB, 3, 0.75⟩)] "A" "B" 4
    (by simp [IsCatalog, NULL, TrainRoute.record])
    ⟨(2, ⟨nameA, nameB, 2, 0.5⟩), by simp, rfl, rfl⟩ (by decide)).1

/-- C3: on every catalog `L` (the empty one included) `deleteRoute` returns with
exactly one of the two messages; it reports the deletion if and only if some
record of `L` equals the key in both names (one name alone does not count); and
when no record does, it reports `not found` and leaves the heap and `head`, hence
the catalog, exactly as they were. -/
theorem deleteRoute_found_iff
    (h : Heap) (head : Ptr) (L : List (Ptr × Route)) (startStation destination : String)
    (fuel : Nat) (hc : IsCatalog h head L) (hf : L.length < fuel) :
    ∃ h2 head2 out,
      deleteRoute fuel h head startStation destination = .ok (h2, head2, out) ∧
      (out = [Out.deleted startStation destination] ∨
        out = [Out.notFound startStation destination]) ∧
      (out = [Out.deleted startStation destination] ↔
        ∃ x ∈ L, x.2.startStation.val = startStation ∧ x.2.destination.val = destination) ∧
      ((∀ x ∈ L, ¬ (x.2.startStation.val = startStation ∧ x.2.destination.val = destination)) →
        out = [Out.notFound startStation destination] ∧ h2 = h ∧ head2 = head ∧
          IsCatalog h2 head2 L) := by
  obtain ⟨h2, head2, hdel, -, hsame, -⟩ := deleteRoute_spec hc startStation destination hf
  have hany : L.any (hasKey startStation destination) = true ↔
      ∃ x ∈ L, x.2.startStation.val = startStation ∧ x.2.destination.val = destination := by
    simp [List.any_eq_true, hasKey]
  refine ⟨h2, head2, _, hdel, ?_, ?_, ?_⟩
  · by_cases hk : L.any (hasKey startStation destination) = true
    · exact Or.inl (by simp [hk])
    · exact Or.inr (by simp [hk])
  · rw [← hany]
    by_cases hk : L.any (hasKey startStation destination) = true
    · simp [hk]
    · simp [hk]
  · intro hno
    have hk : L.any (hasKey startStation destination) = false := by
      rw [← Bool.not_eq_true, hany]
      rintro ⟨x, hx, hkx⟩
      exact hno x hx hkx
    obtain ⟨e1, e2⟩ := hsame hk
    refine ⟨by simp [hk], e1, e2, ?_⟩
    rw [e1, e2]
    exact hc

/-- C3 at a concrete input: the catalog `[("A","C"), ("D","B")]` at addresses 1
and 2 and the key `("A","B")`, which each record matches in one name only. -/
theorem deleteRoute_found_iff_witness :
    ∃ h2 head2 out,
      deleteRoute 3
          (fun q => if q = 1 then some ⟨nameA, nameC, 1, 0.25, 2⟩
            else if q = 2 then some ⟨nameD, nameB, 2, 0.5, 0⟩ else none) 1 "A" "B"
        = .ok (h2, head2, out) ∧
      (out = [Out.deleted "A" "B"] ∨ out = [Out.notFound "A" "B"]) ∧
      (out = [Out.deleted "A" "B"] ↔
        ∃ x ∈ [((1 : Ptr), (⟨nameA, nameC, 1, 0.25⟩ : Route)), (2, ⟨nameD, nameB, 2, 0.5⟩)],
          x.2.startStation.val = "A" ∧ x.2.destination.val = "B") ∧
      ((∀ x ∈ [((1 : Ptr), (⟨nameA, nameC, 1, 0.25⟩ : Route)), (2, ⟨nameD, nameB, 2, 0.5⟩)],
          ¬ (x.2.startStation.val = "A" ∧ x.2.destination.val = "B")) →
        out = [Out.notFound "A" "B"] ∧
          h2 = (fun q => if q = 1 then some ⟨nameA, nameC, 1, 0.25, 2⟩
            else if q = 2 then some ⟨nameD, nameB, 2, 0.5, 0⟩ else none) ∧
          head2 = 1 ∧
          IsCatalog h2 head2 [(1, ⟨nameA, nameC, 1, 0.25⟩), (2, ⟨nameD, nameB, 2, 0.5⟩)]) :=
  deleteRoute_found_iff
    (fun q => if q = 1 then some ⟨nameA, nameC, 1, 0.25, 2⟩
      else if q = 2 then some ⟨nameD, nameB, 2, 0.5, 0⟩ else none) 1
    [(1, ⟨nameA, nameC, 1, 0.25⟩), (2, ⟨nameD, nameB, 2, 0.5⟩)] "A" "B" 3
    (by simp [IsCatalog, NULL, TrainRoute.record]) (by decide)

/-- C4: for every catalog `L`, every valid stack `s` that is not full and every
field tuple, `insertRoute` followed immediately by `undoLastRoute` reports the
undo, frees the node that `insertRoute` created and restores the heap and
`head`, so that the catalog is `L` again (entries of `L` with the same key as
the new record stay in place); the stack holds the same references as `s`. -/
theorem insert_then_undo_restores
    (h : Heap) (head : Ptr) (L : List (Ptr × Route)) (s : RouteStack) (p : Ptr)
    (startStation destination : Name) (stoppages : Int) (duration : Float32) (fuel : Nat)
    (hc : IsCatalog h head L) (hv : s.Valid) (hnf : s.top ≠ (STACK_SIZE : Int) - 1)
    (hp : Fresh h p) (hf : L.length + 1 < fuel) :
    ∃ h1 head1 s1 out1 h2 head2 s2,
      insertRoute fuel h head (some s) p startStation destination stoppages duration
        = .ok (h1, head1, s1, out1) ∧
      IsCatalog h1 head1 (L ++ [(p, ⟨startStation, destination, stoppages, duration⟩)]) ∧
      undoLastRoute fuel h1 head1 (some s1) = .ok (h2, head2, s2, [Out.undone]) ∧
      IsCatalog h2 head2 L ∧ h2 = h ∧ head2 = head ∧
      s2.top = s.top ∧ s2.entries = s.entries := by
  obtain ⟨h1, head1, s1, out1, hins, hc1, hpush, hv1, hframe1⟩ :=
    insertRoute_spec hc hv hp startStation destination stoppages duration
      (f := fuel) (by omega)
  obtain ⟨s1b, out1b, hpushb, -, -, hnot⟩ := pushStack_valid hv p
  rw [hpush] at hpushb
  have e1 : s1 = s1b := by
    injection hpushb with e
    exact (Prod.mk.inj e).1
  subst e1
  obtain ⟨htop, hent, -⟩ := hnot hnf
  have hne : s1.top ≠ -1 := by
    have := hv.1
    omega
  have h0 : 0 ≤ s1.top := by
    have := hv.1
    omega
  have hpopent := entries_pop h0
  rw [hent] at hpopent
  obtain ⟨hent2, hlr⟩ := List.append_inj' hpopent rfl
  have hlr2 : s1.routes s1.top.toNat = p := by
    simpa using hlr.symm
  obtain ⟨h2, head2, hundo, hc2, -, hfreed, hframe2⟩ :=
    undoLastRoute_spec hc1 hv1 hne (f := fuel) (by simpa using hf)
  rw [hlr2] at hundo hc2 hfreed
  have hpL : p ∉ ptrs L := fun hm => by
    obtain ⟨-, n, hn⟩ := hc.live p hm
    rw [hp.2] at hn
    exact Option.noConfusion hn
  have hmem : p ∈ ptrs (L ++ [(p, ⟨startStation, destination, stoppages, duration⟩)]) := by
    simp [ptrs]
  have her : (L ++ [(p, (⟨startStation, destination, stoppages, duration⟩ : Route))]).eraseP
      (isAt p) = L := by
    rw [List.eraseP_append_right _ (fun b hb => by
      rw [isAt_iff]
      intro e
      exact hpL (by simp only [ptrs, List.mem_map]; exact ⟨b, hb, e⟩))]
    simp [List.eraseP_cons, isAt]
  rw [her] at hc2
  rw [if_pos hmem] at hundo
  have hhead : head2 = head := by
    cases L with
    | nil => exact (show head2 = NULL from hc2).trans (show head = NULL from hc).symm
    | cons x L => exact hc2.1.trans hc.1.symm
  have hheap : h2 = h := by
    funext q
    by_cases hq : q ∈ ptrs L
    · rw [hhead] at hc2
      exact hc.agree hc2 q hq
    · by_cases hqp : q = p
      · rw [hqp, hfreed hmem, hp.2]
      · rw [hframe2 q (by
          simp only [ptrs, List.map_append, List.map_cons, List.map_nil, List.mem_append,
            List.mem_singleton, not_or]
          exact ⟨hq, hqp⟩), hframe1 q hq hqp]
  refine ⟨h1, head1, s1, out1, h2, head2, _, hins, hc1, hundo, hc2, hheap, hhead, ?_,
    hent2.symm⟩
  simp only
  omega

/-- C4 at a concrete input: the catalog `[("A","B",2,0.50)]` at address 1, an
empty stack, and a second record with the same key inserted at address 2. -/
theorem insert_then_undo_restores_witness :
    ∃ h1 head1 s1 out1 h2 head2 s2,
      insertRoute 3 (fun q => if q = 1 then some ⟨nameA, nameB, 2, 0.5, 0⟩ else none) 1
          (some ⟨fun _ => NULL, -1⟩) 2 nameA nameB 3 0.75
        = .ok (h1, head1, s1, out1) ∧
      IsCatalog h1 head1 ([(1, ⟨nameA, nameB, 2, 0.5⟩)] ++ [(2, ⟨nameA, nameB, 3, 0.75⟩)]) ∧
      undoLastRoute 3 h1 head1 (some s1) = .ok (h2, head2, s2, [Out.undone]) ∧
      IsCatalog h2 head2 [(1, ⟨nameA, nameB, 2, 0.5⟩)] ∧
      h2 = (fun q => if q = 1 then some ⟨nameA, nameB, 2, 0.5, 0⟩ else none) ∧ head2 = 1 ∧
      s2.top = (⟨fun _ => NULL, -1⟩ : RouteStack).top ∧
      s2.entries = (⟨fun _ => NULL, -1⟩ : RouteStack).entries :=
  insert_then_undo_restores (fun q => if q = 1 then some ⟨nameA, nameB, 2, 0.5, 0⟩ else none) 1
    [(1, ⟨nameA, nameB, 2, 0.5⟩)] ⟨fun _ => NULL, -1⟩ 2 nameA nameB 3 0.75 3
    (by simp [IsCatalog, NULL, TrainRoute.record]) (by simp [RouteStack.Valid, STACK_SIZE])
    (by simp [STACK_SIZE]) ⟨by decide, by simp⟩ (by decide)

/-- C5: `undoLastRoute` called with an empty stack (`top == -1`) returns
normally, prints only the message of `popStack` that there is nothing to undo,
and leaves the heap, `head` and the stack, hence the catalog, as they were; the
stack holds no reference. -/
theorem undoLastRoute_empty_stack
    (h : Heap) (head : Ptr) (s : RouteStack) (fuel : Nat) (he : s.top = -1) :
    undoLastRoute fuel h head (some s) = .ok (h, head, s, [Out.stackEmpty]) ∧
    s.entries = [] ∧
    ∀ L, IsCatalog h head L →
      ∃ h2 head2 s2 out, undoLastRoute fuel h head (some s) = .ok (h2, head2, s2, out) ∧
        IsCatalog h2 head2 L ∧ s2.top = -1 ∧ Out.undone ∉ out := by
  have hu : undoLastRoute fuel h head (some s) = .ok (h, head, s, [Out.stackEmpty]) := by
    simp [undoLastRoute, popStack_empty he]
  refine ⟨hu, by simp [RouteStack.entries, he], fun L hL => ⟨h, head, s, _, hu, hL, he, ?_⟩⟩
  simp

/-- C5 at a concrete input: the catalog `[("A","B",2,0.50)]` at address 1 and a
stack with `top == -1`. -/
theorem undoLastRoute_empty_stack_witness :
    undoLastRoute 0 (fun q => if q = 1 then some ⟨nameA, nameB, 2, 0.5, 0⟩ else none) 1
        (some ⟨fun _ => NULL, -1⟩)
      = .ok (fun q => if q = 1 then some ⟨nameA, nameB, 2, 0.5, 0⟩ else none, 1,
          ⟨fun _ => NULL, -1⟩, [Out.stackEmpty]) :=
  (undoLastRoute_empty_stack (fun q => if q = 1 then some ⟨nameA, nameB, 2, 0.5, 0⟩ else none) 1
    ⟨fun _ => NULL, -1⟩ 0 rfl).1

/-- C6: on a stack at capacity (`top == STACK_SIZE - 1`, ten entries)
`pushStack` leaves the array and `top` unchanged, and `insertRoute` called with
such a stack still appends the new record to the end of the catalog; on a valid
stack that is not at capacity `pushStack` stores the reference at index
`top + 1`, which becomes the top, changes no other slot, and so adds exactly one
entry above the entries held before. -/
theorem pushStack_full_or_push (s : RouteStack) (route : Ptr) :
    (s.top = (STACK_SIZE : Int) - 1 →
      pushStack (some s) route = .ok (s, [Out.stackFull]) ∧ s.entries.length = 10 ∧
      ∀ (h : Heap) (head : Ptr) (L : List (Ptr × Route)) (p : Ptr)
        (startStation destination : Name) (stoppages : Int) (duration : Float32) (fuel : Nat),
        IsCatalog h head L → Fresh h p → L.length ≤ fuel →
        ∃ h2 head2,
          insertRoute fuel h head (some s) p startStation destination stoppages duration
            = .ok (h2, head2, s, [Out.stackFull]) ∧
          IsCatalog h2 head2 (L ++ [(p, ⟨startStation, destination, stoppages, duration⟩)])) ∧
    (s.Valid → s.top ≠ (STACK_SIZE : Int) - 1 →
      ∃ s2, pushStack (some s) route = .ok (s2, []) ∧
        s2.top = s.top + 1 ∧ s2.routes s2.top.toNat = route ∧
        (∀ i, i ≠ s2.top.toNat → s2.routes i = s.routes i) ∧
        s2.entries = s.entries ++ [route] ∧
        s2.entries.length = s.entries.length + 1) := by
  constructor
  · intro hfull
    have hv : s.Valid := ⟨by rw [hfull]; simp [STACK_SIZE], by rw [hfull]⟩
    have hpush : ∀ r, pushStack (some s) r = .ok (s, [Out.stackFull]) := fun r => by
      simp [pushStack, isFull, hfull]
    refine ⟨hpush route, by simp [RouteStack.entries, hfull, STACK_SIZE], ?_⟩
    intro h head L p startStation destination stoppages duration fuel hc hp hf
    obtain ⟨h2, head2, s2, out, hins, hcat, hp2, -⟩ :=
      insertRoute_spec hc hv hp startStation destination stoppages duration hf
    rw [hpush p] at hp2
    injection hp2 with e
    obtain ⟨e1, e2⟩ := Prod.mk.inj e
    subst e1
    subst e2
    exact ⟨h2, head2, hins, hcat⟩
  · intro hv hnf
    obtain ⟨hlo, hhi⟩ := hv
    have h1 : 0 ≤ s.top + 1 := by omega
    have h2 : s.top + 1 < (STACK_SIZE : Int) := by omega
    obtain ⟨s2, out, hpush, -, -, hnot⟩ := pushStack_valid ⟨hlo, hhi⟩ route
    obtain ⟨-, hent, -⟩ := hnot hnf
    have hdef : pushStack (some s) route
        = .ok (⟨fun i => if i = (s.top + 1).toNat then route else s.routes i, s.top + 1⟩, []) := by
      simp [pushStack, isFull, hnf, h1, h2]
    rw [hdef] at hpush
    injection hpush with e
    obtain ⟨e1, -⟩ := Prod.mk.inj e
    subst e1
    refine ⟨_, hdef, rfl, by simp, fun i hi => by simp only at hi ⊢; simp [hi], hent, ?_⟩
    rw [hent]
    simp

/-- C6 at concrete inputs: a stack with `top == 9` whose slots hold 1..10, and
an empty stack. -/
theorem pushStack_full_or_push_witness :
    (pushStack (some ⟨fun i => i + 1, 9⟩) 11 = .ok (⟨fun i => i + 1, 9⟩, [Out.stackFull]) ∧
      (⟨fun i => i + 1, 9⟩ : RouteStack).entries.length = 10) ∧
    (∃ s2, pushStack (some ⟨fun _ => NULL, -1⟩) 11 = .ok (s2, []) ∧
        s2.top = (⟨fun _ => NULL, -1⟩ : RouteStack).top + 1 ∧ s2.routes s2.top.toNat = 11 ∧
        (∀ i, i ≠ s2.top.toNat → s2.routes i = (⟨fun _ => NULL, -1⟩ : RouteStack).routes i) ∧
        s2.entries = (⟨fun _ => NULL, -1⟩ : RouteStack).entries ++ [11] ∧
        s2.entries.length = (⟨fun _ => NULL, -1⟩ : RouteStack).entries.length + 1) :=
  ⟨⟨((pushStack_full_or_push ⟨fun i => i + 1, 9⟩ 11).1 (by simp [STACK_SIZE])).1,
      ((pushStack_full_or_push ⟨fun i => i + 1, 9⟩ 11).1 (by simp [STACK_SIZE])).2.1⟩,
    (pushStack_full_or_push ⟨fun _ => NULL, -1⟩ 11).2 (by simp [RouteStack.Valid, STACK_SIZE])
      (by simp [STACK_SIZE])⟩

/-- C7: starting from any catalog `L` and an empty stack, eleven consecutive
`insertRoute` calls (fresh, pairwise distinct addresses) give the catalog `L`
followed by `r1..r11` and a stack that holds the addresses of `r1..r10` only;
then `k ≤ 10` consecutive `undoLastRoute` calls each report an undo and leave
`L`, `r1..r(10-k)` and `r11` (so they remove `r10, r9, ..., r1` in that order);
after ten calls the catalog is `L` followed by `r11` and the stack is empty, and
any number of further calls only prints that there is nothing to undo and
returns the same heap, `head` and stack: `r11` is never removed. -/
theorem eleven_inserts_ten_undos
    (h : Heap) (head : Ptr) (L : List (Ptr × Route)) (s : RouteStack)
    (items : List (Ptr × Route)) (fuel : Nat)
    (hc : IsCatalog h head L) (he : s.top = -1) (hlen : items.length = 11)
    (hnd : (ptrs items).Nodup) (hfr : ∀ q ∈ ptrs items, Fresh h q)
    (hf : L.length + 11 < fuel) :
    ∃ h1 head1 s1 out1,
      insertRoutes fuel h head s items = .ok (h1, head1, s1, out1) ∧
      IsCatalog h1 head1 (L ++ items) ∧
      s1.entries = ptrs (items.take 10) ∧
      (items.drop 10).length = 1 ∧
      (∀ k, k ≤ 10 →
        ∃ h2 head2 s2,
          undoLastRoutes fuel k h1 head1 s1
            = .ok (h2, head2, s2, List.replicate k Out.undone) ∧
          IsCatalog h2 head2 (L ++ items.take (10 - k) ++ items.drop 10) ∧
          s2.entries = ptrs (items.take (10 - k))) ∧
      (∃ h2 head2 s2,
        IsCatalog h2 head2 (L ++ items.drop 10) ∧ s2.entries = [] ∧
        ∀ j, undoLastRoutes fuel (10 + j) h1 head1 s1
          = .ok (h2, head2, s2,
              List.replicate 10 Out.undone ++ List.replicate j Out.stackEmpty)) := by
  have hv : s.Valid := ⟨by omega, by rw [he]; simp [STACK_SIZE]⟩
  have hs0 : s.entries = [] := by simp [RouteStack.entries, he]
  obtain ⟨h1, head1, s1, out1, hins, hc1, hv1, hent⟩ :=
    insertRoutes_spec (f := fuel) hc hv hnd hfr (by omega)
  have hent1 : s1.entries = ptrs (items.take 10) := by
    rw [hent, hs0, List.nil_append]
    simp [ptrs, STACK_SIZE, List.map_take]
  have hsplit : L ++ items = L ++ items.take 10 ++ items.drop 10 := by
    rw [List.append_assoc, List.take_append_drop]
  have htl : (items.take 10).length = 10 := by
    rw [List.length_take, hlen]
    rfl
  have hfl : (L ++ items.take 10 ++ items.drop 10).length < fuel := by
    rw [← hsplit, List.length_append, hlen]
    exact hf
  rw [hsplit] at hc1
  have hblock : ∀ k, k ≤ 10 →
      ∃ h2 head2 s2,
        undoLastRoutes fuel k h1 head1 s1
          = .ok (h2, head2, s2, List.replicate k Out.undone) ∧
        IsCatalog h2 head2 (L ++ items.take (10 - k) ++ items.drop 10) ∧ s2.Valid ∧
        s2.entries = ptrs (items.take (10 - k)) := by
    intro k hk
    obtain ⟨h2, head2, s2, hundo, hc2, hv2, hent2⟩ :=
      undoLastRoutes_block (f := fuel) k hc1 hv1 hent1 (by rw [htl]; exact hk) hfl
    rw [htl, List.take_take, Nat.min_eq_left (Nat.sub_le 10 k)] at hc2 hent2
    exact ⟨h2, head2, s2, hundo, hc2, hv2, hent2⟩
  refine ⟨h1, head1, s1, out1, hins, hsplit ▸ hc1, hent1, by rw [List.length_drop, hlen], ?_, ?_⟩
  · intro k hk
    obtain ⟨h2, head2, s2, hundo, hc2, -, hent2⟩ := hblock k hk
    exact ⟨h2, head2, s2, hundo, hc2, hent2⟩
  · obtain ⟨h2, head2, s2, hundo, hc2, hv2, hent2⟩ := hblock 10 (le_refl _)
    have hent3 : s2.entries = [] := by simpa [ptrs] using hent2
    have htop : s2.top = -1 := by
      have hl : s2.entries.length = 0 := by rw [hent3]; rfl
      simp only [RouteStack.entries, List.length_map, List.length_range] at hl
      have := hv2.1
      omega
    refine ⟨h2, head2, s2, by simpa using hc2, hent3, fun j => ?_⟩
    rw [undoLastRoutes_add j 10 h1 head1 s1, hundo]
    simp only [undoLastRoutes_empty htop j]

/-- C7 at a concrete input: the empty catalog of the empty heap, an empty
stack, and the eleven records of `sampleItems` inserted at addresses 1..11. -/
theorem eleven_inserts_ten_undos_witness :
    ∃ h1 head1 s1 out1,
      insertRoutes 12 (fun _ => none) NULL ⟨fun _ => NULL, -1⟩ sampleItems
        = .ok (h1, head1, s1, out1) ∧
      IsCatalog h1 head1 ([] ++ sampleItems) ∧
      s1.entries = ptrs (sampleItems.take 10) ∧
      (sampleItems.drop 10).length = 1 ∧
      (∀ k, k ≤ 10 →
        ∃ h2 head2 s2,
          undoLastRoutes 12 k h1 head1 s1
            = .ok (h2, head2, s2, List.replicate k Out.undone) ∧
          IsCatalog h2 head2 ([] ++ sampleItems.take (10 - k) ++ sampleItems.drop 10) ∧
          s2.entries = ptrs (sampleItems.take (10 - k))) ∧
      (∃ h2 head2 s2,
        IsCatalog h2 head2 ([] ++ sampleItems.drop 10) ∧ s2.entries = [] ∧
        ∀ j, undoLastRoutes 12 (10 + j) h1 head1 s1
          = .ok (h2, head2, s2,
              List.replicate 10 Out.undone ++ List.replicate j Out.stackEmpty)) :=
  eleven_inserts_ten_undos (fun _ => none) NULL [] ⟨fun _ => NULL, -1⟩ sampleItems 12
    rfl rfl (by decide) (by decide) (by simp [sampleItems, ptrs, Fresh, NULL]) (by decide)

/-- C8: in every state reachable from `initStack` by a finite sequence of
`pushStack`, `popStack`, `insertRoute`, `deleteRoute` and `undoLastRoute` calls,
`-1 ≤ top ≤ STACK_SIZE - 1`; the stack holds at most 10 references; the index
`top + 1` that `pushStack` writes when the stack is not full and the index `top`
that `popStack` reads when it is not empty lie in `0..9`, so both calls
return. -/
theorem reachable_stack_in_bounds (m : Machine) (hr : Reachable m) :
    -1 ≤ m.stack.top ∧ m.stack.top ≤ (STACK_SIZE : Int) - 1 ∧
    m.stack.entries.length ≤ 10 ∧
    (m.stack.top ≠ (STACK_SIZE : Int) - 1 → 0 ≤ m.stack.top + 1 ∧ m.stack.top + 1 ≤ 9) ∧
    (m.stack.top ≠ -1 → 0 ≤ m.stack.top ∧ m.stack.top ≤ 9) ∧
    (∀ route, ∃ r, pushStack (some m.stack) route = .ok r) ∧
    (∃ r, popStack (some m.stack) = .ok r) := by
  have hv := hr.valid
  obtain ⟨hlo, hhi⟩ := hv
  have hhi2 : m.stack.top ≤ 9 := by
    simp only [STACK_SIZE] at hhi
    push_cast at hhi
    omega
  refine ⟨hlo, hhi, ?_, ?_, ?_, ?_, ?_⟩
  · simp only [RouteStack.entries, List.length_map, List.length_range]
    omega
  · intro hne
    simp only [STACK_SIZE] at hne
    push_cast at hne
    omega
  · intro hne
    omega
  · intro route
    obtain ⟨s2, out, hpush, -⟩ := pushStack_valid ⟨hlo, hhi⟩ route
    exact ⟨_, hpush⟩
  · by_cases he : m.stack.top = -1
    · exact ⟨_, popStack_empty he⟩
    · exact ⟨_, popStack_nonempty ⟨hlo, hhi⟩ he⟩

/-- C8 at a concrete state: the one reached by `initStack` and one `pushStack`
of the address 5. -/
theorem reachable_stack_in_bounds_witness :
    -1 ≤ (0 : Int) ∧ (0 : Int) ≤ (STACK_SIZE : Int) - 1 ∧
    (⟨fun i => if i = 0 then 5 else NULL, 0⟩ : RouteStack).entries.length ≤ 10 ∧
    ((0 : Int) ≠ (STACK_SIZE : Int) - 1 → 0 ≤ (0 : Int) + 1 ∧ (0 : Int) + 1 ≤ 9) ∧
    ((0 : Int) ≠ -1 → 0 ≤ (0 : Int) ∧ (0 : Int) ≤ 9) ∧
    (∀ route, ∃ r, pushStack (some ⟨fun i => if i = 0 then 5 else NULL, 0⟩) route = .ok r) ∧
    (∃ r, popStack (some ⟨fun i => if i = 0 then 5 else NULL, 0⟩) = .ok r) :=
  reachable_stack_in_bounds ⟨fun _ => none, NULL, ⟨fun i => if i = 0 then 5 else NULL, 0⟩⟩
    (Reachable.step (Call.push 5) ⟨fun _ => none, NULL, ⟨fun _ => NULL, -1⟩⟩ _
      (Reachable.init _ _ ⟨fun _ => NULL, 3⟩ _ rfl) rfl)

/-- C9: on every catalog `L`, `searchRoute` returns with the heap and `head`
unchanged; it reports a found route if and only if some record of `L` equals the
key in both names, the record it then prints is the first such record in list
order (with that record's stoppages and duration), and otherwise it prints that
no route was found. -/
theorem searchRoute_first_match
    (h : Heap) (head : Ptr) (L : List (Ptr × Route)) (startStation destination : String)
    (fuel : Nat) (hc : IsCatalog h head L) (hf : L.length < fuel) :
    ∃ out,
      searchRoute fuel h head startStation destination = .ok (h, head, out) ∧
      ((∃ r, out = [Out.routeFound r]) ↔
        ∃ x ∈ L, x.2.startStation.val = startStation ∧ x.2.destination.val = destination) ∧
      (∀ A y B, L = A ++ y :: B →
        (∀ x ∈ A, ¬ (x.2.startStation.val = startStation ∧ x.2.destination.val = destination)) →
        (y.2.startStation.val = startStation ∧ y.2.destination.val = destination) →
        out = [Out.routeFound y.2]) ∧
      ((∀ x ∈ L, ¬ (x.2.startStation.val = startStation ∧ x.2.destination.val = destination)) →
        out = [Out.noRouteFound startStation destination]) := by
  refine ⟨_, searchRoute_spec hc startStation destination hf, ?_, ?_, ?_⟩
  · cases hfind : L.find? (hasKey startStation destination) with
    | none =>
      rw [List.find?_eq_none] at hfind
      constructor
      · rintro ⟨r, hr⟩
        simp at hr
      · rintro ⟨x, hx, hs, hd⟩
        exact absurd (by simp [hasKey, hs, hd]) (hfind x hx)
    | some x =>
      have hx := List.find?_some hfind
      have hmem := List.mem_of_find?_eq_some hfind
      simp only [List.cons.injEq, Out.routeFound.injEq, and_true, exists_eq', true_iff]
      exact ⟨x, hmem, by simpa [hasKey] using hx⟩
  · intro A y B hL hA hy
    have hfind : L.find? (hasKey startStation destination) = some y := by
      rw [List.find?_eq_some]
      refine ⟨by simpa [hasKey] using hy, A, B, hL, fun a ha => ?_⟩
      have := hA a ha
      simp only [hasKey, Bool.not_eq_true', decide_eq_false_iff_not]
      exact this
    rw [hfind]
  · intro hno
    have hfind : L.find? (hasKey startStation destination) = none := by
      rw [List.find?_eq_none]
      intro x hx
      simpa [hasKey] using hno x hx
    rw [hfind]

/-- C9 at a concrete input: the catalog `[("A","C",1), ("A","B",2), ("A","B",3)]`
at addresses 1, 2, 3 and the key `("A","B")`. -/
theorem searchRoute_first_match_witness :
    ∃ out,
      searchRoute 4
          (fun q => if q = 1 then some ⟨nameA, nameC, 1, 0.25, 2⟩
            else if q = 2 then some ⟨nameA, nameB, 2, 0.5, 3⟩
            else if q = 3 then some ⟨nameA, nameB, 3, 0.75, 0⟩ else none) 1 "A" "B"
        = .ok (fun q => if q = 1 then some ⟨nameA, nameC, 1, 0.25, 2⟩
            else if q = 2 then some ⟨nameA, nameB, 2, 0.5, 3⟩
            else if q = 3 then some ⟨nameA, nameB, 3, 0.75, 0⟩ else none, 1, out) ∧
      out = [Out.routeFound ⟨nameA, nameB, 2, 0.5⟩] :=
  (searchRoute_first_match
    (fun q => if q = 1 then some ⟨nameA, nameC, 1, 0.25, 2⟩
      else if q = 2 then some ⟨nameA, nameB, 2, 0.5, 3⟩
      else if q = 3 then some ⟨nameA, nameB, 3, 0.75, 0⟩ else none) 1
    [(1, ⟨nameA, nameC, 1, 0.25⟩), (2, ⟨nameA, nameB, 2, 0.5⟩), (3, ⟨nameA, nameB, 3, 0.75⟩)] "A" "B" 4
    (by simp [IsCatalog, NULL, TrainRoute.record]) (by decide)).elim
    (fun out hout => ⟨out, hout.1,
      hout.2.2.1 [(1, ⟨nameA, nameC, 1, 0.25⟩)] (2, ⟨nameA, nameB, 2, 0.5⟩) [(3, ⟨nameA, nameB, 3, 0.75⟩)]
        rfl (by decide) ⟨rfl, rfl⟩⟩)

/-- C10 (what the code does): `loadRoutesFromFile` without an existing file
never returns, whatever the heap, `head` and the addresses from `malloc`: its
first call `insertRoute(head, NULL, "Sealdah", "Bongaon", 13, 1.75)` passes a
null stack pointer to `pushStack`.  Started on the empty catalog the run ends
in a null dereference; no catalog of twelve records is produced and
`saveRoutesToFile` is not reached. -/
theorem loadRoutesFromFile_no_file_faults (fuel : Nat) (alloc : Nat → Ptr) (buf : Route)
    (writable : Bool) (h : Heap) :
    (∀ head, ∃ e, loadRoutesFromFile fuel alloc buf writable none h head = .error e) ∧
    loadRoutesFromFile fuel alloc buf writable none h NULL = .error .nullDeref ∧
    seedRoutes.length = 12 := by
  refine ⟨fun head => ?_, ?_, rfl⟩
  · obtain ⟨e, he⟩ := insertRoute_null_stack fuel h head (alloc 0) ⟨"Sealdah", by decide⟩
      ⟨"Bongaon", by decide⟩ 13 1.75
    exact ⟨e, by simp [loadRoutesFromFile, seedRoutes, insertSeedRoutes, he]⟩
  · simp [loadRoutesFromFile, seedRoutes, insertSeedRoutes, insertRoute_null_stack_empty]

/-- C11 (what the code does): a call of `insertRoute` with a null stack pointer
never returns, whatever the heap, `head`, the address from `malloc` and the
fields: `pushStack(NULL, newRoute)` calls `isFull(NULL)`, which reads
`stack->top` through the null pointer.  `loadRoutesFromFile` makes such a call on
its seeding path (no file), where it therefore never returns, and on its
file-reading path, where it returns only if the file is blank (the first
`fscanf` returns `EOF` and no call is made). -/
theorem insertRoute_null_stack_never_returns (fuel : Nat) (alloc : Nat → Ptr) (buf : Route)
    (writable : Bool) (h : Heap) (head : Ptr) :
    isFull none = .error .nullDeref ∧
    (∀ route, pushStack none route = .error .nullDeref) ∧
    (∀ p startStation destination stoppages duration,
      ∃ e, insertRoute fuel h head none p startStation destination stoppages duration
        = .error e) ∧
    (∃ e, loadRoutesFromFile fuel alloc buf writable none h head = .error e) ∧
    (∀ text, (∃ e, loadRoutesFromFile fuel alloc buf writable (some text) h head = .error e) ∨
      (text.data.dropWhile isspace = [] ∧
        loadRoutesFromFile fuel alloc buf writable (some text) h head
          = .ok (h, head, some text, []))) ∧
    (∃ e, loadRoutesFromFile fuel alloc buf writable (some "A B 2 0.50\n") h head
      = .error e) := by
  have hfile : ∀ text,
      (∃ e, loadRoutesFromFile fuel alloc buf writable (some text) h head = .error e) ∨
      (text.data.dropWhile isspace = [] ∧
        loadRoutesFromFile fuel alloc buf writable (some text) h head
          = .ok (h, head, some text, [])) := by
    intro text
    cases hloop : loadRoutesFromFileLoop fuel alloc fuel 0 text.data buf h head with
    | error e => exact Or.inl ⟨e, by simp [loadRoutesFromFile, hloop]⟩
    | ok r =>
      obtain ⟨h2, head2, out⟩ := r
      obtain ⟨hb, e1, e2, e3⟩ := loadRoutesFromFileLoop_ok hloop
      exact Or.inr ⟨hb, by simp [loadRoutesFromFile, hloop, e1, e2, e3]⟩
  refine ⟨rfl, fun _ => rfl, fun p sn dn st du => insertRoute_null_stack fuel h head p sn dn st du,
    ?_, hfile, ?_⟩
  · obtain ⟨e, he⟩ := insertRoute_null_stack fuel h head (alloc 0) ⟨"Sealdah", by decide⟩
      ⟨"Bongaon", by decide⟩ 13 1.75
    exact ⟨e, by simp [loadRoutesFromFile, seedRoutes, insertSeedRoutes, he]⟩
  · rcases hfile "A B 2 0.50\n" with he | ⟨hb, -⟩
    · exact he
    · exact absurd hb (by decide)

/-- C13 (what the code does): a malformed line does not stop the loop of
`loadRoutesFromFile`, and the load fails.  On the line `A B x 1.0` (stoppages
not a number) `fscanf` assigns the two names and returns 2, on `A B 3` (too few
fields) it returns 3; neither is `EOF`, so `insertRoute` is called with the
fields assigned so far and the old values of the others, and the result of the
load is the fault of that call (null stack pointer).  The characters left
unread (`x 1.0`) are read as names by the next `fscanf`.  A file with a
well-formed line before the malformed one does not load either. -/
theorem loadRoutesFromFile_malformed_line (fuel : Nat) (alloc : Nat → Ptr) (buf : Route)
    (writable : Bool) (h : Heap) (head : Ptr) :
    fscanfRoute "A B x 1.0\n".data buf
      = .ok (some 2, { buf with startStation := nameA, destination := nameB },
          "x 1.0\n".data) ∧
    fscanfRoute "A B 3\n".data buf = .ok (some 3, ⟨nameA, nameB, 3, buf.duration⟩, []) ∧
    fscanfRoute "x 1.0\n".data buf
      = .ok (some 2,
          { buf with startStation := ⟨"x", by decide⟩, destination := ⟨"1.0", by decide⟩ },
          []) ∧
    (∀ n, loadRoutesFromFileLoop fuel alloc (n + 1) 0 "A B x 1.0\n".data buf h head
      = (insertRoute fuel h head none (alloc 0) nameA nameB buf.stoppages buf.duration).map
          (fun r => (r.1, r.2.1, r.2.2.2))) ∧
    (∃ e, loadRoutesFromFile fuel alloc buf writable (some "A B x 1.0\n") h head
      = .error e) ∧
    (∃ e, loadRoutesFromFile fuel alloc buf writable (some "A B 1 0.50\nC D x\n") h head
      = .error e) := by
  have hscan : fscanfRoute "A B x 1.0\n".data buf
      = .ok (some 2, { buf with startStation := nameA, destination := nameB },
          "x 1.0\n".data) := rfl
  have hfault : ∀ text : String, text.data.dropWhile isspace ≠ [] →
      ∃ e, loadRoutesFromFile fuel alloc buf writable (some text) h head = .error e := by
    intro text hne
    cases hloop : loadRoutesFromFileLoop fuel alloc fuel 0 text.data buf h head with
    | error e => exact ⟨e, by simp [loadRoutesFromFile, hloop]⟩
    | ok r =>
      obtain ⟨h2, head2, out⟩ := r
      exact absurd (loadRoutesFromFileLoop_ok hloop).1 hne
  refine ⟨hscan, rfl, rfl, fun n => ?_, hfault _ (by decide), hfault _ (by decide)⟩
  obtain ⟨e, he⟩ := insertRoute_null_stack fuel h head (alloc 0) nameA nameB buf.stoppages
    buf.duration
  simp only [loadRoutesFromFileLoop, hscan, he]
  rfl

/-- C14 (as stated, refuted at a concrete input): the conversion `%f` reads the
text `inf` as an infinity, so `main` can insert the record `("A","B",1,inf)`;
the catalog with that record is saved as the line `A B 1 inf`, whose duration
is not a number with two decimal digits. -/
theorem saveRoutesToFile_infinite_duration :
    scanFloat "inf\n".data = .value (Float32.inf false) "\n".data ∧
    IsCatalog infHeap 1 infCatalog ∧
    saveRoutesToFile 2 infHeap 1 true none = .ok (some "A B 1 inf\n", []) ∧
    (formatDuration (Float32.inf false)).data = ['i', 'n', 'f'] ∧
    ¬ ∃ (pre : List Char) (d1 d2 : Char), d1.isDigit = true ∧ d2.isDigit = true ∧
        (formatDuration (Float32.inf false)).data = pre ++ ['.', d1, d2] := by
  have hc : IsCatalog infHeap 1 infCatalog := by
    simp [IsCatalog, infHeap, infCatalog, NULL, TrainRoute.record]
  have htext : serialize infCatalog = "A B 1 inf\n" := by decide
  have hs := saveRoutesToFile_spec hc (by decide : infCatalog.length < 2) none
  rw [htext] at hs
  have hfmt : (formatDuration (Float32.inf false)).data = ['i', 'n', 'f'] := by decide
  refine ⟨by decide, hc, hs, hfmt, ?_⟩
  rintro ⟨pre, d1, d2, -, hd2, heq⟩
  rw [hfmt] at heq
  have hlast := congrArg List.getLast? heq
  simp at hlast
  have : d2 = 'f' := hlast.symm
  rw [this] at hd2
  exact absurd hd2 (by decide)

/-- C14 (amended): for every catalog `L`, when the file can be opened,
`saveRoutesToFile` replaces whatever the file held by the serialization of `L`:
the concatenation, in order, of one line per record and nothing else (an empty
text for the empty catalog).  A line is the start station, a space, the
destination, a space, the stoppages as an optional minus sign and decimal
digits, a space, the duration and a newline.  A finite duration is written as
an optional minus sign, the digits of the integer part, a point and exactly two
digits (the value rounded to hundredths); an infinity or a NaN is written as an
optional minus sign and `inf` or `nan`.  When no name holds a newline the text
has exactly `length L` newlines. -/
theorem saveRoutesToFile_writes_lines
    (h : Heap) (head : Ptr) (L : List (Ptr × Route)) (file : File) (fuel : Nat)
    (hc : IsCatalog h head L) (hf : L.length < fuel) :
    saveRoutesToFile fuel h head true file = .ok (some (serialize L), []) ∧
    (L = [] → serialize L = "") ∧
    (serialize L).data = ((records L).map (fun r => (renderRecord r).data)).flatten ∧
    (∀ r : Route, (renderRecord r).data
      = r.startStation.val.data ++ ' ' :: r.destination.val.data
          ++ ' ' :: (formatInt r.stoppages).data
          ++ ' ' :: (formatDuration r.duration).data ++ ['\n']) ∧
    (∀ n : Int, ∃ ds, ds ≠ [] ∧ (∀ c ∈ ds, c.isDigit = true) ∧ digitsValue ds = n.natAbs ∧
      (formatInt n).data = (if n < 0 then ['-'] else []) ++ ds) ∧
    (∀ x : Float32, x.expo ≠ 255 →
      ∃ ip d1 d2, ip ≠ [] ∧ (∀ c ∈ ip, c.isDigit = true) ∧ d1.isDigit = true ∧
        d2.isDigit = true ∧
        (formatDuration x).data = (if x.sign = true then ['-'] else []) ++ ip ++ ['.', d1, d2] ∧
        digitsValue ip * 100 + digitsValue [d1, d2] = roundHalfEven (x.mag * 100)) ∧
    (∀ x : Float32, x.expo = 255 →
      (formatDuration x).data
        = (if x.sign = true then ['-'] else [])
            ++ (if x.frac = 0 then ['i', 'n', 'f'] else ['n', 'a', 'n'])) ∧
    ((∀ x ∈ L, '\n' ∉ x.2.startStation.val.data ∧ '\n' ∉ x.2.destination.val.data) →
      (serialize L).data.count '\n' = L.length) := by
  refine ⟨saveRoutesToFile_spec hc hf file, fun e => by rw [e]; rfl, ?_, fun r => ?_,
    formatInt_spec, formatDuration_spec, formatDuration_special, serialize_count L⟩
  · clear hc hf
    induction L with
    | nil => rfl
    | cons x L ih => simp [serialize, records, String.data_append, ih]
  · simp [renderRecord, String.data_append]

/-- C14 (amended) at a concrete input: the two-node catalog of `sampleHeap` and
a file that holds the text `old`. -/
theorem saveRoutesToFile_writes_lines_witness :
    saveRoutesToFile 3 sampleHeap 1 true (some "old") = .ok (some (serialize sampleCatalog), []) ∧
    serialize sampleCatalog = "A C 1 0.25\nA B 2 0.50\n" :=
  ⟨(saveRoutesToFile_writes_lines sampleHeap 1 sampleCatalog (some "old") 3
      (by simp [IsCatalog, sampleHeap, sampleCatalog, NULL, TrainRoute.record])
      (by decide)).1, by decide!⟩

/-- C15 (what the code does): the seeding path of `loadRoutesFromFile` never
returns, so it persists no file.  The text that `saveRoutesToFile` writes for the
twelve seed records cannot be read back either: three seed destinations hold a
space (`Dum Dum`, `Bidhan Sarani`, `North Dumdum`), so from the sixth line
`Sealdah Dum Dum 4 0.30` the call `fscanf` assigns the names `Sealdah` and `Dum`,
fails on the stoppages and returns 2; and `loadRoutesFromFile` on that text does
not return (null stack pointer at the first record). -/
theorem seed_file_not_read_back (fuel : Nat) (alloc : Nat → Ptr) (buf : Route)
    (writable : Bool) (h : Heap) (head : Ptr) :
    (∃ e, loadRoutesFromFile fuel alloc buf writable none h head = .error e) ∧
    records seedCatalog = seedRoutes ∧
    (seedRoutes.filter (fun r => r.destination.val.data.any isspace)).map
        (fun r => r.destination.val) = ["Dum Dum", "Bidhan Sarani", "North Dumdum"] ∧
    serialize seedCatalog
      = "Sealdah Bongaon 13 1.75\nSealdah Kolkata 5 0.45\nSealdah Howrah 8 0.65\n"
        ++ "Sealdah Naihati 10 1.10\nSealdah Baranagar 6 0.50\nSealdah Dum Dum 4 0.30\n"
        ++ "Sealdah Bidhan Sarani 3 0.20\nSealdah North Dumdum 7 0.55\n"
        ++ "Sealdah Chandannagar 15 2.00\nSealdah Kamarhati 9 0.75\n"
        ++ "Sealdah Garia 14 1.85\nSealdah Sodepur 12 1.65\n" ∧
    fscanfRoute "Sealdah Dum Dum 4 0.30\n".data buf
      = .ok (some 2,
          { buf with startStation := ⟨"Sealdah", by decide⟩, destination := ⟨"Dum", by decide⟩ },
          "Dum 4 0.30\n".data) ∧
    (∃ e, loadRoutesFromFile fuel alloc buf writable (some (serialize seedCatalog)) h head
      = .error e) := by
  have hser : serialize seedCatalog
      = "Sealdah Bongaon 13 1.75\nSealdah Kolkata 5 0.45\nSealdah Howrah 8 0.65\n"
        ++ "Sealdah Naihati 10 1.10\nSealdah Baranagar 6 0.50\nSealdah Dum Dum 4 0.30\n"
        ++ "Sealdah Bidhan Sarani 3 0.20\nSealdah North Dumdum 7 0.55\n"
        ++ "Sealdah Chandannagar 15 2.00\nSealdah Kamarhati 9 0.75\n"
        ++ "Sealdah Garia 14 1.85\nSealdah Sodepur 12 1.65\n" := by decide!
  refine ⟨?_, rfl, by decide, hser, rfl, ?_⟩
  · obtain ⟨e, he⟩ := insertRoute_null_stack fuel h head (alloc 0) ⟨"Sealdah", by decide⟩
      ⟨"Bongaon", by decide⟩ 13 1.75
    exact ⟨e, by simp [loadRoutesFromFile, seedRoutes, insertSeedRoutes, he]⟩
  · cases hloop : loadRoutesFromFileLoop fuel alloc fuel 0 (serialize seedCatalog).data buf h
        head with
    | error e => exact ⟨e, by simp [loadRoutesFromFile, hloop]⟩
    | ok r =>
      obtain ⟨h2, head2, out⟩ := r
      have hb := (loadRoutesFromFileLoop_ok hloop).1
      rw [hser] at hb
      exact absurd hb (by decide)

/-- C16: for every catalog `L`, every `k ≤ 10` and an initially empty stack, `k`
consecutive `insertRoute` calls (fresh, pairwise distinct addresses) followed by
`j ≤ k` consecutive `undoLastRoute` calls leave `L` followed by the first `k - j`
inserted records, each call reporting an undo (so the records are removed in
reverse insertion order, last inserted first); after `k` undos the catalog is
`L` again, `head` is the initial one, and the stack is empty. -/
theorem inserts_then_undos_restore
    (h : Heap) (head : Ptr) (L : List (Ptr × Route)) (s : RouteStack)
    (items : List (Ptr × Route)) (fuel : Nat)
    (hc : IsCatalog h head L) (he : s.top = -1) (hlen : items.length ≤ 10)
    (hnd : (ptrs items).Nodup) (hfr : ∀ q ∈ ptrs items, Fresh h q)
    (hf : L.length + items.length < fuel) :
    ∃ h1 head1 s1 out1,
      insertRoutes fuel h head s items = .ok (h1, head1, s1, out1) ∧
      IsCatalog h1 head1 (L ++ items) ∧
      s1.entries = ptrs items ∧
      (∀ j, j ≤ items.length →
        ∃ h2 head2 s2,
          undoLastRoutes fuel j h1 head1 s1
            = .ok (h2, head2, s2, List.replicate j Out.undone) ∧
          IsCatalog h2 head2 (L ++ items.take (items.length - j)) ∧
          s2.entries = ptrs (items.take (items.length - j))) ∧
      (∃ h2 s2,
        undoLastRoutes fuel items.length h1 head1 s1
          = .ok (h2, head, s2, List.replicate items.length Out.undone) ∧
        IsCatalog h2 head L ∧ s2.top = -1 ∧ s2.entries = []) := by
  have hv : s.Valid := ⟨by omega, by rw [he]; simp [STACK_SIZE]⟩
  have hs0 : s.entries = [] := by simp [RouteStack.entries, he]
  obtain ⟨h1, head1, s1, out1, hins, hc1, hv1, hent⟩ :=
    insertRoutes_spec (f := fuel) hc hv hnd hfr (by omega)
  have hent1 : s1.entries = ptrs items := by
    rw [hent, hs0, List.nil_append, List.take_of_length_le]
    simpa [ptrs, STACK_SIZE] using hlen
  have hc1b : IsCatalog h1 head1 (L ++ items ++ []) := by simpa using hc1
  have hblock : ∀ j, j ≤ items.length →
      ∃ h2 head2 s2,
        undoLastRoutes fuel j h1 head1 s1
          = .ok (h2, head2, s2, List.replicate j Out.undone) ∧
        IsCatalog h2 head2 (L ++ items.take (items.length - j)) ∧ s2.Valid ∧
        s2.entries = ptrs (items.take (items.length - j)) := by
    intro j hj
    obtain ⟨h2, head2, s2, hundo, hc2, hv2, hent2⟩ :=
      undoLastRoutes_block (f := fuel) j hc1b hv1 hent1 hj (by simpa using hf)
    exact ⟨h2, head2, s2, hundo, by simpa using hc2, hv2, hent2⟩
  refine ⟨h1, head1, s1, out1, hins, hc1, hent1, ?_, ?_⟩
  · intro j hj
    obtain ⟨h2, head2, s2, hundo, hc2, -, hent2⟩ := hblock j hj
    exact ⟨h2, head2, s2, hundo, hc2, hent2⟩
  · obtain ⟨h2, head2, s2, hundo, hc2, hv2, hent2⟩ := hblock items.length (le_refl _)
    have hent3 : s2.entries = [] := by simpa [ptrs] using hent2
    have htop : s2.top = -1 := by
      have hl : s2.entries.length = 0 := by rw [hent3]; rfl
      simp only [RouteStack.entries, List.length_map, List.length_range] at hl
      have := hv2.1
      omega
    have hc3 : IsCatalog h2 head2 L := by simpa using hc2
    have hhead : head2 = head := by
      cases L with
      | nil => exact (show head2 = NULL from hc3).trans (show head = NULL from hc).symm
      | cons x L => exact hc3.1.trans hc.1.symm
    subst hhead
    exact ⟨h2, s2, hundo, hc3, htop, hent3⟩

/-- C16 at a concrete input: the catalog `[("C","D",7,0.25)]` at address 20, an
empty stack, and the first ten records of `sampleItems` inserted at addresses
1..10. -/
theorem inserts_then_undos_restore_witness :
    ∃ h1 head1 s1 out1,
      insertRoutes 12 (fun q => if q = 20 then some ⟨nameC, nameD, 7, 0.25, 0⟩ else none) 20
          ⟨fun _ => NULL, -1⟩ (sampleItems.take 10) = .ok (h1, head1, s1, out1) ∧
      IsCatalog h1 head1 ([(20, ⟨nameC, nameD, 7, 0.25⟩)] ++ sampleItems.take 10) ∧
      s1.entries = ptrs (sampleItems.take 10) ∧
      (∀ j, j ≤ (sampleItems.take 10).length →
        ∃ h2 head2 s2,
          undoLastRoutes 12 j h1 head1 s1
            = .ok (h2, head2, s2, List.replicate j Out.undone) ∧
          IsCatalog h2 head2 ([(20, ⟨nameC, nameD, 7, 0.25⟩)]
            ++ (sampleItems.take 10).take ((sampleItems.take 10).length - j)) ∧
          s2.entries = ptrs ((sampleItems.take 10).take ((sampleItems.take 10).length - j))) ∧
      (∃ h2 s2,
        undoLastRoutes 12 (sampleItems.take 10).length h1 head1 s1
          = .ok (h2, 20, s2, List.replicate (sampleItems.take 10).length Out.undone) ∧
        IsCatalog h2 20 [(20, ⟨nameC, nameD, 7, 0.25⟩)] ∧ s2.top = -1 ∧ s2.entries = []) :=
  inserts_then_undos_restore (fun q => if q = 20 then some ⟨nameC, nameD, 7, 0.25, 0⟩ else none)
    20 [(20, ⟨nameC, nameD, 7, 0.25⟩)] ⟨fun _ => NULL, -1⟩ (sampleItems.take 10) 12
    (by simp [IsCatalog, NULL, TrainRoute.record]) rfl (by decide) (by decide)
    (by simp [sampleItems, ptrs, Fresh, NULL, List.take]) (by decide)

/-- C17 (what the code does): the stack holds addresses and `deleteRoute`
leaves the address of the node it frees on the stack.  Let the stack be full
with the address `p` of the last record `r` of the catalog as its top entry, no
other record having the key of `r`.  Then `deleteRoute` on the key of `r`
removes `r` and frees `p`.  An `undoLastRoute` at this point pops the stale
entry, finds no node at `p`, changes nothing and prints nothing.  But an
`insertRoute` for which `malloc` returns the address `p` again appends a record
`r2` and does not push it (the stack is full); and `undoLastRoute` then pops the
stale entry `p`, finds `r2` at that address, removes it and reports an undone
addition.  The record referenced by the top entry was already removed by
`deleteRoute`, and yet the undo removes a record, one that was never on the
stack. -/
theorem undoLastRoute_removes_record_at_reused_address
    (h : Heap) (head : Ptr) (L : List (Ptr × Route)) (s : RouteStack) (p : Ptr)
    (r r2 : Route) (fuel : Nat)
    (hc : IsCatalog h head (L ++ [(p, r)])) (hv : s.Valid)
    (hfull : s.top = (STACK_SIZE : Int) - 1) (htop : s.routes s.top.toNat = p)
    (hkey : ∀ x ∈ L, ¬ (x.2.startStation.val = r.startStation.val ∧
      x.2.destination.val = r.destination.val))
    (hf : L.length + 1 < fuel) :
    ∃ h1 head1 h2 head2 h3 head3 s3,
      deleteRoute fuel h head r.startStation.val r.destination.val
        = .ok (h1, head1, [Out.deleted r.startStation.val r.destination.val]) ∧
      IsCatalog h1 head1 L ∧ Fresh h1 p ∧
      undoLastRoute fuel h1 head1 (some s) = .ok (h1, head1, s3, []) ∧
      insertRoute fuel h1 head1 (some s) p r2.startStation r2.destination r2.stoppages
          r2.duration
        = .ok (h2, head2, s, [Out.stackFull]) ∧
      IsCatalog h2 head2 (L ++ [(p, r2)]) ∧
      undoLastRoute fuel h2 head2 (some s) = .ok (h3, head3, s3, [Out.undone]) ∧
      IsCatalog h3 head3 L ∧ s3.top = s.top - 1 ∧ s3.routes = s.routes := by
  have hno : ∀ x ∈ L, hasKey r.startStation.val r.destination.val x = false := fun x hx => by
    simpa [hasKey] using hkey x hx
  have hy : hasKey r.startStation.val r.destination.val (p, r) = true := by
    simp [hasKey]
  obtain ⟨h1, head1, hdel, hc1, hfree, hpn⟩ :=
    deleteRoute_last_freed hc r.startStation.val r.destination.val hno hy hf
  have hfresh : Fresh h1 p := ⟨hpn, hfree⟩
  obtain ⟨h2, head2, s2, out2, hins, hc2, hpush, -, -⟩ :=
    insertRoute_spec hc1 hv hfresh r2.startStation r2.destination r2.stoppages r2.duration
      (f := fuel) (by omega)
  obtain ⟨s2b, out2b, hpush2, -, hfullcase, -⟩ := pushStack_valid hv p
  rw [hpush] at hpush2
  obtain ⟨e1, e2⟩ := hfullcase hfull
  have es : s2 = s := by
    rw [← e1]
    exact (Prod.mk.inj (Except.ok.inj hpush2)).1
  have eo : out2 = [Out.stackFull] := by
    rw [← e2]
    exact (Prod.mk.inj (Except.ok.inj hpush2)).2
  subst es
  subst eo
  have hne : s2.top ≠ -1 := by
    rw [hfull]
    simp [STACK_SIZE]
  have hlen2 : (L ++ [(p, r2)]).length < fuel := by
    simp only [List.length_append, List.length_cons, List.length_nil]
    omega
  obtain ⟨h3, head3, hundo, hc3, -, -, -⟩ := undoLastRoute_spec hc2 hv hne (f := fuel) hlen2
  have hmem : s2.routes s2.top.toNat ∈ ptrs (L ++ [(p, r2)]) := by
    rw [htop]
    simp [ptrs]
  have hpL : p ∉ ptrs L := fun hm => by
    obtain ⟨-, n, hn⟩ := hc1.live p hm
    rw [hfree] at hn
    exact Option.noConfusion hn
  have her : (L ++ [(p, r2)]).eraseP (isAt (s2.routes s2.top.toNat)) = L := by
    rw [htop, List.eraseP_append_right _ (fun b hb => by
      rw [isAt_iff]
      intro e
      exact hpL (by simp only [ptrs, List.mem_map]; exact ⟨b, hb, e⟩))]
    have hat : isAt p (p, r2) = true := isAt_iff.mpr rfl
    simp [List.eraseP_cons, hat]
  rw [if_pos hmem] at hundo
  rw [her] at hc3
  obtain ⟨h4, head4, hundo0, -, hsame, -, -⟩ :=
    undoLastRoute_spec hc1 hv hne (f := fuel) (by omega)
  have hpL0 : s2.routes s2.top.toNat ∉ ptrs L := by
    rw [htop]
    exact hpL
  obtain ⟨e4, e5⟩ := hsame hpL0
  subst e4
  subst e5
  rw [if_neg hpL0] at hundo0
  exact ⟨h4, head4, h2, head2, h3, head3, _, hdel, hc1, hfresh, hundo0, hins, hc2, hundo, hc3,
    rfl, rfl⟩

/-- C17 at the failing input: from the empty catalog and the empty stack, the
ten insertions of `tenItems` (addresses 1 to 10) fill the stack; then
`deleteRoute("C", "D")` removes the tenth record, `insertRoute` of
`("A","C",99,1.5)` is given the address 10 again, and `undoLastRoute` removes
that record and reports an undone addition. -/
theorem undoLastRoute_removes_record_at_reused_address_witness :
    ∃ h head s out,
      insertRoutes 12 (fun _ => none) NULL ⟨fun _ => NULL, -1⟩ tenItems
        = .ok (h, head, s, out) ∧
      s.entries = [1, 2, 3, 4, 5, 6, 7, 8, 9, 10] ∧
      ∃ h1 head1 h2 head2 h3 head3 s3,
        deleteRoute 12 h head "C" "D" = .ok (h1, head1, [Out.deleted "C" "D"]) ∧
        IsCatalog h1 head1 (sampleItems.take 9) ∧ Fresh h1 10 ∧
        undoLastRoute 12 h1 head1 (some s) = .ok (h1, head1, s3, []) ∧
        insertRoute 12 h1 head1 (some s) 10 nameA nameC 99 1.5
          = .ok (h2, head2, s, [Out.stackFull]) ∧
        IsCatalog h2 head2 (sampleItems.take 9 ++ [(10, ⟨nameA, nameC, 99, 1.5⟩)]) ∧
        undoLastRoute 12 h2 head2 (some s) = .ok (h3, head3, s3, [Out.undone]) ∧
        IsCatalog h3 head3 (sampleItems.take 9) ∧ s3.top = s.top - 1 ∧
        s3.routes = s.routes := by
  have hv0 : (⟨fun _ => NULL, -1⟩ : RouteStack).Valid := by decide
  obtain ⟨h, head, s, out, hins, hc, hv, hent⟩ :=
    insertRoutes_spec (f := 12) (I := tenItems) (L := []) (h := fun _ => none) (p := NULL)
      (s := ⟨fun _ => NULL, -1⟩) rfl hv0 (by decide)
      (by decide) (by decide)
  have hent2 : s.entries = [1, 2, 3, 4, 5, 6, 7, 8, 9, 10] := by
    rw [hent]
    decide
  have hlen : s.entries.length = 10 := by rw [hent2]; rfl
  have htop9 : s.top = 9 := by
    simp only [RouteStack.entries, List.length_map, List.length_range] at hlen
    have := hv.1
    omega
  have h0 : 0 ≤ s.top := by omega
  have hpop := entries_pop h0
  have hlast : s.routes s.top.toNat = 10 := by
    have hl := congrArg List.getLast? hpop
    rw [hent2] at hl
    simp at hl
    exact hl.symm
  have hcat : IsCatalog h head (sampleItems.take 9 ++ [(10, ⟨nameC, nameD, 9, 0.5⟩)]) := by
    simpa [tenItems] using hc
  exact ⟨h, head, s, out, hins, hent2,
    undoLastRoute_removes_record_at_reused_address h head (sampleItems.take 9) s 10
      ⟨nameC, nameD, 9, 0.5⟩ ⟨nameA, nameC, 99, 1.5⟩ 12 hcat hv
      (by rw [htop9]; rfl) hlast (by decide) (by decide)⟩

/-- C18: in a state of the main loop whose heap holds the catalog `L` from
`head` and whose stack is valid, each mutating command runs its operation and
then `saveRoutesToFile` on the result: after command 1 the catalog is `L`
followed by the new record, after command 2 it is `L` without the first record
that has the key, after command 5 it is `L` without the node at the address
popped (or `L` itself when the stack is empty), and in each case, when the file
can be opened, the file holds exactly the serialization of that catalog; the
commands 3 (search) and 4 (display) return the state, file included, as it
was. -/
theorem mainStep_file_in_sync
    (σ : MainState) (L : List (Ptr × Route)) (buf : Route) (p : Ptr) (fuel : Nat)
    (hc : IsCatalog σ.heap σ.head L) (hv : σ.routeStack.Valid) (hp : Fresh σ.heap p)
    (hf : L.length + 1 < fuel) :
    (∃ σ2 out, mainStep fuel 1 buf p true σ = .ok (σ2, out, false) ∧
      IsCatalog σ2.heap σ2.head (L ++ [(p, buf)]) ∧
      σ2.file = some (serialize (L ++ [(p, buf)]))) ∧
    (∃ σ2 out, mainStep fuel 2 buf p true σ = .ok (σ2, out, false) ∧
      IsCatalog σ2.heap σ2.head
        (L.eraseP (hasKey buf.startStation.val buf.destination.val)) ∧
      σ2.file = some (serialize
        (L.eraseP (hasKey buf.startStation.val buf.destination.val)))) ∧
    (∃ σ2 out, mainStep fuel 5 buf p true σ = .ok (σ2, out, false) ∧
      IsCatalog σ2.heap σ2.head
        (if σ.routeStack.top = -1 then L
          else L.eraseP (isAt (σ.routeStack.routes σ.routeStack.top.toNat))) ∧
      σ2.file = some (serialize
        (if σ.routeStack.top = -1 then L
          else L.eraseP (isAt (σ.routeStack.routes σ.routeStack.top.toNat))))) ∧
    (∀ writable, ∃ out, mainStep fuel 3 buf p writable σ = .ok (σ, out, false)) ∧
    (∀ writable, ∃ out, mainStep fuel 4 buf p writable σ = .ok (σ, out, false)) := by
  refine ⟨?_, ?_, ?_, fun w => ?_, fun w => ?_⟩
  · obtain ⟨h2, head2, s2, out, hins, hcat, -⟩ :=
      insertRoute_spec hc hv hp buf.startStation buf.destination buf.stoppages buf.duration
        (f := fuel) (by omega)
    have hsave := saveRoutesToFile_spec hcat (f := fuel) (by simpa using hf) σ.file
    exact ⟨⟨h2, head2, s2, some (serialize (L ++ [(p, buf)]))⟩, out,
      by simp [mainStep, hins, hsave], hcat, rfl⟩
  · obtain ⟨h2, head2, hdel, hcat, -⟩ :=
      deleteRoute_spec hc buf.startStation.val buf.destination.val (f := fuel) (by omega)
    have hlen : (L.eraseP (hasKey buf.startStation.val buf.destination.val)).length < fuel :=
      lt_of_le_of_lt (List.length_eraseP_le L) (by omega)
    have hsave := saveRoutesToFile_spec hcat hlen σ.file
    exact ⟨⟨h2, head2, σ.routeStack,
        some (serialize (L.eraseP (hasKey buf.startStation.val buf.destination.val)))⟩,
      [if L.any (hasKey buf.startStation.val buf.destination.val)
        then Out.deleted buf.startStation.val buf.destination.val
        else Out.notFound buf.startStation.val buf.destination.val],
      by simp [mainStep, hdel, hsave], hcat, rfl⟩
  · by_cases he : σ.routeStack.top = -1
    · have hu : undoLastRoute fuel σ.heap σ.head (some σ.routeStack)
          = .ok (σ.heap, σ.head, σ.routeStack, [Out.stackEmpty]) := by
        simp [undoLastRoute, popStack_empty he]
      have hsave := saveRoutesToFile_spec hc (f := fuel) (by omega) σ.file
      rw [if_pos he]
      exact ⟨⟨σ.heap, σ.head, σ.routeStack, some (serialize L)⟩, [Out.stackEmpty],
        by simp [mainStep, hu, hsave], hc, rfl⟩
    · obtain ⟨h2, head2, hundo, hcat, -⟩ := undoLastRoute_spec hc hv he (f := fuel) (by omega)
      have hlen : (L.eraseP (isAt (σ.routeStack.routes σ.routeStack.top.toNat))).length < fuel :=
        lt_of_le_of_lt (List.length_eraseP_le L) (by omega)
      have hsave := saveRoutesToFile_spec hcat hlen σ.file
      rw [if_neg he]
      exact ⟨⟨h2, head2, { σ.routeStack with top := σ.routeStack.top - 1 },
          some (serialize (L.eraseP (isAt (σ.routeStack.routes σ.routeStack.top.toNat))))⟩,
        if σ.routeStack.routes σ.routeStack.top.toNat ∈ ptrs L then [Out.undone] else [],
        by simp [mainStep, hundo, hsave], hcat, rfl⟩
  · have hlt : L.length < fuel := by omega
    have hs := searchRoute_spec hc buf.startStation.val buf.destination.val hlt
    exact ⟨match L.find? (hasKey buf.startStation.val buf.destination.val) with
        | some x => [Out.routeFound x.2]
        | none => [Out.noRouteFound buf.startStation.val buf.destination.val],
      by simp [mainStep, hs]⟩
  · have hlt : L.length < fuel := by omega
    have hd := displayRoutes_spec hc hlt
    exact ⟨if L = [] then [Out.noRoutes] else (records L).map Out.routeLine,
      by simp [mainStep, hd]⟩

/-- C18 at a concrete state: the two-node catalog of `sampleHeap`, an empty
stack, a file holding the text `old`, and a new record for address 3. -/
theorem mainStep_file_in_sync_witness :
    ∃ σ2 out,
      mainStep 4 1 ⟨nameC, nameD, 4, 0.75⟩ 3 true
          ⟨sampleHeap, 1, ⟨fun _ => NULL, -1⟩, some "old"⟩ = .ok (σ2, out, false) ∧
      IsCatalog σ2.heap σ2.head (sampleCatalog ++ [(3, ⟨nameC, nameD, 4, 0.75⟩)]) ∧
      σ2.file = some (serialize (sampleCatalog ++ [(3, ⟨nameC, nameD, 4, 0.75⟩)])) :=
  (mainStep_file_in_sync ⟨sampleHeap, 1, ⟨fun _ => NULL, -1⟩, some "old"⟩ sampleCatalog
    ⟨nameC, nameD, 4, 0.75⟩ 3 4
    (by simp [IsCatalog, sampleHeap, sampleCatalog, NULL, TrainRoute.record])
    (by decide) (by decide) (by decide)).1

/-- C19: on every heap and `head`, hence on every catalog `L`, for every key
`deleteRoute` of `first.c` returns exactly what `deleteRoute` of `four.c`
returns (heap, `head` and the deleted or not-found message), and for every
field tuple and every valid stack `insertRoute` of `four.c` returns the heap
and `head` that `insertRoute` of `first.c` returns (and faults where it
faults): on a catalog `L` both leave `L` followed by the new record, the stack
only adds the tracking. -/
theorem four_refines_first
    (h : Heap) (head : Ptr) (L : List (Ptr × Route)) (s : RouteStack) (p : Ptr)
    (keyStart keyDestination : String) (startStation destination : Name) (stoppages : Int)
    (duration : Float32) (fuel : Nat)
    (hc : IsCatalog h head L) (hv : s.Valid) (hp : Fresh h p) (hf : L.length < fuel) :
    First.deleteRoute fuel h head keyStart keyDestination
      = deleteRoute fuel h head keyStart keyDestination ∧
    (∃ h2 head2,
      First.deleteRoute fuel h head keyStart keyDestination
        = .ok (h2, head2, [if L.any (hasKey keyStart keyDestination)
            then Out.deleted keyStart keyDestination
            else Out.notFound keyStart keyDestination]) ∧
      IsCatalog h2 head2 (L.eraseP (hasKey keyStart keyDestination))) ∧
    (insertRoute fuel h head (some s) p startStation destination stoppages duration).map
        (fun r => (r.1, r.2.1))
      = First.insertRoute fuel h head p startStation destination stoppages duration ∧
    (∃ h2 head2 s2 out,
      insertRoute fuel h head (some s) p startStation destination stoppages duration
        = .ok (h2, head2, s2, out) ∧
      First.insertRoute fuel h head p startStation destination stoppages duration
        = .ok (h2, head2) ∧
      IsCatalog h2 head2 (L ++ [(p, ⟨startStation, destination, stoppages, duration⟩)])) := by
  have hdel := first_deleteRoute_eq fuel h head keyStart keyDestination
  have hins := first_insertRoute_eq fuel h head p startStation destination stoppages duration hv
  refine ⟨hdel, ?_, hins, ?_⟩
  · obtain ⟨h2, head2, hd, hcat, -⟩ := deleteRoute_spec hc keyStart keyDestination hf
    exact ⟨h2, head2, hdel.trans hd, hcat⟩
  · obtain ⟨h2, head2, s2, out, hi, hcat, -⟩ :=
      insertRoute_spec hc hv hp startStation destination stoppages duration
        (f := fuel) (by omega)
    refine ⟨h2, head2, s2, out, hi, ?_, hcat⟩
    rw [← hins, hi]
    rfl

/-- C19 at a concrete input: the two-node catalog of `sampleHeap`, the key
`("A","B")`, a new record at address 3 and an empty stack. -/
theorem four_refines_first_witness :
    First.deleteRoute 3 sampleHeap 1 "A" "B" = deleteRoute 3 sampleHeap 1 "A" "B" ∧
    (insertRoute 3 sampleHeap 1 (some ⟨fun _ => NULL, -1⟩) 3 nameC nameD 4 0.75).map
        (fun r => (r.1, r.2.1))
      = First.insertRoute 3 sampleHeap 1 3 nameC nameD 4 0.75 :=
  ⟨(four_refines_first sampleHeap 1 sampleCatalog ⟨fun _ => NULL, -1⟩ 3 "A" "B" nameC nameD 4
      0.75 3 (by simp [IsCatalog, sampleHeap, sampleCatalog, NULL, TrainRoute.record])
      (by decide) (by decide) (by decide)).1,
   (four_refines_first sampleHeap 1 sampleCatalog ⟨fun _ => NULL, -1⟩ 3 "A" "B" nameC nameD 4
      0.75 3 (by simp [IsCatalog, sampleHeap, sampleCatalog, NULL, TrainRoute.record])
      (by decide) (by decide) (by decide)).2.2.1⟩

end TrainRoutes
